import Mathlib

/-! # keepass.io: load pipeline, key derivation and key-file credentials

A shallow embedding of
* `lib/Utility/Cryptography.js` (`buildMasterKey`, `transformKey`),
* `lib/Credentials/KeyfileCredential.js`,
* `lib/KeePass/KeePassDatabase.js` (`load`).

Buffers are lists of bytes, JavaScript strings are lists of UTF-16 code units.
The primitives of the host platform (`crypto`, `zlib`, `xml2js`) and the
classes of the repository that are not part of the sources at hand are
parameters of the model, collected in `Platform`.
-/

namespace KeePass

/-! ## Values -/

abbrev Byte := Fin 256

/-- A Node `Buffer`. -/
abbrev Bytes := List Byte

/-- One UTF-16 code unit of a JavaScript string. -/
abbrev CodeUnit := Fin 65536

/-- A JavaScript string. -/
abbrev JsString := List CodeUnit

/-- The character-to-byte step of the `'binary'` encoding: the low eight bits. -/
def lowByte (c : CodeUnit) : Byte := ⟨c.val % 256, Nat.mod_lt _ (by decide)⟩

/-- The byte-to-character step of the `'binary'` encoding. -/
def byteChar (b : Byte) : CodeUnit := ⟨b.val, Nat.lt_trans b.isLt (by decide)⟩

/-- The call `new Buffer(str, 'binary')`, also what `hash.update(str, 'binary')` feeds to the hash. -/
def binaryToBuffer (s : JsString) : Bytes := s.map lowByte

/-- The call `buf.toString('binary')`, also the result of `digest('binary')`. -/
def bufferToBinary (b : Bytes) : JsString := b.map byteChar

/-- Errors raised or reported by the library. -/
inductive JsError where
  /-- The call `new Errors.Argument(msg)` -/
  | argument (msg : String)
  /-- The call `new Error(msg)` -/
  | error (msg : String)
  /-- an out-of-range read on a `Buffer` (`readUInt8`, `readUInt16LE`, `readUInt32LE`) -/
  | range
  /-- an exception raised by a `crypto` cipher (bad key or IV length, wrong final block length) -/
  | cipher
  /-- a `TypeError` (property access on `undefined` or `null`, a non-string where a string is needed) -/
  | type
  /-- an exception that escapes from a call into a library or a class that is
  not part of the sources at hand, named by the call -/
  | library (call : String)
  deriving DecidableEq, Repr

/-- The document tree produced by `xml2js`: a string, an object (its keys in
enumeration order) or an array. -/
inductive Tree where
  | text (s : JsString)
  | obj (fields : List (String × Tree))
  | arr (items : List Tree)
  deriving Repr

/-- What the header hands out for a field: `KeePassHeader.get` returns buffers
for the byte fields and numbers for `TransformRounds` and `CompressionFlags`. -/
inductive FieldValue where
  | undefined
  | buffer (b : Bytes)
  | number (n : Nat)
  deriving DecidableEq, Repr

/-- The header fields the pipeline asks `KeePassHeader.get` for. -/
inductive FieldName where
  | MasterSeed | TransformSeed | TransformRounds | EncryptionIV
  | ProtectedStreamKey | StreamStartBytes | CompressionFlags
  deriving DecidableEq, Repr

/-- The data handed to `fs.writeFile`. -/
inductive WriteData where
  | undefined
  | buffer (b : Bytes)
  deriving DecidableEq, Repr

/-! ## The platform -/

/-- The primitives the code calls and that are not defined in the sources at
hand: Node's `Buffer`, `crypto`, `zlib`, `xml2js`, and the repository's
`KeePassHeader`, `HashedBlockIO` and Salsa20 keystream. -/
structure Platform where
  /-- The call `crypto.createHash('sha256').update(b).digest()` -/
  sha256 : Bytes → Bytes
  /-- The call `createCipheriv('aes-256-ecb', key, iv)`, `setAutoPadding(false)`, then
  `update(data)` followed by `final()`; `none` when one of them throws -/
  aes256ecb : Bytes → JsString → Bytes → Option Bytes
  /-- whether `createDecipheriv('aes-256-cbc', key, iv)` returns (rather than throws) -/
  cbcAccepts : Bytes → FieldValue → Bool
  /-- The call `update(data)` followed by `final()` on that decipher with automatic
  padding; `none` when one of them throws -/
  cbcDecrypt : Bytes → FieldValue → Bytes → Option Bytes
  /-- The call `buf.toString('utf8')`, also `buf.toString()` -/
  utf8Decode : Bytes → JsString
  /-- The call `new Buffer(str, 'base64')` for a string -/
  base64Decode : JsString → Bytes
  /-- The call `new Buffer(value, 'base64')` for an object or an array; `none` when it throws -/
  bufferFromObject : Tree → Option Bytes
  /-- The call `KeePassHeader.hasField(id)` -/
  hasField : Nat → Bool
  /-- The call `KeePassHeader.get(name)` on a header that received the given `set` calls, oldest first -/
  headerGet : List (Nat × Bytes) → FieldName → FieldValue
  /-- The call `HashedBlockIO.decrypt(buf)`; `Except.error` carries the text of the exception -/
  hbioDecrypt : Bytes → Except String Bytes
  /-- The call `zlib.gunzip(buf, cb)`; `Except.error` carries the text of the error -/
  gunzip : Bytes → Except String Bytes
  /-- The call `xml2js.parseString(buf, {}, cb)`; `Except.error` carries the text of the error -/
  parseXml : Bytes → Except String Tree
  /-- the Salsa20 keystream for a key and an IV: the byte at a position -/
  salsaKeystream : Bytes → Bytes → Nat → Byte
  /-- the text of `buf.toString('base64')` -/
  base64Encode : Bytes → JsString
  /-- the result of `new xml2js.Builder().buildObject(value)`, `none` for the
  argument standing for `null`; `none` as result when it throws -/
  buildObject : Option Tree → Option JsString
  /-- the result of `zlib.gzip(str, cb)`; `Except.error` carries the text of the error -/
  gzip : JsString → Except String Bytes
  /-- the result of `HashedBlockIO.encrypt(buf)`; `none` when it throws -/
  hbioEncrypt : Bytes → Option Bytes
  /-- the result of `createCipheriv('aes-256-cbc', key, iv)` followed by
  `update(data)` and `final()`; `none` when one of them throws -/
  cbcEncrypt : Bytes → FieldValue → Bytes → Option Bytes
  /-- the result of `KeePassHeader.buildHeader(headerLength)` on a header that
  received the given `set` calls (`none` as length is `null`); `none` when it throws -/
  buildHeader : List (Nat × Bytes) → Option Nat → Option Bytes
  /-- the effect of `fs.writeFile(path, data, cb)` as far as the caller sees it:
  `Except.error` when the call throws, otherwise the `err` handed to `cb`
  (`none` is `null`) -/
  writeFile : String → WriteData → Except JsError (Option JsError)

/-! ## `Cryptography.js` -/

/-- The loop `while(rounds--) { ... }` of `transformKey`: each round creates an
AES-256-ECB cipher keyed by `seed`, disables padding and replaces `key` by the
encryption of `key`. -/
def transformKeyLoop (P : Platform) (seed : Bytes) (iv : JsString) :
    Nat → Bytes → Except JsError Bytes
  | 0, key => .ok key
  | rounds + 1, key =>
    match P.aes256ecb seed iv key with
    | none => .error .cipher
    | some key' => transformKeyLoop P seed iv rounds key'

/-- The call `Cryptography.transformKey(key, seed, iv, rounds)` for string `key`, `seed`,
`iv` and a non-negative integer `rounds` (the `typeof` guards pass). -/
def transformKey (P : Platform) (key seed iv : JsString) (rounds : Nat) :
    Except JsError Bytes :=
  transformKeyLoop P (binaryToBuffer seed) iv rounds (binaryToBuffer key)

/-- The call `Cryptography.buildMasterKey(compositeHash, masterSeed, transformSeed, transformRounds)`
for string arguments and a non-negative integer round count (the `typeof`
guards pass); the branch guarded by `false && ...` is never taken. -/
def buildMasterKey (P : Platform) (compositeHash masterSeed transformSeed : JsString)
    (transformRounds : Nat) : Except JsError Bytes :=
  match transformKey P compositeHash transformSeed [] transformRounds with
  | .error e => .error e
  | .ok transformed =>
    -- update(transformedHash, 'binary') on a Buffer hashes the buffer; digest('binary')
    let transformedHash : JsString := bufferToBinary (P.sha256 transformed)
    let masterKey : JsString := masterSeed ++ transformedHash
    let masterKey : JsString := bufferToBinary (P.sha256 (binaryToBuffer masterKey))
    .ok (binaryToBuffer masterKey)

/-- One round of the key transformation as the specification words it:
unpadded AES-256-ECB encryption under `seed`, failing when the cipher rejects
its input. -/
def encryptRound (P : Platform) (seed : Bytes) (r : Except JsError Bytes) :
    Except JsError Bytes :=
  match r with
  | .error e => .error e
  | .ok v =>
    match P.aes256ecb seed [] v with
    | none => .error .cipher
    | some w => .ok w

/-! ## `KeyfileCredential.js` -/

/-- A value a caller may hand to a constructor. -/
inductive JsValue where
  | undefined
  | null
  | boolean (b : Bool)
  | string (s : JsString)
  | number (n : Int)
  | object
  | buffer (b : Bytes)
  deriving DecidableEq, Repr

/-- What `__hashBuffer` holds: a `Buffer` or a string. -/
inductive HashValue where
  | buffer (b : Bytes)
  | string (s : JsString)
  deriving DecidableEq, Repr

/-- The characters `<Data>`. -/
def openTag : JsString := [60, 68, 97, 116, 97, 62]

/-- The characters `</Data>`. -/
def closeTag : JsString := [60, 47, 68, 97, 116, 97, 62]

/-- The characters the regular-expression atom `.` does not match. -/
def isLineTerminator (c : CodeUnit) : Bool :=
  c.val == 0x0A || c.val == 0x0D || c.val == 0x2028 || c.val == 0x2029

/-- The part `(.*?)<\/Data>` of the pattern, tried at the start of the given
text: the lazy star first tries the closing tag, and only when that fails takes
one more character that is not a line terminator. Returns the capture. -/
def lazyUntilClose : JsString → Option JsString
  | [] => none
  | c :: rest =>
    if closeTag.isPrefixOf (c :: rest) then some []
    else if isLineTerminator c then none
    else (lazyUntilClose rest).map (c :: ·)

/-- The pattern `/<Data>(.*?)<\/Data>/` tried at the start of the given text. -/
def matchHere (text : JsString) : Option JsString :=
  if openTag.isPrefixOf text then lazyUntilClose (text.drop openTag.length) else none

/-- The capture group of `str.match(/<Data>(.*?)<\/Data>/)`: the pattern is
tried at every start position from the left; `none` when the result is `null`. -/
def matchData : JsString → Option JsString
  | [] => none
  | c :: rest =>
    match matchHere (c :: rest) with
    | some capture => some capture
    | none => matchData rest

/-- One hexadecimal digit, lower case. -/
def hexDigit (n : Nat) : CodeUnit :=
  if n < 10 then ⟨48 + n % 16, by omega⟩ else ⟨87 + n % 16, by omega⟩

/-- The call `digest('hex')` of the digest bytes. -/
def hexEncode : Bytes → JsString
  | [] => []
  | b :: rest => hexDigit (b.val / 16) :: hexDigit (b.val % 16) :: hexEncode rest

/-- The fields of a `KeyfileCredential`. -/
structure KeyfileCredential where
  hashBuffer : HashValue
  isBinary : Bool
  deriving DecidableEq, Repr

/-- The constructor `new KeyfileCredential(keyBuff)`, which runs the method
`initialize(keyBuff)` of the class. -/
def newKeyfileCredential (P : Platform) (keyBuff : JsValue) :
    Except JsError KeyfileCredential :=
  match keyBuff with
  | .buffer b =>
    match matchData (P.utf8Decode b) with
    | some capture => .ok { isBinary := false, hashBuffer := .buffer (P.base64Decode capture) }
    | none => .ok { isBinary := true, hashBuffer := .string (hexEncode (P.sha256 b)) }
  | _ => .error (.argument "Expected `keyBuff` to be a Node buffer")

/-- The call `getType()` -/
def KeyfileCredential.getType (c : KeyfileCredential) : String :=
  if c.isBinary then "binary" else "xml"

/-- The call `getHash()` -/
def KeyfileCredential.getHash (c : KeyfileCredential) : HashValue := c.hashBuffer

/-- The call `getPriority()` -/
def KeyfileCredential.getPriority (_c : KeyfileCredential) : Nat := 100

/-! ## `KeePassDatabase.js`: state and results -/

/-- The fields of a `KeePassDatabase` instance. `header` is the `KeePassHeader`
seen as the `set` calls it received, oldest first; `api` is the tree handed to
`KeePassApi.$passDatabase`. -/
structure KeePassDatabase where
  header : List (Nat × Bytes) := []
  headerLength : Option Nat := none
  payloadOffset : Option Nat := none
  fileVersion : Option Nat := none
  masterKey : Option Bytes := none
  api : Option Tree := none

/-- The constant `BASE_SIGNATURE` -/
def BASE_SIGNATURE : Nat := 0x9AA2D903

/-- The constant `VERSION_SIGNATURE` -/
def VERSION_SIGNATURE : Nat := 0xB54BFB67

/-- The constant `SALSA_IV` -/
def SALSA_IV : Bytes := [0xE8, 0x30, 0x09, 0x4B, 0x97, 0x20, 0x5D, 0x2A]

/-- The tasks of the `async.waterfall` in `load`. -/
inductive Stage where
  | checkSignatures | parseDatabaseHeader | buildMasterKey | decryptDatabase
  | decompressDatabase | parseAsXml | unlockProtectedEntries | passToApi
  deriving DecidableEq, Repr

/-- The ways a task ends the waterfall: it calls its callback with an error,
which `async.waterfall` hands to the final callback; it throws, and the final
callback is not called; or it returns without ever calling its callback
(`pending`, which also stands for a loop that does not end). -/
inductive Halt where
  | callbackError (e : JsError)
  | thrown (e : JsError)
  | pending
  deriving DecidableEq, Repr

/-- What a task does: it calls `callback(null, value)` or it halts the waterfall. -/
inductive StageResult (α : Type) where
  | next (value : α)
  | halt (h : Halt)

/-- How a call of `load` ends: `completed` is the final `callback(null)`. -/
inductive Outcome where
  | completed
  | halted (h : Halt)
  deriving DecidableEq, Repr

/-- The result of running `load`: the instance afterwards, the tasks that were
started, in order, and the way the call ended. -/
structure LoadResult where
  db : KeePassDatabase
  trace : List Stage
  outcome : Outcome

/-- Records that a task ran before the ones of `r`. -/
def LoadResult.after (s : Stage) (r : LoadResult) : LoadResult :=
  { r with trace := s :: r.trace }

/-- The `CredentialStore` handed to `load`, seen through the one method the
pipeline calls: the result of `buildCompositeHash()`, or the error it throws. -/
structure CredentialStore where
  buildCompositeHash : Except JsError Bytes

/-! ## Reading from a `Buffer` -/

/-- The byte at an index, as a number; 0 outside the buffer. -/
def byteAt (b : Bytes) (i : Nat) : Nat := (b.getD i 0).val

/-- The little-endian 16-bit number at an offset. -/
def uint16LE (b : Bytes) (offset : Nat) : Nat := byteAt b offset + 256 * byteAt b (offset + 1)

/-- The little-endian 32-bit number at an offset. -/
def uint32LE (b : Bytes) (offset : Nat) : Nat :=
  byteAt b offset + 256 * byteAt b (offset + 1) + 65536 * byteAt b (offset + 2)
    + 16777216 * byteAt b (offset + 3)

/-- The call `buf.readUInt8(offset)`: a read that reaches beyond the buffer throws. -/
def readUInt8 (b : Bytes) (offset : Nat) : Except JsError Nat :=
  if offset + 1 ≤ b.length then .ok (byteAt b offset) else .error .range

/-- The call `buf.readUInt16LE(offset)` -/
def readUInt16LE (b : Bytes) (offset : Nat) : Except JsError Nat :=
  if offset + 2 ≤ b.length then .ok (uint16LE b offset) else .error .range

/-- The call `buf.readUInt32LE(offset)` -/
def readUInt32LE (b : Bytes) (offset : Nat) : Except JsError Nat :=
  if offset + 4 ≤ b.length then .ok (uint32LE b offset) else .error .range

/-- The call `buf.slice(start, end)` for `0 ≤ start ≤ end`: the indices are clamped to the buffer. -/
def slice (b : Bytes) (start stop : Nat) : Bytes := (b.drop start).take (stop - start)

/-! ## `load`: the tasks -/

/-- The task `checkSignatures`. -/
def checkSignatures (fileContents : Bytes) (db : KeePassDatabase) :
    KeePassDatabase × StageResult Unit :=
  match readUInt32LE fileContents 0 with
  | .error e => (db, .halt (.thrown e))
  | .ok baseSignature =>
  match readUInt32LE fileContents 4 with
  | .error e => (db, .halt (.thrown e))
  | .ok versionSignature =>
  match readUInt32LE fileContents 8 with
  | .error e => (db, .halt (.thrown e))
  | .ok fileVersion =>
    if baseSignature ≠ BASE_SIGNATURE then
      (db, .halt (.callbackError
        (.error "Database base signature does not match. File might be corrupt.")))
    else if versionSignature ≠ VERSION_SIGNATURE then
      (db, .halt (.callbackError
        (.error "Sorry, your database version is not supported by this library.")))
    else
      ({ db with fileVersion := some fileVersion }, .next ())

/-- The loop `while(true) { ... }` of `parseDatabaseHeader`, from `currentOffset`.
The first argument bounds the number of iterations; `parseHeaderLoop_ends` shows
that one more than the length of the file is enough, every iteration that goes
on having read a byte inside the file. -/
def parseHeaderLoop (P : Platform) (fileContents : Bytes) :
    Nat → Nat → KeePassDatabase → KeePassDatabase × StageResult Unit
  | 0, _, db => (db, .halt .pending)
  | fuel + 1, currentOffset, db =>
    match readUInt8 fileContents currentOffset with
    | .error e => (db, .halt (.thrown e))
    | .ok fieldID =>
      let currentOffset := currentOffset + 1
      if !P.hasField fieldID then
        (db, .halt (.callbackError
          (.error "Invalid header field ID. The database might be corrupt.")))
      else
        match readUInt16LE fileContents currentOffset with
        | .error e => (db, .halt (.thrown e))
        | .ok fieldLength =>
          let currentOffset := currentOffset + 2
          -- `fieldLength < 0` never holds for the result of `readUInt16LE`
          let fieldData := slice fileContents currentOffset (currentOffset + fieldLength)
          let db' : KeePassDatabase :=
            if fieldLength > 0 then { db with header := db.header ++ [(fieldID, fieldData)] }
            else db
          let currentOffset := if fieldLength > 0 then currentOffset + fieldLength
            else currentOffset
          if fieldID = 0 then
            ({ db' with headerLength := some (currentOffset - 12),
                        payloadOffset := some currentOffset }, .next ())
          else parseHeaderLoop P fileContents fuel currentOffset db'

/-- The task `parseDatabaseHeader`. -/
def parseDatabaseHeader (P : Platform) (fileContents : Bytes) (db : KeePassDatabase) :
    KeePassDatabase × StageResult Unit :=
  parseHeaderLoop P fileContents (fileContents.length + 1) 12 db

/-- The call `value.toString('binary')` on what `KeePassHeader.get` returned: only a
buffer has such a method call succeed. -/
def FieldValue.toBinaryString : FieldValue → Except JsError JsString
  | .buffer b => .ok (bufferToBinary b)
  | .undefined => .error .type
  | .number _ => .error .range

/-- The task `buildMasterKey`. -/
def buildMasterKeyStage (P : Platform) (credentialStore : CredentialStore)
    (db : KeePassDatabase) : KeePassDatabase × StageResult Unit :=
  match credentialStore.buildCompositeHash with
  | .error e => (db, .halt (.thrown e))
  | .ok composite =>
  match (P.headerGet db.header .MasterSeed).toBinaryString with
  | .error e => (db, .halt (.thrown e))
  | .ok masterSeed =>
  match (P.headerGet db.header .TransformSeed).toBinaryString with
  | .error e => (db, .halt (.thrown e))
  | .ok transformSeed =>
  match P.headerGet db.header .TransformRounds with
  | .number rounds =>
    match buildMasterKey P (bufferToBinary composite) masterSeed transformSeed rounds with
    | .error e => (db, .halt (.thrown e))
    | .ok key => ({ db with masterKey := some key }, .next ())
  | _ => (db, .halt (.thrown (.argument "Expected `transformRounds` to be a Number")))

/-- The task `decryptDatabase`. -/
def decryptDatabase (P : Platform) (fileContents : Bytes) (db : KeePassDatabase) :
    KeePassDatabase × StageResult Bytes :=
  let masterKey := db.masterKey.getD []
  let iv := P.headerGet db.header .EncryptionIV
  if !P.cbcAccepts masterKey iv then (db, .halt (.thrown .cipher))
  else
    let database : JsString := bufferToBinary (fileContents.drop (db.payloadOffset.getD 0))
    match P.cbcDecrypt masterKey iv (binaryToBuffer database) with
    | none => (db, .halt (.callbackError (.error
        "Could not decrypt database. Either the credentials were invalid or the database is corrupt.")))
    | some plain =>
      let database : Bytes := binaryToBuffer (bufferToBinary plain)
      match (P.headerGet db.header .StreamStartBytes).toBinaryString with
      | .error e => (db, .halt (.thrown e))
      | .ok headerStartBytes =>
        let streamStartBytes : Bytes := slice database 0 headerStartBytes.length
        -- string != Buffer: the buffer is converted with its `toString()`
        if headerStartBytes ≠ P.utf8Decode streamStartBytes then
          match P.hbioDecrypt (database.drop headerStartBytes.length) with
          | .error err => (db, .halt (.callbackError (.error
              ("Database integrity check failed: " ++ err))))
          | .ok database => (db, .next database)
        else
          (db, .halt (.callbackError (.error
            "Stream start bytes were invalid. Either the credentials were invalid or the database is corrupt.")))

/-- The task `decompressDatabase`: there is no branch for a `CompressionFlags`
other than 1, so the callback is then never called. -/
def decompressDatabase (P : Platform) (database : Bytes) (db : KeePassDatabase) :
    KeePassDatabase × StageResult Bytes :=
  if P.headerGet db.header .CompressionFlags = .number 1 then
    match P.gunzip database with
    | .error err => (db, .halt (.callbackError (.error
        ("Could not decompress database: " ++ err))))
    | .ok database => (db, .next database)
  else (db, .halt .pending)

/-- The task `parseAsXml`. -/
def parseAsXml (P : Platform) (database : Bytes) (db : KeePassDatabase) :
    KeePassDatabase × StageResult Tree :=
  match P.parseXml database with
  | .error err => (db, .halt (.callbackError (.error
      ("Could not parse database as XML: " ++ err))))
  | .ok tree => (db, .next tree)

/-! ## The protected entries -/

/-- Modelled from the spec: the class `SalsaManager` (`lib/Utility/SalsaManager.js`
is not among the sources at hand). An instance holds the position reached in
one continuous keystream. -/
structure SalsaManager where
  key : Bytes
  iv : Bytes
  position : Nat := 0
  /-- the number of `unpack` calls made so far (kept for the proofs; the code has no such field) -/
  calls : Nat := 0

/-- A character XORed with a keystream byte. -/
def xorChar (c : CodeUnit) (k : Byte) : CodeUnit :=
  ⟨c.val ^^^ k.val, Nat.xor_lt_two_pow (n := 16) c.isLt (Nat.lt_trans k.isLt (by decide))⟩

/-- The characters XORed with the keystream bytes from a position on. -/
def keystreamXor (P : Platform) (key iv : Bytes) : Nat → JsString → JsString
  | _, [] => []
  | position, c :: rest =>
    xorChar c (P.salsaKeystream key iv position) :: keystreamXor P key iv (position + 1) rest

/-- Modelled from the spec: `SalsaManager.unpack(input)` XORs its input with
the next bytes of the keystream and advances the position by the length of
the input. -/
def SalsaManager.unpack (P : Platform) (m : SalsaManager) (input : JsString) :
    JsString × SalsaManager :=
  (keystreamXor P m.key m.iv m.position input,
    { m with position := m.position + input.length, calls := m.calls + 1 })

/-- The expression `object[key]`; `none` is `undefined`. -/
def lookupKey (key : String) : List (String × Tree) → Option Tree
  | [] => none
  | (k, v) :: rest => if k = key then some v else lookupKey key rest

/-- The expression `object[key] = value`: an existing key keeps its place, a new key comes last. -/
def assignKey (key : String) (value : Tree) : List (String × Tree) → List (String × Tree)
  | [] => [(key, value)]
  | (k, v) :: rest => if k = key then (key, value) :: rest else (k, v) :: assignKey key value rest

/-- The characters `[object Object]`. -/
def objectObject : JsString :=
  [91, 111, 98, 106, 101, 99, 116, 32, 79, 98, 106, 101, 99, 116, 93]

mutual
/-- The string a value converts to in a `==` comparison with a string. -/
def Tree.toJsString : Tree → JsString
  | .text s => s
  | .obj _ => objectObject
  | .arr items => joinItems items
/-- The expression `Array.prototype.join` with the separator `,`. -/
def joinItems : List Tree → JsString
  | [] => []
  | t :: rest =>
    match rest with
    | [] => t.toJsString
    | _ :: _ => t.toJsString ++ [44] ++ joinItems rest
end

/-- The characters `True`. -/
def trueString : JsString := [84, 114, 117, 101]

/-- The expression `object['$']['Protected'] == 'True'` for an object that has a `$` entry
(given as the value of that entry). -/
def protectedIsTrue (attributes : Tree) : Bool :=
  match attributes with
  | .obj a =>
    match lookupKey "Protected" a with
    | some v => decide (v.toJsString = trueString)
    | none => false
  | _ => false

/-- The function handed to `searchProtectedEntries` by `unlockProtectedEntries`,
applied to an object given by its entries. -/
def unlockFound (P : Platform) (salsaManager : SalsaManager) (object : List (String × Tree)) :
    Except JsError (SalsaManager × List (String × Tree)) :=
  match lookupKey "$" object with
  | none => .error .type
  | some attributes =>
    if protectedIsTrue attributes then
      let decoded : Option Bytes :=
        match lookupKey "_" object with
        | none => none
        | some (.text s) => some (P.base64Decode s)
        | some t => P.bufferFromObject t
      match decoded with
      | none => .error .type
      | some buffer =>
        let unlocked := salsaManager.unpack P (bufferToBinary buffer)
        .ok (unlocked.2, assignKey "_" (.text unlocked.1) object)
    else .ok (salsaManager, object)

/-- What `parentObject` is in a call of `searchProtectedEntries`. -/
inductive ParentKind where
  | null | array | object
  deriving DecidableEq, Repr

/-- The `parentObject` of a call `searchProtectedEntries(object, parentObject, foundFn)`:
for an object its entries as they are now, the key under which `object` was
found in it, and whether that key still holds `object` (an assignment to
`parentObject['_']` replaces an `object` that was found under `_`). -/
structure ParentRef where
  kind : ParentKind
  fields : List (String × Tree) := []
  slot : String := ""
  attached : Bool := true

/-- The call `foundFn(parentObject)`, `self` being the entries of the object
that is searched. Both functions handed to `searchProtectedEntries` begin with
`object['$']['Protected']`, which throws for `null` and for an array. -/
def callFound (found : SalsaManager → List (String × Tree) →
      Except JsError (SalsaManager × List (String × Tree)))
    (self : List (String × Tree)) (parent : ParentRef) (salsaManager : SalsaManager) :
    Except JsError (SalsaManager × ParentRef) :=
  match parent.kind with
  | .null => .error .type
  | .array => .error .type
  | .object =>
    let view := if parent.attached then assignKey parent.slot (.obj self) parent.fields
      else parent.fields
    match found salsaManager view with
    | .error e => .error e
    | .ok (m, view') =>
      let replaced : Bool := parent.slot = "_" &&
        (match lookupKey "_" view' with
         | some (.text _) => true
         | _ => false)
      .ok (m, { parent with fields := view', attached := parent.attached && !replaced })

/-- Whether `object[key]` is a string now, `value` being what it was when the
search of `object` began: only `object['_']` is ever assigned to, and only strings. -/
def nowString (key : String) (value : Tree) (self : List (String × Tree)) : Bool :=
  match value with
  | .text _ => true
  | _ =>
    key = "_" &&
      (match lookupKey "_" self with
       | some (.text _) => true
       | _ => false)

mutual
/-- The call `searchProtectedEntries(value, parentObject, foundFn)`: the result is the
keystream state, the value and the parent afterwards. -/
def searchValue (found : SalsaManager → List (String × Tree) →
      Except JsError (SalsaManager × List (String × Tree))) :
    Tree → ParentRef → SalsaManager → Except JsError (SalsaManager × Tree × ParentRef)
  | .text s, parent, m => .ok (m, .text s, parent)
  | .obj fields, parent, m =>
    match searchFields found fields fields parent m with
    | .error e => .error e
    | .ok (m', self, parent') => .ok (m', .obj self, parent')
  | .arr items, parent, m =>
    match searchItems found items m with
    | .error e => .error e
    | .ok (m', items') => .ok (m', .arr items', parent)
/-- The loop `for(var key in object)` over the keys that remain, `self` being
the entries of `object` as they are now. -/
def searchFields (found : SalsaManager → List (String × Tree) →
      Except JsError (SalsaManager × List (String × Tree))) :
    List (String × Tree) → List (String × Tree) → ParentRef → SalsaManager →
      Except JsError (SalsaManager × List (String × Tree) × ParentRef)
  | [], self, parent, m => .ok (m, self, parent)
  | (key, value) :: rest, self, parent, m =>
    if key = "Protected" then
      match callFound found self parent m with
      | .error e => .error e
      | .ok (m', parent') => searchFields found rest self parent' m'
    else if nowString key value self then searchFields found rest self parent m
    else
      match searchValue found value { kind := .object, fields := self, slot := key } m with
      | .error e => .error e
      | .ok (m', value', me) =>
        let self' := if me.attached then assignKey key value' me.fields else me.fields
        searchFields found rest self' parent m'
/-- The same loop over the elements of an array that remain. -/
def searchItems (found : SalsaManager → List (String × Tree) →
      Except JsError (SalsaManager × List (String × Tree))) :
    List Tree → SalsaManager → Except JsError (SalsaManager × List Tree)
  | [], m => .ok (m, [])
  | item :: rest, m =>
    match searchValue found item { kind := .array } m with
    | .error e => .error e
    | .ok (m', item', _) =>
      match searchItems found rest m' with
      | .error e => .error e
      | .ok (m'', rest') => .ok (m'', item' :: rest')
end

/-- The task `unlockProtectedEntries`. -/
def unlockProtectedEntries (P : Platform) (database : Tree) (db : KeePassDatabase) :
    KeePassDatabase × StageResult Tree :=
  match P.headerGet db.header .ProtectedStreamKey with
  | .buffer salsaKey =>
    let salsaManager : SalsaManager := { key := P.sha256 salsaKey, iv := SALSA_IV }
    match searchValue (unlockFound P) database { kind := .null } salsaManager with
    | .error e => (db, .halt (.thrown e))
    | .ok (_, database', _) => (db, .next database')
  | _ => (db, .halt (.thrown .type))

/-- The task `passToApi`. -/
def passToApi (database : Tree) (db : KeePassDatabase) : KeePassDatabase × StageResult Unit :=
  ({ db with api := some database }, .next ())

/-! ## `load`: the waterfall -/

/-- The waterfall from `passToApi` on. -/
def loadFromPassToApi (database : Tree) (db : KeePassDatabase) : LoadResult :=
  match passToApi database db with
  | (db', .halt h) => ⟨db', [.passToApi], .halted h⟩
  | (db', .next _) => ⟨db', [.passToApi], .completed⟩

/-- The waterfall from `unlockProtectedEntries` on. -/
def loadFromUnlock (P : Platform) (database : Tree) (db : KeePassDatabase) : LoadResult :=
  match unlockProtectedEntries P database db with
  | (db', .halt h) => ⟨db', [.unlockProtectedEntries], .halted h⟩
  | (db', .next tree) => (loadFromPassToApi tree db').after .unlockProtectedEntries

/-- The waterfall from `parseAsXml` on. -/
def loadFromParse (P : Platform) (database : Bytes) (db : KeePassDatabase) : LoadResult :=
  match parseAsXml P database db with
  | (db', .halt h) => ⟨db', [.parseAsXml], .halted h⟩
  | (db', .next tree) => (loadFromUnlock P tree db').after .parseAsXml

/-- The waterfall from `decompressDatabase` on. -/
def loadFromDecompress (P : Platform) (database : Bytes) (db : KeePassDatabase) : LoadResult :=
  match decompressDatabase P database db with
  | (db', .halt h) => ⟨db', [.decompressDatabase], .halted h⟩
  | (db', .next database') => (loadFromParse P database' db').after .decompressDatabase

/-- The waterfall from `decryptDatabase` on. -/
def loadFromDecrypt (P : Platform) (fileContents : Bytes) (db : KeePassDatabase) : LoadResult :=
  match decryptDatabase P fileContents db with
  | (db', .halt h) => ⟨db', [.decryptDatabase], .halted h⟩
  | (db', .next database) => (loadFromDecompress P database db').after .decryptDatabase

/-- The waterfall from `buildMasterKey` on. -/
def loadFromMasterKey (P : Platform) (fileContents : Bytes) (credentialStore : CredentialStore)
    (db : KeePassDatabase) : LoadResult :=
  match buildMasterKeyStage P credentialStore db with
  | (db', .halt h) => ⟨db', [.buildMasterKey], .halted h⟩
  | (db', .next _) => (loadFromDecrypt P fileContents db').after .buildMasterKey

/-- The waterfall from `parseDatabaseHeader` on. -/
def loadFromHeader (P : Platform) (fileContents : Bytes) (credentialStore : CredentialStore)
    (db : KeePassDatabase) : LoadResult :=
  match parseDatabaseHeader P fileContents db with
  | (db', .halt h) => ⟨db', [.parseDatabaseHeader], .halted h⟩
  | (db', .next _) =>
    (loadFromMasterKey P fileContents credentialStore db').after .parseDatabaseHeader

/-- The call `KeePassDatabase.load(fileContents, credentialStore, callback)` for a
`Buffer` and a function (the two assertions pass): `async.waterfall` runs the
tasks in order, each with what the one before handed to its callback, and
stops at the first that reports an error. -/
def load (P : Platform) (fileContents : Bytes) (credentialStore : CredentialStore)
    (db : KeePassDatabase) : LoadResult :=
  match checkSignatures fileContents db with
  | (db', .halt h) => ⟨db', [.checkSignatures], .halted h⟩
  | (db', .next _) =>
    (loadFromHeader P fileContents credentialStore db').after .checkSignatures

/-! ## A platform to run the model on -/

/-- The number of the header field a name stands for, in the KDBX header. -/
def FieldName.id : FieldName → Nat
  | .CompressionFlags => 3
  | .MasterSeed => 4
  | .TransformSeed => 5
  | .TransformRounds => 6
  | .EncryptionIV => 7
  | .ProtectedStreamKey => 8
  | .StreamStartBytes => 9

/-- A platform with small stand-ins for the primitives, used to run the model
on concrete inputs: the digest is 32 copies of the byte sum, the ciphers
reverse their input, decoders are the identity on bytes below 128. -/
def demoPlatform : Platform where
  sha256 := fun b => List.replicate 32 ⟨(b.map Fin.val).sum % 256, Nat.mod_lt _ (by decide)⟩
  aes256ecb := fun key iv data =>
    if key.length = 32 ∧ iv = [] ∧ data.length % 16 = 0 then some data.reverse else none
  cbcAccepts := fun key iv =>
    match iv with
    | .buffer b => decide (key.length = 32 ∧ b.length = 16)
    | _ => false
  cbcDecrypt := fun _ _ data => if data.length % 16 = 0 ∧ data ≠ [] then some data.reverse else none
  utf8Decode := fun b => b.map byteChar
  base64Decode := fun s => s.map lowByte
  bufferFromObject := fun _ => some []
  hasField := fun id => decide (id ≤ 10)
  headerGet := fun sets name =>
    match sets.reverse.find? (fun p => p.1 == name.id), name with
    | none, _ => .undefined
    | some p, .CompressionFlags => .number (byteAt p.2 0)
    | some p, .TransformRounds => .number (byteAt p.2 0)
    | some p, _ => .buffer p.2
  hbioDecrypt := fun b => if b.length % 2 = 0 then .ok b else .error "Error: hash mismatch"
  gunzip := fun b =>
    match b with
    | [] => .error "Error: unexpected end of file"
    | _ :: rest => .ok rest
  parseXml := fun b => .ok (.text (b.map byteChar))
  salsaKeystream := fun _ _ position => ⟨position % 256, Nat.mod_lt _ (by decide)⟩
  base64Encode := fun b => b.map byteChar
  buildObject := fun t =>
    match t with
    | none => some []
    | some tree => some tree.toJsString
  gzip := fun s => if s = [] then .error "Error: nothing to compress" else .ok (0 :: s.map lowByte)
  hbioEncrypt := fun b => some b
  cbcEncrypt := fun key iv data =>
    match iv with
    | .buffer b => if key.length = 32 ∧ b.length = 16 then some data.reverse else none
    | _ => none
  buildHeader := fun sets length => some (List.replicate (length.getD 0) ⟨sets.length % 256,
    Nat.mod_lt _ (by decide)⟩)
  writeFile := fun _ _ => .ok none

/-! ## What the pattern `<Data>(.*?)</Data>` means -/

/-- The pattern matches `text` from the position after `before`, with
`content` as the captured group: the opening tag, characters that are not
line terminators, the closing tag. -/
def DataMatch (text before content : JsString) : Prop :=
  ∃ after, text = before ++ openTag ++ content ++ closeTag ++ after
    ∧ ∀ c ∈ content, isLineTerminator c = false

/-- The match that `match` reports: the one that starts first and, among
those that start there, the one with the shortest content. -/
def FirstShortestDataMatch (text content : JsString) : Prop :=
  ∃ before, DataMatch text before content
    ∧ ∀ before' content', DataMatch text before' content' →
        before.length < before'.length
          ∨ (before.length = before'.length ∧ content.length ≤ content'.length)

/-! ## The header region as a sequence of fields -/

/-- A header field of the file: a 1-byte ID and the value bytes. -/
structure HeaderField where
  id : Byte
  value : Bytes

/-- The low byte of a length. -/
def lengthLow (n : Nat) : Byte := ⟨n % 256, Nat.mod_lt _ (by decide)⟩

/-- The high byte of a length. -/
def lengthHigh (n : Nat) : Byte := ⟨n / 256 % 256, Nat.mod_lt _ (by decide)⟩

/-- The bytes of a field in the file: the ID, the length of the value as a
little-endian 16-bit number, the value. -/
def HeaderField.encode (f : HeaderField) : Bytes :=
  f.id :: lengthLow f.value.length :: lengthHigh f.value.length :: f.value

/-- The bytes of a sequence of fields. -/
def encodeFields : List HeaderField → Bytes
  | [] => []
  | f :: rest => f.encode ++ encodeFields rest

/-- The `set` calls for a sequence of fields: one for each field with a
non-empty value, in order. -/
def storedFields : List HeaderField → List (Nat × Bytes)
  | [] => []
  | f :: rest =>
    if f.value.length > 0 then (f.id.val, f.value) :: storedFields rest else storedFields rest

/-- The number of bytes of a sequence of fields: 3 + L for each. -/
def fieldsLength : List HeaderField → Nat
  | [] => 0
  | f :: rest => (3 + f.value.length) + fieldsLength rest

/-- A field the header loop reads and goes on from: its ID is not 0 and is
known to the header, its length fits the 16 bits of the length field. -/
def HeaderField.Inner (P : Platform) (f : HeaderField) : Prop :=
  f.id.val ≠ 0 ∧ P.hasField f.id.val = true ∧ f.value.length < 65536

/-- A file begins with valid signatures. -/
def ValidPrologue (prologue : Bytes) : Prop :=
  prologue.length = 12 ∧ uint32LE prologue 0 = BASE_SIGNATURE
    ∧ uint32LE prologue 4 = VERSION_SIGNATURE

/-! ## `save`: the tasks -/

/-- The function handed to `searchProtectedEntries` by `lockProtectedEntries`,
applied to an object given by its entries. Modelled from the spec:
`SalsaManager.unpack` takes a string; for any other value of `object['_']`
the model raises a `TypeError`. -/
def lockFound (P : Platform) (salsaManager : SalsaManager) (object : List (String × Tree)) :
    Except JsError (SalsaManager × List (String × Tree)) :=
  match lookupKey "$" object with
  | none => .error .type
  | some attributes =>
    if protectedIsTrue attributes then
      match lookupKey "_" object with
      | some (.text s) =>
        let locked := salsaManager.unpack P s
        let lockedValue : JsString := P.base64Encode (binaryToBuffer locked.1)
        .ok (locked.2, assignKey "_" (.text lockedValue) object)
      | _ => .error .type
    else .ok (salsaManager, object)

/-- The tasks of the `async.waterfall` in `save`. -/
inductive SaveStage where
  | buildMasterKey | fetchFromApi | lockProtectedEntries | convertToXml | compressDatabase
  | encryptDatabase | buildHeader | buildSignatures | mergeSectionsTogether
  deriving DecidableEq, Repr

/-- How a call of `save` ends: `completed` is the final `callback(null, content)`. -/
inductive SaveOutcome where
  | completed (content : Bytes)
  | halted (h : Halt)
  deriving DecidableEq, Repr

/-- The result of running `save`: the instance afterwards, the tasks that were
started, in order, and the way the call ended. -/
structure SaveResult where
  db : KeePassDatabase
  trace : List SaveStage
  outcome : SaveOutcome

/-- Records that a task ran before the ones of `r`. -/
def SaveResult.after (s : SaveStage) (r : SaveResult) : SaveResult :=
  { r with trace := s :: r.trace }

/-- The task `fetchFromApi`. Modelled from the spec: `KeePassApi.$fetchDatabase`
hands out the tree the API holds, which is the one `$passDatabase` received;
`none` is what it hands out when no database was passed. -/
def fetchFromApi (db : KeePassDatabase) : KeePassDatabase × StageResult (Option Tree) :=
  (db, .next db.api)

/-- The task `lockProtectedEntries`; the loop `for(var key in object)` does
nothing for `null`. -/
def lockProtectedEntries (P : Platform) (database : Option Tree) (db : KeePassDatabase) :
    KeePassDatabase × StageResult (Option Tree) :=
  match P.headerGet db.header .ProtectedStreamKey with
  | .buffer salsaKey =>
    let salsaManager : SalsaManager := { key := P.sha256 salsaKey, iv := SALSA_IV }
    match database with
    | none => (db, .next none)
    | some tree =>
      match searchValue (lockFound P) tree { kind := .null } salsaManager with
      | .error e => (db, .halt (.thrown e))
      | .ok (_, tree', _) => (db, .next (some tree'))
  | _ => (db, .halt (.thrown .type))

/-- The task `convertToXml`. -/
def convertToXml (P : Platform) (database : Option Tree) (db : KeePassDatabase) :
    KeePassDatabase × StageResult JsString :=
  match P.buildObject database with
  | none => (db, .halt (.thrown (.library "buildObject")))
  | some xml => (db, .next xml)

/-- The task `compressDatabase`. -/
def compressDatabase (P : Platform) (database : JsString) (db : KeePassDatabase) :
    KeePassDatabase × StageResult Bytes :=
  match P.gzip database with
  | .error err => (db, .halt (.callbackError (.error ("Could not compress database: " ++ err))))
  | .ok compressed => (db, .next compressed)

/-- The task `encryptDatabase`: the hashed-block stream of the compressed
bytes, the stream start bytes put before it, the whole encrypted. -/
def encryptDatabase (P : Platform) (database : Bytes) (db : KeePassDatabase) :
    KeePassDatabase × StageResult Bytes :=
  match P.hbioEncrypt database with
  | none => (db, .halt (.thrown (.library "HashedBlockIO.encrypt")))
  | some blocks =>
    match P.headerGet db.header .StreamStartBytes with
    | .buffer startBytes =>
      match P.cbcEncrypt (db.masterKey.getD []) (P.headerGet db.header .EncryptionIV)
          (startBytes ++ blocks) with
      | none => (db, .halt (.thrown .cipher))
      | some encrypted => (db, .next encrypted)
    | _ => (db, .halt (.thrown .type))

/-- The task `buildHeader`. -/
def buildHeaderStage (P : Platform) (db : KeePassDatabase) :
    KeePassDatabase × StageResult Bytes :=
  match P.buildHeader db.header db.headerLength with
  | none => (db, .halt (.thrown (.library "buildHeader")))
  | some header => (db, .next header)

/-- The four bytes `buf.writeUInt32LE(value, offset)` writes. -/
def uint32Bytes (value : Nat) : Bytes :=
  [lengthLow value, lengthLow (value / 256), lengthLow (value / 65536),
    lengthLow (value / 16777216)]

/-- The task `buildSignatures`: `writeUInt32LE` throws for a value that is not
a number (no file version recorded) or that does not fit 32 bits. -/
def buildSignatures (db : KeePassDatabase) : KeePassDatabase × StageResult Bytes :=
  match db.fileVersion with
  | none => (db, .halt (.thrown .type))
  | some fileVersion =>
    if fileVersion < 4294967296 then
      (db, .next (uint32Bytes BASE_SIGNATURE ++ uint32Bytes VERSION_SIGNATURE
        ++ uint32Bytes fileVersion))
    else (db, .halt (.thrown .range))

/-- The task `mergeSectionsTogether`. -/
def mergeSectionsTogether (signatures header database : Bytes) (db : KeePassDatabase) :
    KeePassDatabase × StageResult Bytes :=
  (db, .next (signatures ++ header ++ database))

/-! ## `save`: the waterfall -/

/-- The waterfall from `buildSignatures` on. -/
def saveFromSignatures (header database : Bytes) (db : KeePassDatabase) : SaveResult :=
  match buildSignatures db with
  | (db', .halt h) => ⟨db', [.buildSignatures], .halted h⟩
  | (db', .next signatures) =>
    match mergeSectionsTogether signatures header database db' with
    | (db'', .halt h) => ⟨db'', [.buildSignatures, .mergeSectionsTogether], .halted h⟩
    | (db'', .next content) =>
      ⟨db'', [.buildSignatures, .mergeSectionsTogether], .completed content⟩

/-- The waterfall from `buildHeader` on. -/
def saveFromHeader (P : Platform) (database : Bytes) (db : KeePassDatabase) : SaveResult :=
  match buildHeaderStage P db with
  | (db', .halt h) => ⟨db', [.buildHeader], .halted h⟩
  | (db', .next header) => (saveFromSignatures header database db').after .buildHeader

/-- The waterfall from `encryptDatabase` on. -/
def saveFromEncrypt (P : Platform) (database : Bytes) (db : KeePassDatabase) : SaveResult :=
  match encryptDatabase P database db with
  | (db', .halt h) => ⟨db', [.encryptDatabase], .halted h⟩
  | (db', .next encrypted) => (saveFromHeader P encrypted db').after .encryptDatabase

/-- The waterfall from `compressDatabase` on. -/
def saveFromCompress (P : Platform) (database : JsString) (db : KeePassDatabase) : SaveResult :=
  match compressDatabase P database db with
  | (db', .halt h) => ⟨db', [.compressDatabase], .halted h⟩
  | (db', .next compressed) => (saveFromEncrypt P compressed db').after .compressDatabase

/-- The waterfall from `convertToXml` on. -/
def saveFromConvert (P : Platform) (database : Option Tree) (db : KeePassDatabase) :
    SaveResult :=
  match convertToXml P database db with
  | (db', .halt h) => ⟨db', [.convertToXml], .halted h⟩
  | (db', .next xml) => (saveFromCompress P xml db').after .convertToXml

/-- The waterfall from `lockProtectedEntries` on. -/
def saveFromLock (P : Platform) (database : Option Tree) (db : KeePassDatabase) : SaveResult :=
  match lockProtectedEntries P database db with
  | (db', .halt h) => ⟨db', [.lockProtectedEntries], .halted h⟩
  | (db', .next locked) => (saveFromConvert P locked db').after .lockProtectedEntries

/-- The waterfall from `fetchFromApi` on. -/
def saveFromFetch (P : Platform) (db : KeePassDatabase) : SaveResult :=
  match fetchFromApi db with
  | (db', .halt h) => ⟨db', [.fetchFromApi], .halted h⟩
  | (db', .next database) => (saveFromLock P database db').after .fetchFromApi

/-- The method `KeePassDatabase.save(credentialStore, callback)` for a function
`callback` (the assertion passes); its first task is the same `buildMasterKey`
as in `load`. -/
def save (P : Platform) (credentialStore : CredentialStore) (db : KeePassDatabase) :
    SaveResult :=
  match buildMasterKeyStage P credentialStore db with
  | (db', .halt h) => ⟨db', [.buildMasterKey], .halted h⟩
  | (db', .next _) => (saveFromFetch P db').after .buildMasterKey

/-! ## `Database.js` -/

/-- What `Database.saveFile` leaves behind: the instance, the calls of
`fs.writeFile` (path and data), what the callback of `saveFile` received
(`none`: it was not called; `some none`: `callback(null)`), and the exception
that escaped, if any. -/
structure SaveFileResult where
  db : KeePassDatabase
  writes : List (String × WriteData)
  callback : Option (Option JsError)
  thrown : Option JsError

/-- The call `fs.writeFile(filePath, content, function(err) { return callback(err); })`. -/
def writeAndCallBack (P : Platform) (filePath : String) (content : WriteData)
    (db : KeePassDatabase) : SaveFileResult :=
  match P.writeFile filePath content with
  | .error e => ⟨db, [(filePath, content)], none, some e⟩
  | .ok err => ⟨db, [(filePath, content)], some err, none⟩

/-- The method `Database.saveFile(filePath, callback)` for a string `filePath`
(the assertion passes): the function handed to `save` does not look at its
`err` and writes `content`, which is `undefined` when `save` reports an error. -/
def saveFile (P : Platform) (filePath : String) (credentialStore : CredentialStore)
    (db : KeePassDatabase) : SaveFileResult :=
  let r := save P credentialStore db
  match r.outcome with
  | .completed content => writeAndCallBack P filePath (.buffer content) r.db
  | .halted (.callbackError _) => writeAndCallBack P filePath .undefined r.db
  | .halted (.thrown e) => ⟨r.db, [], none, some e⟩
  | .halted .pending => ⟨r.db, [], none, none⟩

/-! ## Concrete files -/

/-- A 12-byte prologue with valid signatures and file version 0x00030001. -/
def demoPrologue : Bytes :=
  [0x03, 0xD9, 0xA2, 0x9A, 0x67, 0xFB, 0x4B, 0xB5, 0x01, 0x00, 0x03, 0x00]

/-- The header fields of a small file: compression on, two rounds, seeds, IV,
stream key, and the stream start bytes `AB`. -/
def demoFields : List HeaderField :=
  [⟨3, [1]⟩, ⟨6, [2]⟩, ⟨4, [9, 9]⟩, ⟨5, List.replicate 32 7⟩, ⟨7, List.replicate 16 1⟩,
    ⟨8, [5]⟩, ⟨9, [65, 66]⟩]

/-- The terminator field with an empty value. -/
def demoTerminator : HeaderField := ⟨0, []⟩

/-- A credential store whose composite hash is 32 bytes of 1. -/
def demoStore : CredentialStore := ⟨.ok (List.replicate 32 1)⟩

/-- The file of `demoFields` with a payload. -/
def demoFile (payload : Bytes) : Bytes :=
  demoPrologue ++ encodeFields (demoFields ++ [demoTerminator]) ++ payload

/-- The instance after loading `demoFile` with a payload of sixteen bytes 3. -/
def demoLoaded : KeePassDatabase :=
  (load demoPlatform (demoFile (List.replicate 16 3)) demoStore {}).db

/-- An instance that holds the header of `demoFile` and no tree. -/
def demoHeaderOnly : KeePassDatabase :=
  { header := storedFields demoFields, headerLength := some 79, payloadOffset := some 91,
    fileVersion := some 196609 }

/-- The buffer a `save` hands to its callback; empty when it hands none. -/
def SaveResult.content (r : SaveResult) : Bytes :=
  match r.outcome with
  | .completed content => content
  | .halted _ => []

/-! ## The protected entries, as the specification words them -/

/-- The entries of an object, in key order. -/
abbrev Entries := List (String × Tree)

/-- What `unlockProtectedEntries` does to the text of a protected node: the
base64 text is decoded and run through `unpack`. -/
def unlockText (P : Platform) (m : SalsaManager) (s : JsString) : JsString × SalsaManager :=
  m.unpack P (bufferToBinary (P.base64Decode s))

/-- What `lockProtectedEntries` does to the text of a protected node: the text
is run through `unpack` and encoded as base64. -/
def lockText (P : Platform) (m : SalsaManager) (s : JsString) : JsString × SalsaManager :=
  ((P.base64Encode (binaryToBuffer (m.unpack P s).1)), (m.unpack P s).2)

/-- Whether a value is a string. -/
def isText : Tree → Bool
  | .text _ => true
  | _ => false

/-- The keys of an object, in order. -/
def keysOf (fs : Entries) : List String := fs.map Prod.fst

/-- The text content of a node: the string under `_`, if there is one. -/
def nodeText (fs : Entries) : Option JsString :=
  match lookupKey "_" fs with
  | some (.text s) => some s
  | _ => none

/-- Whether the attribute map of a node (its `$` entry) has `Protected` equal to `'True'`. -/
def nodeProtected (fs : Entries) : Bool :=
  match lookupKey "$" fs with
  | some attributes => protectedIsTrue attributes
  | none => false

/-- An attribute map as the XML parser builds it: an object whose values are
all strings, with distinct keys. -/
def attributeMap : Tree → Bool
  | .obj a => a.all (fun e => isText e.2) && decide (keysOf a).Nodup
  | _ => false

mutual
/-- A document tree in which the key `Protected` occurs in attribute maps
only: every object has distinct keys; its `$` entry, if any, is an attribute
map; its `_` entry, if any, is a string; no other key is `Protected`; and a
node whose attribute map has `Protected` equal to `'True'` has text. -/
def regularValue : Tree → Bool
  | .text _ => true
  | .arr items => regularItems items
  | .obj fs =>
    decide (keysOf fs).Nodup && (!nodeProtected fs || (nodeText fs).isSome) && regularEntries fs
/-- The conditions of `regularValue` on the entries of an object. -/
def regularEntries : Entries → Bool
  | [] => true
  | (k, v) :: rest =>
    (if k = "Protected" then false
      else if k = "$" then attributeMap v
      else if k = "_" then isText v
      else regularValue v) && regularEntries rest
/-- The conditions of `regularValue` on the elements of an array. -/
def regularItems : List Tree → Bool
  | [] => true
  | v :: rest => regularValue v && regularItems rest
end

/-- The text a node ends with: the one the cipher returned, if it was called
for the node. -/
def setText (fired : Option JsString) (fs : Entries) : Entries :=
  match fired with
  | some s => assignKey "_" (.text s) fs
  | none => fs

/-- The later of two texts. -/
def laterText (new old : Option JsString) : Option JsString :=
  match new with
  | some s => some s
  | none => old

mutual
/-- The traversal both stages are meant to be: the tree is walked in
pre-order, the entries of an object in key order; at the attribute map of a
node that has `Protected` equal to `'True'` the text function `f` (the cipher)
is called once, on the text of the node, and the text is replaced by what it
returns; nothing else changes. -/
def mapValue (f : SalsaManager → JsString → JsString × SalsaManager) :
    Tree → SalsaManager → Tree × SalsaManager
  | .text s, m => (.text s, m)
  | .arr items, m => (.arr (mapItems f items m).1, (mapItems f items m).2)
  | .obj fs, m =>
    (.obj (setText (mapEntries f (nodeText fs) fs m).2.2 (mapEntries f (nodeText fs) fs m).1),
      (mapEntries f (nodeText fs) fs m).2.1)
/-- The walk over the entries of a node whose text is `own`: the entries
afterwards, the keystream state afterwards, and the new text of the node when
the cipher was called for it. -/
def mapEntries (f : SalsaManager → JsString → JsString × SalsaManager) (own : Option JsString) :
    Entries → SalsaManager → Entries × SalsaManager × Option JsString
  | [], m => ([], m, none)
  | (k, v) :: rest, m =>
    if k = "$" then
      match (if protectedIsTrue v then own else none) with
      | some s =>
        ((k, v) :: (mapEntries f own rest (f m s).2).1, (mapEntries f own rest (f m s).2).2.1,
          some (f m s).1)
      | none =>
        ((k, v) :: (mapEntries f own rest m).1, (mapEntries f own rest m).2.1,
          (mapEntries f own rest m).2.2)
    else
      ((k, (mapValue f v m).1) :: (mapEntries f own rest (mapValue f v m).2).1,
        (mapEntries f own rest (mapValue f v m).2).2.1,
        (mapEntries f own rest (mapValue f v m).2).2.2)
/-- The walk over the elements of an array. -/
def mapItems (f : SalsaManager → JsString → JsString × SalsaManager) :
    List Tree → SalsaManager → List Tree × SalsaManager
  | [], m => ([], m)
  | v :: rest, m =>
    ((mapValue f v m).1 :: (mapItems f rest (mapValue f v m).2).1,
      (mapItems f rest (mapValue f v m).2).2)
end

mutual
/-- The number of nodes whose attribute map has `Protected` equal to `'True'`. -/
def countProtected : Tree → Nat
  | .text _ => 0
  | .arr items => countProtectedItems items
  | .obj fs => (if nodeProtected fs then 1 else 0) + countProtectedEntries fs
/-- The number of such nodes below the entries of an object. -/
def countProtectedEntries : Entries → Nat
  | [] => 0
  | (k, v) :: rest => (if k = "$" then 0 else countProtected v) + countProtectedEntries rest
/-- The number of such nodes in the elements of an array. -/
def countProtectedItems : List Tree → Nat
  | [] => 0
  | v :: rest => countProtected v + countProtectedItems rest
end

mutual
/-- The tree with the text of every protected node blanked: two trees with the
same image differ at most in the text of protected nodes. -/
def eraseProtected : Tree → Tree
  | .text s => .text s
  | .arr items => .arr (eraseProtectedItems items)
  | .obj fs => .obj (eraseProtectedEntries (nodeProtected fs) fs)
/-- The entries of a node (protected or not) with the text blanked if it is protected. -/
def eraseProtectedEntries (isProtected : Bool) : Entries → Entries
  | [] => []
  | (k, v) :: rest =>
    (k, if k = "$" then v
        else if k = "_" && isProtected && isText v then .text []
        else eraseProtected v) :: eraseProtectedEntries isProtected rest
/-- The elements of an array with the text of every protected node blanked. -/
def eraseProtectedItems : List Tree → List Tree
  | [] => []
  | v :: rest => eraseProtected v :: eraseProtectedItems rest
end

mutual
/-- Whether the text of every protected node satisfies `p`. -/
def protectedTextsAll (p : JsString → Bool) : Tree → Bool
  | .text _ => true
  | .arr items => protectedTextsAllItems p items
  | .obj fs =>
    (!nodeProtected fs ||
      (match nodeText fs with
       | some s => p s
       | none => true)) && protectedTextsAllEntries p fs
/-- The same below the entries of an object. -/
def protectedTextsAllEntries (p : JsString → Bool) : Entries → Bool
  | [] => true
  | (k, v) :: rest =>
    (if k = "$" then true else protectedTextsAll p v) && protectedTextsAllEntries p rest
/-- The same in the elements of an array. -/
def protectedTextsAllItems (p : JsString → Bool) : List Tree → Bool
  | [] => true
  | v :: rest => protectedTextsAll p v && protectedTextsAllItems p rest
end

/-- The function `found` handed to `searchProtectedEntries` applies the text
function `f` to the text of a node whose attribute map has `Protected` equal
to `'True'`, and does nothing to a node whose attribute map has not. -/
def FoundBy (found : SalsaManager → Entries → Except JsError (SalsaManager × Entries))
    (f : SalsaManager → JsString → JsString × SalsaManager) : Prop :=
  ∀ m view attributes, lookupKey "$" view = some attributes →
    (protectedIsTrue attributes = false → found m view = .ok (m, view))
      ∧ (protectedIsTrue attributes = true → ∀ s, lookupKey "_" view = some (.text s) →
          found m view = .ok ((f m s).2, assignKey "_" (.text (f m s).1) view))

/-- A base64 text is canonical when decoding and encoding it again gives it back. -/
def canonicalBase64 (P : Platform) (s : JsString) : Bool :=
  decide (P.base64Encode (P.base64Decode s) = s)

/-- A tree with two protected nodes: `R` holds the elements `V` and `W`. -/
def demoTree : Tree :=
  .obj [("R", .obj [
    ("V", .arr [.obj [("_", .text [81, 81, 61, 61]), ("$", .obj [("Protected", .text trueString)])],
      .text [1]]),
    ("W", .arr [.obj [("$", .obj [("Protected", .text trueString)]), ("_", .text [81, 82])]])])]

/-- The tree of `<r><Protected>x</Protected></r>`: an element named `Protected`. -/
def demoTreeElementNamedProtected : Tree :=
  .obj [("r", .obj [("Protected", .arr [.text [120]])])]

/-- A tree with a protected node `V` and an element named `Protected` beside it. -/
def demoTreeProtectedBeside : Tree :=
  .obj [("R", .obj [
    ("V", .arr [.obj [("_", .text [81, 81, 61, 61]), ("$", .obj [("Protected", .text trueString)])]]),
    ("Protected", .arr [.text [120]])])]

/-! ## Facts about the encodings -/

theorem lowByte_byteChar (b : Byte) : lowByte (byteChar b) = b := by
  apply Fin.ext
  simp only [lowByte, byteChar]
  exact Nat.mod_eq_of_lt b.isLt

theorem binaryToBuffer_bufferToBinary (b : Bytes) : binaryToBuffer (bufferToBinary b) = b := by
  induction b with
  | nil => rfl
  | cons x xs ih =>
    simp only [binaryToBuffer, bufferToBinary, List.map_cons] at ih ⊢
    rw [lowByte_byteChar, ih]

theorem binaryToBuffer_append (s t : JsString) :
    binaryToBuffer (s ++ t) = binaryToBuffer s ++ binaryToBuffer t := by
  simp [binaryToBuffer]

theorem bufferToBinary_length (b : Bytes) : (bufferToBinary b).length = b.length := by
  simp [bufferToBinary]

/-- A string whose characters are all at most 0xFF is the `'binary'` string of
its bytes: such strings and byte sequences correspond one to one. -/
theorem bufferToBinary_binaryToBuffer (s : JsString) (h : ∀ c ∈ s, c.val ≤ 0xFF) :
    bufferToBinary (binaryToBuffer s) = s := by
  induction s with
  | nil => rfl
  | cons x xs ih =>
    have hx : x.val ≤ 0xFF := h x (List.mem_cons_self _ _)
    have hxs := ih (fun c hc => h c (List.mem_cons_of_mem _ hc))
    simp only [binaryToBuffer, bufferToBinary, List.map_cons, List.cons.injEq] at hxs ⊢
    refine ⟨?_, hxs⟩
    apply Fin.ext
    simp only [byteChar, lowByte]
    omega

/-! ## Key derivation -/

theorem encryptRound_iterate_error (P : Platform) (seed : Bytes) (e : JsError) (m : Nat) :
    (encryptRound P seed)^[m] (.error e) = .error e := by
  induction m with
  | zero => rfl
  | succ m ih => rw [Function.iterate_succ_apply]; exact ih

theorem transformKeyLoop_eq_iterate (P : Platform) (seed : Bytes) (rounds : Nat) (key : Bytes) :
    transformKeyLoop P seed [] rounds key = (encryptRound P seed)^[rounds] (.ok key) := by
  induction rounds generalizing key with
  | zero => rfl
  | succ n ih =>
    rw [Function.iterate_succ_apply]
    simp only [transformKeyLoop, encryptRound]
    cases h : P.aes256ecb seed [] key with
    | none => exact (encryptRound_iterate_error P seed .cipher n).symm
    | some w => exact ih w

/-- C2: `transformKey(key, seed, '', rounds)` equals the `rounds`-fold
application, to the bytes of `key`, of the unpadded AES-256-ECB encryption
under the bytes of `seed` (an exception of the cipher ends the call); for
`rounds = 0` it returns the bytes of `key` unchanged, whatever the seed. -/
theorem transformKey_rounds_fold (P : Platform) (key seed : JsString) (rounds : Nat) :
    transformKey P key seed [] rounds
        = (encryptRound P (binaryToBuffer seed))^[rounds] (.ok (binaryToBuffer key))
      ∧ transformKey P key seed [] 0 = .ok (binaryToBuffer key) :=
  ⟨transformKeyLoop_eq_iterate P _ rounds _, rfl⟩

/-- C1: for byte sequences `compositeHash`, `masterSeed`, `transformSeed` handed
over as strings of characters up to 0xFF, and a round count for which the
cipher accepts its inputs (`rounds` successive unpadded AES-256-ECB encryptions
of `compositeHash` under `transformSeed` yield `T`), `buildMasterKey` returns
`SHA-256(masterSeed || SHA-256(T))`, which has 32 bytes when the digest has. -/
theorem buildMasterKey_sha256_of_seed_and_transformed (P : Platform)
    (hdigest : ∀ b, (P.sha256 b).length = 32)
    (compositeHash masterSeed transformSeed : Bytes) (rounds : Nat) (T : Bytes)
    (hT : (encryptRound P transformSeed)^[rounds] (.ok compositeHash) = .ok T) :
    buildMasterKey P (bufferToBinary compositeHash) (bufferToBinary masterSeed)
        (bufferToBinary transformSeed) rounds
        = .ok (P.sha256 (masterSeed ++ P.sha256 T))
      ∧ (P.sha256 (masterSeed ++ P.sha256 T)).length = 32 := by
  refine ⟨?_, hdigest _⟩
  have h : transformKey P (bufferToBinary compositeHash) (bufferToBinary transformSeed) [] rounds
      = .ok T := by
    rw [transformKey, transformKeyLoop_eq_iterate, binaryToBuffer_bufferToBinary,
      binaryToBuffer_bufferToBinary, hT]
  simp only [buildMasterKey, h, binaryToBuffer_append, binaryToBuffer_bufferToBinary]

/-- Witness for C1: 32-byte inputs and three rounds on the demonstration platform. -/
theorem buildMasterKey_sha256_of_seed_and_transformed_witness :
    buildMasterKey demoPlatform (bufferToBinary (List.replicate 32 1)) (bufferToBinary [1, 2])
        (bufferToBinary (List.replicate 32 7)) 3
        = .ok (demoPlatform.sha256 ([1, 2] ++ demoPlatform.sha256 (List.replicate 32 1)))
      ∧ (demoPlatform.sha256 ([1, 2] ++ demoPlatform.sha256 (List.replicate 32 1))).length = 32 :=
  buildMasterKey_sha256_of_seed_and_transformed demoPlatform
    (fun _ => List.length_replicate _ _) (List.replicate 32 1) [1, 2] (List.replicate 32 7) 3
    (List.replicate 32 1) (by rfl)

/-! ## Key-file credentials -/

/-- C5: constructing a `KeyfileCredential` raises the Argument error exactly
when the argument is not a `Buffer`, and every `Buffer` is accepted. -/
theorem keyfile_argument_error_iff_not_buffer (P : Platform) (keyBuff : JsValue) :
    (newKeyfileCredential P keyBuff
        = .error (.argument "Expected `keyBuff` to be a Node buffer")
      ↔ ∀ b, keyBuff ≠ .buffer b)
    ∧ ((∃ e, newKeyfileCredential P keyBuff = .error e) ↔ ∀ b, keyBuff ≠ .buffer b)
    ∧ ((∃ c, newKeyfileCredential P keyBuff = .ok c) ↔ ∃ b, keyBuff = .buffer b) := by
  cases keyBuff with
  | buffer b =>
    have hok : ∃ c, newKeyfileCredential P (.buffer b) = .ok c := by
      simp only [newKeyfileCredential]
      cases matchData (P.utf8Decode b) <;> exact ⟨_, rfl⟩
    obtain ⟨c, hc⟩ := hok
    refine ⟨?_, ?_, ?_⟩
    · rw [hc]; simp
    · rw [hc]; simp
    · rw [hc]; simp
  | undefined => simp [newKeyfileCredential]
  | null => simp [newKeyfileCredential]
  | boolean v => simp [newKeyfileCredential]
  | string s => simp [newKeyfileCredential]
  | number n => simp [newKeyfileCredential]
  | object => simp [newKeyfileCredential]

/-! ## The pattern of the XML key file -/

theorem lazyUntilClose_sound (s c : JsString) (h : lazyUntilClose s = some c) :
    (∃ after, s = c ++ closeTag ++ after)
      ∧ (∀ x ∈ c, isLineTerminator x = false)
      ∧ ∀ c' after', s = c' ++ closeTag ++ after' → c.length ≤ c'.length := by
  induction s generalizing c with
  | nil => simp [lazyUntilClose] at h
  | cons x rest ih =>
    simp only [lazyUntilClose] at h
    split at h
    · rename_i hp
      have hc : c = [] := by simpa using h.symm
      subst hc
      obtain ⟨t, ht⟩ := List.isPrefixOf_iff_prefix.mp hp
      exact ⟨⟨t, by simpa using ht.symm⟩, by simp, by simp⟩
    · rename_i hp
      split at h
      · simp at h
      · rename_i hx
        cases hr : lazyUntilClose rest with
        | none => simp [hr] at h
        | some c2 =>
          simp only [hr, Option.map_some', Option.some.injEq] at h
          subst h
          obtain ⟨⟨after, hafter⟩, hno, hmin⟩ := ih c2 hr
          refine ⟨⟨after, by simp [hafter]⟩, ?_, ?_⟩
          · intro y hy
            rcases List.mem_cons.mp hy with rfl | hy
            · simpa using hx
            · exact hno y hy
          · intro c' after' hc'
            cases c' with
            | nil =>
              exfalso
              apply hp
              exact List.isPrefixOf_iff_prefix.mpr ⟨after', by simpa using hc'.symm⟩
            | cons y c'' =>
              simp only [List.cons_append, List.cons.injEq] at hc'
              have := hmin c'' after' (by simpa using hc'.2)
              simp only [List.length_cons]
              omega

theorem lazyUntilClose_complete (c after : JsString)
    (hno : ∀ x ∈ c, isLineTerminator x = false) :
    ∃ c0, lazyUntilClose (c ++ closeTag ++ after) = some c0 := by
  induction c with
  | nil => exact ⟨[], by simp [lazyUntilClose, closeTag, List.isPrefixOf]⟩
  | cons x c' ih =>
    obtain ⟨c0, hc0⟩ := ih (fun y hy => hno y (List.mem_cons_of_mem _ hy))
    simp only [List.cons_append, lazyUntilClose]
    split
    · exact ⟨[], rfl⟩
    · have hx : isLineTerminator x = false := hno x (List.mem_cons_self _ _)
      simp only [List.append_assoc] at hc0
      simp [hx, hc0]

theorem openTag_isPrefixOf (s : JsString) : openTag.isPrefixOf (openTag ++ s) = true :=
  List.isPrefixOf_iff_prefix.mpr ⟨s, rfl⟩

theorem matchHere_sound (text c : JsString) (h : matchHere text = some c) :
    DataMatch text [] c ∧ ∀ c', DataMatch text [] c' → c.length ≤ c'.length := by
  simp only [matchHere] at h
  split at h
  · rename_i hp
    obtain ⟨t, ht⟩ := List.isPrefixOf_iff_prefix.mp hp
    subst ht
    rw [List.drop_left] at h
    obtain ⟨⟨after, hafter⟩, hno, hmin⟩ := lazyUntilClose_sound _ _ h
    refine ⟨⟨after, by simp [hafter], hno⟩, ?_⟩
    rintro c' ⟨after', heq, -⟩
    apply hmin c' after'
    simp only [List.nil_append, List.append_assoc] at heq
    simpa using List.append_cancel_left heq
  · simp at h

theorem matchHere_complete (text c : JsString) (h : DataMatch text [] c) :
    ∃ c0, matchHere text = some c0 := by
  obtain ⟨after, heq, hno⟩ := h
  obtain ⟨c0, hc0⟩ := lazyUntilClose_complete c after hno
  refine ⟨c0, ?_⟩
  subst heq
  simp only [matchHere, List.nil_append, List.append_assoc, openTag_isPrefixOf, if_true,
    List.drop_left]
  simpa using hc0

theorem matchData_cons_of_matchHere_none (x : CodeUnit) (rest : JsString)
    (h : matchHere (x :: rest) = none) : matchData (x :: rest) = matchData rest := by
  simp only [matchData, h]

theorem dataMatch_ne_nil (text before content : JsString) (h : DataMatch text before content) :
    text ≠ [] := by
  obtain ⟨after, heq, -⟩ := h
  subst heq
  simp [openTag]

theorem dataMatch_cons (x : CodeUnit) (text before content : JsString) :
    DataMatch (x :: text) (x :: before) content ↔ DataMatch text before content := by
  constructor
  · rintro ⟨after, heq, hno⟩
    exact ⟨after, by simpa using heq, hno⟩
  · rintro ⟨after, heq, hno⟩
    exact ⟨after, by simp [heq], hno⟩

/-- When the pattern matches somewhere, `match` does not return `null`. -/
theorem matchData_isSome_of_dataMatch (text before content : JsString)
    (h : DataMatch text before content) : ∃ c0, matchData text = some c0 := by
  induction before generalizing text with
  | nil =>
    obtain ⟨c0, hc0⟩ := matchHere_complete text content h
    cases text with
    | nil => exact absurd rfl (dataMatch_ne_nil _ _ _ h)
    | cons x rest => exact ⟨c0, by simp only [matchData, hc0]⟩
  | cons p ps ih =>
    cases text with
    | nil => exact absurd rfl (dataMatch_ne_nil _ _ _ h)
    | cons x rest =>
      have hx : x = p := by
        obtain ⟨after, heq, -⟩ := h
        simp only [List.cons_append, List.cons.injEq] at heq
        exact heq.1
      subst hx
      cases hm : matchHere (x :: rest) with
      | some c0 => exact ⟨c0, by simp only [matchData, hm]⟩
      | none =>
        rw [matchData_cons_of_matchHere_none _ _ hm]
        exact ih rest ((dataMatch_cons x rest ps content).mp h)

/-- The capture `match` returns is the content of the first, shortest match. -/
theorem matchData_of_firstShortest (text content : JsString)
    (h : FirstShortestDataMatch text content) : matchData text = some content := by
  obtain ⟨before, hmatch, hfirst⟩ := h
  induction before generalizing text with
  | nil =>
    obtain ⟨c0, hc0⟩ := matchHere_complete text content hmatch
    obtain ⟨hm0, hmin0⟩ := matchHere_sound text c0 hc0
    have h1 : c0.length ≤ content.length := hmin0 content hmatch
    have h2 : content.length ≤ c0.length := by
      rcases hfirst [] c0 hm0 with h | ⟨-, h⟩
      · simp at h
      · exact h
    obtain ⟨a0, e0, -⟩ := hm0
    obtain ⟨a1, e1, -⟩ := hmatch
    have heq : c0 ++ (closeTag ++ a0) = content ++ (closeTag ++ a1) := by
      rw [e0] at e1
      simp only [List.nil_append, List.append_assoc] at e1
      exact List.append_cancel_left e1
    have hc : c0 = content := (List.append_inj heq (by omega)).1
    subst hc
    cases text with
    | nil => simp [openTag] at e0
    | cons x rest => simp only [matchData, hc0]
  | cons p ps ih =>
    cases text with
    | nil => exact absurd rfl (dataMatch_ne_nil _ _ _ hmatch)
    | cons x rest =>
      have hx : x = p := by
        obtain ⟨after, heq, -⟩ := hmatch
        simp only [List.cons_append, List.cons.injEq] at heq
        exact heq.1
      subst hx
      cases hm : matchHere (x :: rest) with
      | some c0 =>
        exfalso
        rcases hfirst [] c0 (matchHere_sound _ _ hm).1 with h | ⟨h, -⟩ <;> simp at h
      | none =>
        rw [matchData_cons_of_matchHere_none _ _ hm]
        apply ih rest ((dataMatch_cons x rest ps content).mp hmatch)
        intro before' content' hm'
        have := hfirst (x :: before') content' ((dataMatch_cons x rest before' content').mpr hm')
        simpa using this

/-- A capture that `match` returns is the content of a match. -/
theorem matchData_sound (text c : JsString) (h : matchData text = some c) :
    ∃ before, DataMatch text before c := by
  induction text with
  | nil => simp [matchData] at h
  | cons x rest ih =>
    cases hm : matchHere (x :: rest) with
    | some c0 =>
      simp only [matchData, hm, Option.some.injEq] at h
      subst h
      exact ⟨[], (matchHere_sound _ _ hm).1⟩
    | none =>
      rw [matchData_cons_of_matchHere_none _ _ hm] at h
      obtain ⟨before, hb⟩ := ih h
      exact ⟨x :: before, (dataMatch_cons x rest before c).mpr hb⟩

/-- C3: on a buffer whose text contains no `<Data>...</Data>` marker the
credential is of type `binary`, but what `getHash()` returns is the
hexadecimal text of the SHA-256 digest, a string of twice as many characters
as the digest has bytes, and not the buffer of the digest bytes. -/
theorem keyfile_binary_hash_is_hex_text (P : Platform) (keyBuff : Bytes)
    (hno : ∀ before content, ¬ DataMatch (P.utf8Decode keyBuff) before content) :
    ∃ c, newKeyfileCredential P (.buffer keyBuff) = .ok c
      ∧ c.getType = "binary"
      ∧ c.getHash = .string (hexEncode (P.sha256 keyBuff))
      ∧ c.getHash ≠ .buffer (P.sha256 keyBuff)
      ∧ (hexEncode (P.sha256 keyBuff)).length = 2 * (P.sha256 keyBuff).length := by
  have hnone : matchData (P.utf8Decode keyBuff) = none := by
    cases hm : matchData (P.utf8Decode keyBuff) with
    | none => rfl
    | some c =>
      obtain ⟨before, hd⟩ := matchData_sound _ _ hm
      exact absurd hd (hno before c)
  refine ⟨{ isBinary := true, hashBuffer := .string (hexEncode (P.sha256 keyBuff)) }, ?_, rfl, rfl,
    ?_, ?_⟩
  · simp only [newKeyfileCredential, hnone]
  · simp [KeyfileCredential.getHash]
  · generalize P.sha256 keyBuff = d
    induction d with
    | nil => rfl
    | cons x xs ih => simp only [hexEncode, List.length_cons, ih]; omega

/-- Witness for C3: the empty key file. -/
theorem keyfile_binary_hash_is_hex_text_witness :
    ∃ c, newKeyfileCredential demoPlatform (.buffer []) = .ok c
      ∧ c.getType = "binary"
      ∧ c.getHash = .string (hexEncode (demoPlatform.sha256 []))
      ∧ c.getHash ≠ .buffer (demoPlatform.sha256 [])
      ∧ (hexEncode (demoPlatform.sha256 [])).length = 2 * (demoPlatform.sha256 []).length :=
  keyfile_binary_hash_is_hex_text demoPlatform []
    (fun before content h => dataMatch_ne_nil _ before content h rfl)

/-- C4: when the UTF-8 text of the buffer contains a match of
`<Data>(.*?)</Data>`, `content` being the captured group of the first match,
shortest content, the credential is of type `xml` and `getHash()` is the
buffer of the base64 decoding of `content`, not hashed. -/
theorem keyfile_xml_hash_is_decoded_data (P : Platform) (keyBuff : Bytes) (content : JsString)
    (h : FirstShortestDataMatch (P.utf8Decode keyBuff) content) :
    ∃ c, newKeyfileCredential P (.buffer keyBuff) = .ok c
      ∧ c.getType = "xml"
      ∧ c.getHash = .buffer (P.base64Decode content) := by
  refine ⟨{ isBinary := false, hashBuffer := .buffer (P.base64Decode content) }, ?_, rfl, rfl⟩
  simp only [newKeyfileCredential, matchData_of_firstShortest _ _ h]

theorem firstShortest_example :
    FirstShortestDataMatch
      (demoPlatform.utf8Decode [60, 68, 97, 116, 97, 62, 81, 81, 61, 61, 60, 47, 68, 97, 116, 97, 62, 10])
      [81, 81, 61, 61] := by
  refine ⟨[], ⟨[10], by rfl, by simp [isLineTerminator]; decide⟩, ?_⟩
  rintro before' content' ⟨after, heq, -⟩
  cases before' with
  | cons b bs => left; simp
  | nil =>
    right
    refine ⟨rfl, ?_⟩
    have heq' : ([60, 68, 97, 116, 97, 62, 81, 81, 61, 61, 60, 47, 68, 97, 116, 97, 62, 10] : JsString)
        = openTag ++ content' ++ closeTag ++ after := by
      rw [← List.nil_append openTag, ← heq]; rfl
    simp only [openTag, closeTag, List.cons_append, List.nil_append, List.cons.injEq,
      true_and] at heq'
    rcases content' with _ | ⟨a, _ | ⟨b, _ | ⟨c, _ | ⟨d, r⟩⟩⟩⟩
    · simp at heq'
    · simp at heq'
    · simp at heq'
    · simp at heq'
    · simp

/-- Witness for C4: the key file `<Data>QQ==</Data>` followed by a line feed. -/
theorem keyfile_xml_hash_is_decoded_data_witness :
    ∃ c, newKeyfileCredential demoPlatform
          (.buffer [60, 68, 97, 116, 97, 62, 81, 81, 61, 61, 60, 47, 68, 97, 116, 97, 62, 10]) = .ok c
      ∧ c.getType = "xml"
      ∧ c.getHash = .buffer (demoPlatform.base64Decode [81, 81, 61, 61]) :=
  keyfile_xml_hash_is_decoded_data demoPlatform _ _ firstShortest_example

/-! ## Reading from a buffer -/

theorem byteAt_append (pre tail : Bytes) (k : Nat) :
    byteAt (pre ++ tail) (pre.length + k) = byteAt tail k := by
  induction pre with
  | nil => simp
  | cons p ps ih =>
    have : (p :: ps).length + k = (ps.length + k) + 1 := by simp only [List.length_cons]; omega
    rw [this]
    simpa [byteAt, List.getD] using ih

theorem byteAt_of_lt (b ext : Bytes) (k : Nat) (h : k < b.length) :
    byteAt (b ++ ext) k = byteAt b k := by
  simp only [byteAt, List.getD_eq_getElem?_getD, List.getElem?_append_left h]

theorem uint32LE_append (b ext : Bytes) (k : Nat) (h : k + 4 ≤ b.length) :
    uint32LE (b ++ ext) k = uint32LE b k := by
  simp only [uint32LE]
  rw [byteAt_of_lt b ext k (by omega), byteAt_of_lt b ext (k + 1) (by omega),
    byteAt_of_lt b ext (k + 2) (by omega), byteAt_of_lt b ext (k + 3) (by omega)]

theorem slice_append (pre tail : Bytes) (n : Nat) :
    slice (pre ++ tail) pre.length (pre.length + n) = tail.take n := by
  simp [slice]

/-! ## The signature task -/

theorem checkSignatures_of_length (fileContents : Bytes) (db : KeePassDatabase)
    (hlen : 12 ≤ fileContents.length) :
    checkSignatures fileContents db =
      if uint32LE fileContents 0 ≠ BASE_SIGNATURE then
        (db, .halt (.callbackError
          (.error "Database base signature does not match. File might be corrupt.")))
      else if uint32LE fileContents 4 ≠ VERSION_SIGNATURE then
        (db, .halt (.callbackError
          (.error "Sorry, your database version is not supported by this library.")))
      else ({ db with fileVersion := some (uint32LE fileContents 8) }, .next ()) := by
  have h0 : 0 + 4 ≤ fileContents.length := by omega
  have h4 : 4 + 4 ≤ fileContents.length := by omega
  have h8 : 8 + 4 ≤ fileContents.length := by omega
  simp only [checkSignatures, readUInt32LE, h0, h4, h8, if_true]

/-- C6: for a file of at least 12 bytes, `load` reports an error from its
signature task and starts no other task exactly when the little-endian 32-bit
number at bytes 0-3 is not 0x9AA2D903 or the one at bytes 4-7 is not
0xB54BFB67; when both match, the number at bytes 8-11 is recorded as the file
version and the waterfall goes on with the header task, whose loop starts at
offset 12. -/
theorem load_signature_error_iff (P : Platform) (fileContents : Bytes)
    (credentialStore : CredentialStore) (db : KeePassDatabase)
    (hlen : 12 ≤ fileContents.length) :
    (((∃ e, (load P fileContents credentialStore db).outcome = .halted (.callbackError e))
          ∧ (load P fileContents credentialStore db).trace = [.checkSignatures])
        ↔ (uint32LE fileContents 0 ≠ 0x9AA2D903 ∨ uint32LE fileContents 4 ≠ 0xB54BFB67))
      ∧ ((uint32LE fileContents 0 = 0x9AA2D903 ∧ uint32LE fileContents 4 = 0xB54BFB67) →
          load P fileContents credentialStore db
              = (loadFromHeader P fileContents credentialStore
                  { db with fileVersion := some (uint32LE fileContents 8) }).after .checkSignatures
            ∧ parseDatabaseHeader P fileContents
                  { db with fileVersion := some (uint32LE fileContents 8) }
                = parseHeaderLoop P fileContents (fileContents.length + 1) 12
                  { db with fileVersion := some (uint32LE fileContents 8) }
            ∧ (load P fileContents credentialStore db).trace.take 2
                = [.checkSignatures, .parseDatabaseHeader]) := by
  have hcs := checkSignatures_of_length fileContents db hlen
  by_cases hb : uint32LE fileContents 0 = 0x9AA2D903
  · by_cases hv : uint32LE fileContents 4 = 0xB54BFB67
    · have hload : load P fileContents credentialStore db
          = (loadFromHeader P fileContents credentialStore
              { db with fileVersion := some (uint32LE fileContents 8) }).after .checkSignatures := by
        simp only [load, hcs, hb, hv, BASE_SIGNATURE, VERSION_SIGNATURE, ne_eq, not_true_eq_false,
          if_false]
      have htrace : (load P fileContents credentialStore db).trace.take 2
          = [.checkSignatures, .parseDatabaseHeader] := by
        rw [hload]
        simp only [LoadResult.after, loadFromHeader]
        split <;> simp [LoadResult.after]
      refine ⟨⟨?_, ?_⟩, fun _ => ⟨hload, rfl, htrace⟩⟩
      · rintro ⟨-, ht⟩
        rw [ht] at htrace
        simp at htrace
      · rintro (h | h)
        · exact absurd hb h
        · exact absurd hv h
    · have hload : load P fileContents credentialStore db = ⟨db, [.checkSignatures],
          .halted (.callbackError
            (.error "Sorry, your database version is not supported by this library."))⟩ := by
        simp only [load, hcs, hb, BASE_SIGNATURE, VERSION_SIGNATURE, ne_eq, not_true_eq_false,
          if_false, hv, not_false_eq_true, if_true]
      refine ⟨⟨fun _ => Or.inr hv, fun _ => ?_⟩, fun h => absurd h.2 hv⟩
      rw [hload]
      exact ⟨⟨_, rfl⟩, rfl⟩
  · have hload : load P fileContents credentialStore db = ⟨db, [.checkSignatures],
        .halted (.callbackError
          (.error "Database base signature does not match. File might be corrupt."))⟩ := by
      simp only [load, hcs, BASE_SIGNATURE, ne_eq, hb, not_false_eq_true, if_true]
    refine ⟨⟨fun _ => Or.inl hb, fun _ => ?_⟩, fun h => absurd h.1 hb⟩
    rw [hload]
    exact ⟨⟨_, rfl⟩, rfl⟩

/-! ## The header task -/

theorem readUInt8_append (pre tail : Bytes) :
    readUInt8 (pre ++ tail) pre.length
      = if 1 ≤ tail.length then .ok (byteAt tail 0) else .error .range := by
  have h := byteAt_append pre tail 0
  simp only [Nat.add_zero] at h
  simp only [readUInt8, List.length_append, h]
  by_cases ht : 1 ≤ tail.length
  · rw [if_pos (by omega), if_pos ht]
  · rw [if_neg (by omega), if_neg ht]

theorem readUInt16LE_append (pre tail : Bytes) (k : Nat) :
    readUInt16LE (pre ++ tail) (pre.length + k)
      = if k + 2 ≤ tail.length then .ok (uint16LE tail k) else .error .range := by
  have h0 := byteAt_append pre tail k
  have h1 := byteAt_append pre tail (k + 1)
  simp only [readUInt16LE, uint16LE, List.length_append, Nat.add_assoc, h0, h1]
  by_cases ht : k + 2 ≤ tail.length
  · rw [if_pos (by omega), if_pos ht]
  · rw [if_neg (by omega), if_neg ht]

/-- One iteration of the header loop on a field whose ID and length bytes are
inside the file and whose ID the header knows. -/
theorem parseHeaderLoop_field (P : Platform) (pre tail : Bytes) (id lo hi : Byte) (fuel : Nat)
    (db : KeePassDatabase) (hknown : P.hasField id.val = true) :
    parseHeaderLoop P (pre ++ id :: lo :: hi :: tail) (fuel + 1) pre.length db =
      if id.val = 0 then
        ({ (if lo.val + 256 * hi.val > 0 then
              { db with header := db.header ++ [(id.val, tail.take (lo.val + 256 * hi.val))] }
            else db) with
            headerLength := some (pre.length + 3 + (lo.val + 256 * hi.val) - 12),
            payloadOffset := some (pre.length + 3 + (lo.val + 256 * hi.val)) }, .next ())
      else
        parseHeaderLoop P (pre ++ id :: lo :: hi :: tail) fuel
          (pre.length + 3 + (lo.val + 256 * hi.val))
          (if lo.val + 256 * hi.val > 0 then
            { db with header := db.header ++ [(id.val, tail.take (lo.val + 256 * hi.val))] }
          else db) := by
  have h8 : readUInt8 (pre ++ id :: lo :: hi :: tail) pre.length = .ok id.val := by
    rw [readUInt8_append]; simp [byteAt]
  have h16 : readUInt16LE (pre ++ id :: lo :: hi :: tail) (pre.length + 1)
      = .ok (lo.val + 256 * hi.val) := by
    rw [readUInt16LE_append]; simp [uint16LE, byteAt]
  have hsl : ∀ n, slice (pre ++ id :: lo :: hi :: tail) (pre.length + 1 + 2) (pre.length + 1 + 2 + n)
      = tail.take n := by
    intro n
    have := slice_append (pre ++ [id, lo, hi]) tail n
    simpa [Nat.add_assoc] using this
  have e1 : pre.length + 1 + 2 = pre.length + 3 := by omega
  rw [e1] at hsl
  rw [parseHeaderLoop]
  simp only [h8, hknown, h16, e1, hsl, Bool.not_true, Bool.false_eq_true, if_false]
  by_cases hL : lo.val + 256 * hi.val > 0
  · simp only [hL, if_true]
  · have h0 : lo.val + 256 * hi.val = 0 := by omega
    simp only [h0, Nat.lt_irrefl, if_false, Nat.add_zero, gt_iff_lt]

theorem lengthLow_add_lengthHigh (n : Nat) (h : n < 65536) :
    (lengthLow n).val + 256 * (lengthHigh n).val = n := by
  simp only [lengthLow, lengthHigh]
  omega

/-- The header loop reads a run of fields that are not the terminator and
goes on after them. -/
theorem parseHeaderLoop_inner_fields (P : Platform) (fields : List HeaderField)
    (hfields : ∀ f ∈ fields, f.Inner P) (pre tail : Bytes) (fuel : Nat) (db : KeePassDatabase) :
    parseHeaderLoop P (pre ++ encodeFields fields ++ tail) (fuel + fields.length) pre.length db
      = parseHeaderLoop P (pre ++ encodeFields fields ++ tail) fuel
          (pre.length + fieldsLength fields)
          { db with header := db.header ++ storedFields fields } := by
  induction fields generalizing pre db with
  | nil => simp [encodeFields, fieldsLength, storedFields]
  | cons f rest ih =>
    obtain ⟨hid, hknown, hlen⟩ := hfields f (List.mem_cons_self _ _)
    have hrest : ∀ g ∈ rest, g.Inner P := fun g hg => hfields g (List.mem_cons_of_mem _ hg)
    have hL := lengthLow_add_lengthHigh f.value.length hlen
    have hfile : pre ++ encodeFields (f :: rest) ++ tail
        = pre ++ f.id :: lengthLow f.value.length :: lengthHigh f.value.length
            :: (f.value ++ encodeFields rest ++ tail) := by
      simp [encodeFields, HeaderField.encode]
    have hfile2 : pre ++ encodeFields (f :: rest) ++ tail
        = (pre ++ f.encode) ++ encodeFields rest ++ tail := by
      simp [encodeFields]
    have hfuel : fuel + (f :: rest).length = (fuel + rest.length) + 1 := by
      simp only [List.length_cons]; omega
    rw [hfuel]
    conv_lhs => rw [hfile]
    rw [parseHeaderLoop_field P pre _ f.id _ _ _ db hknown, if_neg hid, hL, ← hfile, hfile2]
    have hpl : (pre ++ f.encode).length = pre.length + 3 + f.value.length := by
      simp [HeaderField.encode]; omega
    have htake : (f.value ++ encodeFields rest ++ tail).take f.value.length = f.value := by
      simp
    rw [← hpl, ih hrest (pre ++ f.encode), htake]
    congr 1
    · simp only [hpl, fieldsLength]; omega
    · by_cases hv : f.value.length > 0
      · simp [hv, storedFields]
      · simp [hv, storedFields]

theorem encodeFields_length (fields : List HeaderField) :
    (encodeFields fields).length = fieldsLength fields := by
  induction fields with
  | nil => rfl
  | cons f rest ih =>
    simp only [encodeFields, fieldsLength, List.length_append, HeaderField.encode,
      List.length_cons, ih]
    omega

theorem length_le_fieldsLength (fields : List HeaderField) :
    fields.length ≤ fieldsLength fields := by
  induction fields with
  | nil => simp [fieldsLength]
  | cons f rest ih => simp only [List.length_cons, fieldsLength]; omega

theorem encodeFields_append (xs ys : List HeaderField) :
    encodeFields (xs ++ ys) = encodeFields xs ++ encodeFields ys := by
  induction xs with
  | nil => rfl
  | cons f rest ih => simp [encodeFields, ih]

theorem storedFields_append (xs ys : List HeaderField) :
    storedFields (xs ++ ys) = storedFields xs ++ storedFields ys := by
  induction xs with
  | nil => rfl
  | cons f rest ih =>
    by_cases hv : f.value.length > 0 <;> simp [storedFields, hv, ih]

theorem fieldsLength_append (xs ys : List HeaderField) :
    fieldsLength (xs ++ ys) = fieldsLength xs + fieldsLength ys := by
  induction xs with
  | nil => simp [fieldsLength]
  | cons f rest ih =>
    rw [List.cons_append]
    simp only [fieldsLength]
    rw [ih]
    omega

/-- With valid signatures the waterfall reaches the header task, with the
file version recorded. -/
theorem load_of_validPrologue (P : Platform) (prologue rest : Bytes)
    (credentialStore : CredentialStore) (db : KeePassDatabase) (hpro : ValidPrologue prologue) :
    load P (prologue ++ rest) credentialStore db
      = (loadFromHeader P (prologue ++ rest) credentialStore
          { db with fileVersion := some (uint32LE prologue 8) }).after .checkSignatures := by
  obtain ⟨hlen, hb, hv⟩ := hpro
  have hcs := checkSignatures_of_length (prologue ++ rest) db
    (by simp only [List.length_append]; omega)
  rw [uint32LE_append prologue rest 0 (by omega), uint32LE_append prologue rest 4 (by omega),
    uint32LE_append prologue rest 8 (by omega)] at hcs
  simp only [load, hcs, hb, hv, ne_eq, not_true_eq_false, if_false]

/-- After a run of fields that are not the terminator the header loop stands
behind them, with at least two iterations to go. -/
theorem parseDatabaseHeader_inner_fields (P : Platform) (prologue : Bytes)
    (fields : List HeaderField) (tail : Bytes) (db : KeePassDatabase)
    (hlen : prologue.length = 12) (hfields : ∀ f ∈ fields, f.Inner P) :
    ∃ fuel, parseDatabaseHeader P (prologue ++ encodeFields fields ++ tail) db
      = parseHeaderLoop P (prologue ++ encodeFields fields ++ tail) (fuel + 2)
          (prologue ++ encodeFields fields).length
          { db with header := db.header ++ storedFields fields } := by
  have hfl := length_le_fieldsLength fields
  have hel := encodeFields_length fields
  refine ⟨(prologue ++ encodeFields fields ++ tail).length + 1 - fields.length - 2, ?_⟩
  have hfuel : (prologue ++ encodeFields fields ++ tail).length + 1
      = ((prologue ++ encodeFields fields ++ tail).length + 1 - fields.length - 2 + 2)
          + fields.length := by
    simp only [List.length_append]; omega
  have hoff : (prologue ++ encodeFields fields).length = prologue.length + fieldsLength fields := by
    simp only [List.length_append, hel]
  simp only [parseDatabaseHeader]
  conv_lhs => rw [hfuel, ← hlen]
  rw [parseHeaderLoop_inner_fields P fields hfields prologue tail _ db, hoff]

theorem readUInt8_beyond (b : Bytes) (offset : Nat) (h : b.length ≤ offset) :
    readUInt8 b offset = .error .range := by
  simp only [readUInt8]
  rw [if_neg (by omega)]

theorem parseHeaderLoop_beyond (P : Platform) (b : Bytes) (fuel offset : Nat)
    (db : KeePassDatabase) (h : b.length ≤ offset) :
    parseHeaderLoop P b (fuel + 1) offset db = (db, .halt (.thrown .range)) := by
  rw [parseHeaderLoop]
  simp only [readUInt8_beyond b offset h]

/-- The header loop ends within as many iterations as the file has bytes. -/
theorem parseHeaderLoop_ends (P : Platform) (b : Bytes) (fuel offset : Nat)
    (db : KeePassDatabase) (h : b.length < offset + (fuel + 1)) :
    (parseHeaderLoop P b (fuel + 1) offset db).2 ≠ .halt .pending := by
  induction fuel generalizing offset db with
  | zero =>
    rw [parseHeaderLoop_beyond P b 0 offset db (by omega)]
    simp
  | succ n ih =>
    rw [parseHeaderLoop]
    cases h8 : readUInt8 b offset with
    | error e => simp
    | ok fieldID =>
      simp only
      split
      · simp
      · cases h16 : readUInt16LE b (offset + 1) with
        | error e => simp
        | ok fieldLength =>
          simp only
          split
          · simp
          · apply ih
            split <;> omega

/-- The header task always ends: it calls its callback or throws. -/
theorem parseDatabaseHeader_ends (P : Platform) (fileContents : Bytes) (db : KeePassDatabase) :
    (parseDatabaseHeader P fileContents db).2 ≠ .halt .pending :=
  parseHeaderLoop_ends P fileContents fileContents.length 12 db (by omega)

theorem loadFromHeader_of_next (P : Platform) (fileContents : Bytes)
    (credentialStore : CredentialStore) (db db' : KeePassDatabase)
    (h : parseDatabaseHeader P fileContents db = (db', .next ())) :
    loadFromHeader P fileContents credentialStore db
      = (loadFromMasterKey P fileContents credentialStore db').after .parseDatabaseHeader := by
  simp only [loadFromHeader, h]

theorem loadFromHeader_of_halt (P : Platform) (fileContents : Bytes)
    (credentialStore : CredentialStore) (db db' : KeePassDatabase) (halt : Halt)
    (h : parseDatabaseHeader P fileContents db = (db', .halt halt)) :
    loadFromHeader P fileContents credentialStore db
      = ⟨db', [.parseDatabaseHeader], .halted halt⟩ := by
  simp only [loadFromHeader, h]

/-- The header task on a file whose header region is a run of fields that
are not the terminator, followed by a complete terminator field. -/
theorem parseDatabaseHeader_complete (P : Platform) (prologue : Bytes)
    (fields : List HeaderField) (term : HeaderField) (payload : Bytes) (db : KeePassDatabase)
    (hlen : prologue.length = 12) (hfields : ∀ f ∈ fields, f.Inner P)
    (hterm : term.id.val = 0) (hknown : P.hasField 0 = true)
    (htermlen : term.value.length < 65536) :
    parseDatabaseHeader P (prologue ++ encodeFields (fields ++ [term]) ++ payload) db
      = ({ db with header := db.header ++ storedFields (fields ++ [term]),
                   headerLength := some (fieldsLength (fields ++ [term])),
                   payloadOffset := some (12 + fieldsLength (fields ++ [term])) }, .next ()) := by
  have hF : prologue ++ encodeFields (fields ++ [term]) ++ payload
      = prologue ++ encodeFields fields
          ++ term.id :: lengthLow term.value.length :: lengthHigh term.value.length
            :: (term.value ++ payload) := by
    simp [encodeFields_append, encodeFields, HeaderField.encode]
  obtain ⟨fuel, hrun⟩ := parseDatabaseHeader_inner_fields P prologue fields
    (term.id :: lengthLow term.value.length :: lengthHigh term.value.length
      :: (term.value ++ payload)) db hlen hfields
  have hL := lengthLow_add_lengthHigh term.value.length htermlen
  have hoff : (prologue ++ encodeFields fields).length = 12 + fieldsLength fields := by
    simp only [List.length_append, encodeFields_length, hlen]
  rw [hF, hrun, parseHeaderLoop_field P (prologue ++ encodeFields fields) _ term.id _ _ _ _
    (by rw [hterm]; exact hknown), if_pos hterm, hL, hoff]
  have htake : (term.value ++ payload).take term.value.length = term.value := by simp
  have hlenT : fieldsLength (fields ++ [term]) = fieldsLength fields + 3 + term.value.length := by
    rw [fieldsLength_append]; simp only [fieldsLength]; omega
  have hst : storedFields (fields ++ [term])
      = storedFields fields
          ++ (if term.value.length > 0 then [(term.id.val, term.value)] else []) := by
    rw [storedFields_append]
    by_cases hv : term.value.length > 0 <;> simp [storedFields, hv]
  rw [htake, hlenT, hst]
  have e1 : 12 + fieldsLength fields + 3 + term.value.length - 12
      = fieldsLength fields + 3 + term.value.length := by omega
  have e2 : 12 + (fieldsLength fields + 3 + term.value.length)
      = 12 + fieldsLength fields + 3 + term.value.length := by omega
  rw [e1, e2]
  by_cases hv : term.value.length > 0
  · simp [hv]
  · simp [hv]

/-- The header task on a file in which a run of fields that are not the
terminator is followed by an ID the header does not know. -/
theorem parseDatabaseHeader_unknown_id (P : Platform) (prologue : Bytes)
    (fields : List HeaderField) (bad : Byte) (rest : Bytes) (db : KeePassDatabase)
    (hlen : prologue.length = 12) (hfields : ∀ f ∈ fields, f.Inner P)
    (hbad : P.hasField bad.val = false) :
    parseDatabaseHeader P (prologue ++ encodeFields fields ++ bad :: rest) db
      = ({ db with header := db.header ++ storedFields fields },
          .halt (.callbackError
            (.error "Invalid header field ID. The database might be corrupt."))) := by
  obtain ⟨fuel, hrun⟩ := parseDatabaseHeader_inner_fields P prologue fields (bad :: rest) db
    hlen hfields
  have h8 : readUInt8 (prologue ++ encodeFields fields ++ bad :: rest)
      (prologue ++ encodeFields fields).length = .ok bad.val := by
    rw [readUInt8_append]; simp [byteAt]
  rw [hrun, parseHeaderLoop]
  simp only [h8, hbad, Bool.not_false, if_true]

/-- C7: on a file with valid signatures whose header region is a complete
sequence of fields (1-byte ID, 2-byte little-endian length L, L value bytes)
ending with the first field of ID 0, all IDs known to the header, the header
task stores the value of every non-empty field under its ID in order, stops at
the terminator and records `headerLength` = the sum of 3 + L over the fields
read and `payloadOffset` = 12 + `headerLength`, and the waterfall goes on;
when the fields read so far are followed by an ID the header does not know,
`load` reports the invalid-field-ID error there and starts no other task. -/
theorem load_header_fields (P : Platform) (prologue : Bytes) (fields : List HeaderField)
    (credentialStore : CredentialStore) (db : KeePassDatabase)
    (hpro : ValidPrologue prologue) (hfields : ∀ f ∈ fields, f.Inner P) :
    (∀ (term : HeaderField) (payload : Bytes),
        term.id.val = 0 → P.hasField 0 = true → term.value.length < 65536 →
        load P (prologue ++ encodeFields (fields ++ [term]) ++ payload) credentialStore db
          = ((loadFromMasterKey P (prologue ++ encodeFields (fields ++ [term]) ++ payload)
                credentialStore
                { db with fileVersion := some (uint32LE prologue 8),
                          header := db.header ++ storedFields (fields ++ [term]),
                          headerLength := some (fieldsLength (fields ++ [term])),
                          payloadOffset := some (12 + fieldsLength (fields ++ [term])) }).after
              .parseDatabaseHeader).after .checkSignatures)
      ∧ (∀ (bad : Byte) (rest : Bytes), P.hasField bad.val = false →
          load P (prologue ++ encodeFields fields ++ bad :: rest) credentialStore db
            = ⟨{ db with fileVersion := some (uint32LE prologue 8),
                         header := db.header ++ storedFields fields },
                [.checkSignatures, .parseDatabaseHeader],
                .halted (.callbackError
                  (.error "Invalid header field ID. The database might be corrupt."))⟩) := by
  constructor
  · intro term payload hterm hknown htermlen
    have hload := load_of_validPrologue P prologue (encodeFields (fields ++ [term]) ++ payload)
      credentialStore db hpro
    rw [← List.append_assoc] at hload
    rw [hload, loadFromHeader_of_next P _ credentialStore _ _
      (parseDatabaseHeader_complete P prologue fields term payload _ hpro.1 hfields hterm hknown
        htermlen)]
  · intro bad rest hbad
    have hload := load_of_validPrologue P prologue (encodeFields fields ++ bad :: rest)
      credentialStore db hpro
    rw [← List.append_assoc] at hload
    rw [hload, loadFromHeader_of_halt P _ credentialStore _ _ _
      (parseDatabaseHeader_unknown_id P prologue fields bad rest _ hpro.1 hfields hbad)]
    rfl

/-- C8 (amended to what the code does): on a file with valid signatures whose header is
cut short after a run of fields that are not the terminator, IDs known to the
header, the header task reports nothing to the callback. When the file ends
before a field ID, inside a length, or inside the value of a field whose ID
is not 0, a read beyond the buffer throws: no header length is recorded and no
other task starts (a value cut short was stored before). When the file ends
inside the value of the terminator, the value cut short is stored, the header
length is recorded from the declared length, and the waterfall goes on to the
master key. -/
theorem load_truncated_header (P : Platform) (prologue : Bytes) (fields : List HeaderField)
    (credentialStore : CredentialStore) (db : KeePassDatabase)
    (hpro : ValidPrologue prologue) (hfields : ∀ f ∈ fields, f.Inner P) :
    load P (prologue ++ encodeFields fields) credentialStore db
        = ⟨{ db with fileVersion := some (uint32LE prologue 8),
                     header := db.header ++ storedFields fields },
            [.checkSignatures, .parseDatabaseHeader], .halted (.thrown .range)⟩
      ∧ (∀ (id : Byte) (part : Bytes), P.hasField id.val = true → part.length < 2 →
          load P (prologue ++ encodeFields fields ++ id :: part) credentialStore db
            = ⟨{ db with fileVersion := some (uint32LE prologue 8),
                         header := db.header ++ storedFields fields },
                [.checkSignatures, .parseDatabaseHeader], .halted (.thrown .range)⟩)
      ∧ (∀ (id lo hi : Byte) (part : Bytes), P.hasField id.val = true → id.val ≠ 0 →
          part.length < lo.val + 256 * hi.val →
          load P (prologue ++ encodeFields fields ++ id :: lo :: hi :: part) credentialStore db
            = ⟨{ db with fileVersion := some (uint32LE prologue 8),
                         header := db.header ++ storedFields fields ++ [(id.val, part)] },
                [.checkSignatures, .parseDatabaseHeader], .halted (.thrown .range)⟩)
      ∧ (∀ (id lo hi : Byte) (part : Bytes), P.hasField id.val = true → id.val = 0 →
          part.length < lo.val + 256 * hi.val →
          load P (prologue ++ encodeFields fields ++ id :: lo :: hi :: part) credentialStore db
            = ((loadFromMasterKey P (prologue ++ encodeFields fields ++ id :: lo :: hi :: part)
                  credentialStore
                  { db with fileVersion := some (uint32LE prologue 8),
                            header := db.header ++ storedFields fields ++ [(0, part)],
                            headerLength := some (fieldsLength fields + 3 + (lo.val + 256 * hi.val)),
                            payloadOffset :=
                              some (12 + fieldsLength fields + 3 + (lo.val + 256 * hi.val)) }).after
                .parseDatabaseHeader).after .checkSignatures) := by
  have hoff : (prologue ++ encodeFields fields).length = 12 + fieldsLength fields := by
    simp only [List.length_append, encodeFields_length, hpro.1]
  refine ⟨?_, ?_, ?_, ?_⟩
  · have hload := load_of_validPrologue P prologue (encodeFields fields) credentialStore db hpro
    obtain ⟨fuel, hrun⟩ := parseDatabaseHeader_inner_fields P prologue fields []
      { db with fileVersion := some (uint32LE prologue 8) } hpro.1 hfields
    rw [List.append_nil] at hrun
    rw [parseHeaderLoop_beyond P _ (fuel + 1) _ _ (Nat.le_refl _)] at hrun
    rw [hload, loadFromHeader_of_halt P _ credentialStore _ _ _ hrun]
    rfl
  · intro id part hknown hpart
    have hload := load_of_validPrologue P prologue (encodeFields fields ++ id :: part)
      credentialStore db hpro
    rw [← List.append_assoc] at hload
    obtain ⟨fuel, hrun⟩ := parseDatabaseHeader_inner_fields P prologue fields (id :: part)
      { db with fileVersion := some (uint32LE prologue 8) } hpro.1 hfields
    have h8 : readUInt8 (prologue ++ encodeFields fields ++ id :: part)
        (prologue ++ encodeFields fields).length = .ok id.val := by
      rw [readUInt8_append]; simp [byteAt]
    have h16 : readUInt16LE (prologue ++ encodeFields fields ++ id :: part)
        ((prologue ++ encodeFields fields).length + 1) = .error .range := by
      rw [readUInt16LE_append, if_neg (by simp only [List.length_cons]; omega)]
    rw [parseHeaderLoop] at hrun
    simp only [h8, hknown, h16, Bool.not_true, Bool.false_eq_true, if_false] at hrun
    rw [hload, loadFromHeader_of_halt P _ credentialStore _ _ _ hrun]
    rfl
  · intro id lo hi part hknown hid hpart
    have hload := load_of_validPrologue P prologue
      (encodeFields fields ++ id :: lo :: hi :: part) credentialStore db hpro
    rw [← List.append_assoc] at hload
    obtain ⟨fuel, hrun⟩ := parseDatabaseHeader_inner_fields P prologue fields
      (id :: lo :: hi :: part) { db with fileVersion := some (uint32LE prologue 8) } hpro.1 hfields
    rw [parseHeaderLoop_field P (prologue ++ encodeFields fields) part id lo hi (fuel + 1) _ hknown,
      if_neg hid, if_pos (by omega), List.take_of_length_le (by omega),
      parseHeaderLoop_beyond P _ fuel _ _
        (by simp only [List.length_append, List.length_cons] at hoff ⊢; omega)] at hrun
    rw [hload, loadFromHeader_of_halt P _ credentialStore _ _ _ hrun]
    rfl
  · intro id lo hi part hknown hid hpart
    have hload := load_of_validPrologue P prologue
      (encodeFields fields ++ id :: lo :: hi :: part) credentialStore db hpro
    rw [← List.append_assoc] at hload
    obtain ⟨fuel, hrun⟩ := parseDatabaseHeader_inner_fields P prologue fields
      (id :: lo :: hi :: part) { db with fileVersion := some (uint32LE prologue 8) } hpro.1 hfields
    rw [parseHeaderLoop_field P (prologue ++ encodeFields fields) part id lo hi (fuel + 1) _ hknown,
      if_pos hid, if_pos (by omega), List.take_of_length_le (by omega), hoff, hid] at hrun
    have e1 : 12 + fieldsLength fields + 3 + (lo.val + 256 * hi.val) - 12
        = fieldsLength fields + 3 + (lo.val + 256 * hi.val) := by omega
    rw [e1] at hrun
    rw [hload, loadFromHeader_of_next P _ credentialStore _ _ hrun]

theorem demoPrologue_valid : ValidPrologue demoPrologue := by
  unfold ValidPrologue
  decide

theorem demoFields_inner : ∀ f ∈ demoFields, f.Inner demoPlatform := by
  simp only [HeaderField.Inner]
  decide

/-- Witness for C8 as amended: `demoFields` followed by nothing, by a lone
ID, by a field of declared length 5 with one value byte, and by a terminator
of declared length 5 with one value byte. -/
theorem load_truncated_header_witness :
    ValidPrologue demoPrologue ∧ (∀ f ∈ demoFields, f.Inner demoPlatform)
      ∧ (load demoPlatform (demoPrologue ++ encodeFields demoFields ++ 0 :: 5 :: 0 :: [1])
            demoStore {}).db.headerLength = some (fieldsLength demoFields + 3 + 5) :=
  ⟨demoPrologue_valid, demoFields_inner, by
    have h := (load_truncated_header demoPlatform demoPrologue demoFields demoStore {}
      demoPrologue_valid demoFields_inner).2.2.2 0 5 0 [1] (by decide) (by decide) (by decide)
    rw [h]
    rfl⟩

/-- Counterexample to C8: the 12-byte prologue alone (the file ends before the
first field ID) makes `load` throw instead of calling its callback; and a
terminator that declares 5 value bytes where 1 is left gets its 1-byte value
stored and the header length 8 recorded, and the master-key task starts. -/
theorem load_truncated_header_not_reported :
    (load demoPlatform demoPrologue demoStore {}).outcome = .halted (.thrown .range)
      ∧ (load demoPlatform (demoPrologue ++ [0, 5, 0, 1]) demoStore {}).db.header = [(0, [1])]
      ∧ (load demoPlatform (demoPrologue ++ [0, 5, 0, 1]) demoStore {}).db.headerLength = some 8
      ∧ (load demoPlatform (demoPrologue ++ [0, 5, 0, 1]) demoStore {}).trace
          = [.checkSignatures, .parseDatabaseHeader, .buildMasterKey] := by
  refine ⟨by rfl, by rfl, by rfl, by rfl⟩

/-- Witness for C6: the 12-byte prologue followed by the fields of `demoFile`. -/
theorem load_signature_error_iff_witness :
    12 ≤ (demoFile []).length
      ∧ (load demoPlatform (demoFile []) demoStore {}).trace.take 2
          = [.checkSignatures, .parseDatabaseHeader] :=
  ⟨by decide,
    ((load_signature_error_iff demoPlatform (demoFile []) demoStore {} (by decide)).2
      ⟨by rfl, by rfl⟩).2.2⟩

/-- Witness for C7: the fields of `demoFile` with a 3-byte payload. -/
theorem load_header_fields_witness :
    ValidPrologue demoPrologue ∧ (∀ f ∈ demoFields, f.Inner demoPlatform)
      ∧ (load demoPlatform (demoPrologue ++ encodeFields (demoFields ++ [demoTerminator])
            ++ [1, 2, 3]) demoStore {}).db.headerLength
          = some (fieldsLength (demoFields ++ [demoTerminator]))
      ∧ (load demoPlatform (demoPrologue ++ encodeFields demoFields ++ 11 :: [0, 0])
            demoStore {}).outcome
          = .halted (.callbackError
              (.error "Invalid header field ID. The database might be corrupt.")) := by
  have h := load_header_fields demoPlatform demoPrologue demoFields demoStore {}
    demoPrologue_valid demoFields_inner
  refine ⟨demoPrologue_valid, demoFields_inner, ?_, ?_⟩
  · rw [h.1 demoTerminator [1, 2, 3] (by decide) (by decide) (by decide)]
    rfl
  · rw [h.2 11 [0, 0] (by decide)]

/-! ## The start bytes and the decompression -/

theorem bufferToBinary_injective (a b : Bytes) (h : bufferToBinary a = bufferToBinary b) :
    a = b := by
  rw [← binaryToBuffer_bufferToBinary a, ← binaryToBuffer_bufferToBinary b, h]

/-- C9: what the code does with the start bytes. For a payload that decrypts
to `plain`, a header value `startBytes`, and a prefix of `plain` whose
`toString()` has one character per byte (as for bytes below 0x80): when the
first `startBytes.length` bytes of `plain` EQUAL `startBytes`, the task reports
the start-bytes error; when they DIFFER, it strips that many bytes and hands
the rest to `HashedBlockIO.decrypt`. The test is the reverse of the intended one. -/
theorem decryptDatabase_start_bytes_reversed (P : Platform) (fileContents : Bytes)
    (db : KeePassDatabase) (plain startBytes : Bytes)
    (hacc : P.cbcAccepts (db.masterKey.getD []) (P.headerGet db.header .EncryptionIV) = true)
    (hdec : P.cbcDecrypt (db.masterKey.getD []) (P.headerGet db.header .EncryptionIV)
      (fileContents.drop (db.payloadOffset.getD 0)) = some plain)
    (hsb : P.headerGet db.header .StreamStartBytes = .buffer startBytes)
    (htext : P.utf8Decode (plain.take startBytes.length)
      = bufferToBinary (plain.take startBytes.length)) :
    (plain.take startBytes.length = startBytes →
        decryptDatabase P fileContents db = (db, .halt (.callbackError (.error
          "Stream start bytes were invalid. Either the credentials were invalid or the database is corrupt."))))
      ∧ (plain.take startBytes.length ≠ startBytes →
        decryptDatabase P fileContents db =
          match P.hbioDecrypt (plain.drop startBytes.length) with
          | .error err => (db, .halt (.callbackError (.error
              ("Database integrity check failed: " ++ err))))
          | .ok database => (db, .next database)) := by
  have hslice : slice plain 0 startBytes.length = plain.take startBytes.length := by
    simp [slice]
  constructor
  · intro heq
    rw [heq] at htext hslice
    simp only [decryptDatabase, hacc, binaryToBuffer_bufferToBinary, hdec, hsb,
      FieldValue.toBinaryString, bufferToBinary_length, hslice, htext, Bool.not_true,
      Bool.false_eq_true, if_false, ne_eq, not_true_eq_false]
  · intro hne
    have hne' : bufferToBinary startBytes ≠ bufferToBinary (plain.take startBytes.length) :=
      fun h => hne (bufferToBinary_injective _ _ h).symm
    simp only [decryptDatabase, hacc, binaryToBuffer_bufferToBinary, hdec, hsb,
      FieldValue.toBinaryString, bufferToBinary_length, hslice, htext, Bool.not_true,
      Bool.false_eq_true, if_false, ne_eq, hne', not_false_eq_true, if_true]

/-- Witness for C9: the file of `demoFields` (start bytes `AB`) with a payload
that decrypts to `AB` followed by fourteen bytes is turned down with the
start-bytes error; with a payload that decrypts to sixteen bytes 3 the load
completes and hands a tree to the API. -/
theorem decryptDatabase_start_bytes_reversed_witness :
    (load demoPlatform (demoFile (List.replicate 14 3 ++ [66, 65])) demoStore {}).outcome
        = .halted (.callbackError (.error
          "Stream start bytes were invalid. Either the credentials were invalid or the database is corrupt."))
      ∧ (load demoPlatform (demoFile (List.replicate 16 3)) demoStore {}).outcome = .completed
      ∧ (load demoPlatform (demoFile (List.replicate 16 3)) demoStore {}).db.api.isSome = true
      ∧ decryptDatabase demoPlatform (demoFile (List.replicate 14 3 ++ [66, 65]))
          { header := storedFields demoFields, payloadOffset := some 91,
            masterKey := some (List.replicate 32 0) }
        = ({ header := storedFields demoFields, payloadOffset := some 91,
             masterKey := some (List.replicate 32 0) },
           .halt (.callbackError (.error
          "Stream start bytes were invalid. Either the credentials were invalid or the database is corrupt."))) :=
  ⟨by rfl, by rfl, by rfl,
    (decryptDatabase_start_bytes_reversed demoPlatform (demoFile (List.replicate 14 3 ++ [66, 65]))
      { header := storedFields demoFields, payloadOffset := some 91,
        masterKey := some (List.replicate 32 0) }
      ([65, 66] ++ List.replicate 14 3) [65, 66] (by rfl) (by rfl) (by rfl) (by rfl)).1 (by rfl)⟩

/-- C10: when the `CompressionFlags` value is not the number 1, the
decompression task returns without calling its callback: the bytes are not
handed on, no later task starts, and the callback of `load` is never called. -/
theorem decompressDatabase_uncompressed_never_calls_back (P : Platform) (database : Bytes)
    (db : KeePassDatabase) (hflag : P.headerGet db.header .CompressionFlags ≠ .number 1) :
    decompressDatabase P database db = (db, .halt .pending)
      ∧ loadFromDecompress P database db = ⟨db, [.decompressDatabase], .halted .pending⟩ := by
  have h : decompressDatabase P database db = (db, .halt .pending) := by
    simp only [decompressDatabase, hflag, if_false]
  exact ⟨h, by simp only [loadFromDecompress, h]⟩

/-- Witness for C10: a header with `CompressionFlags` 0, and a whole file
with that header whose load never calls back. -/
theorem decompressDatabase_uncompressed_never_calls_back_witness :
    demoPlatform.headerGet [(3, [0])] .CompressionFlags ≠ .number 1
      ∧ loadFromDecompress demoPlatform [60, 97, 47, 62] { header := [(3, [0])] }
        = ⟨{ header := [(3, [0])] }, [.decompressDatabase], .halted .pending⟩
      ∧ (load demoPlatform (demoPrologue
            ++ encodeFields (⟨3, [0]⟩ :: demoFields.tail ++ [demoTerminator])
            ++ List.replicate 16 3) demoStore {}).outcome = .halted .pending :=
  ⟨by decide,
    (decompressDatabase_uncompressed_never_calls_back demoPlatform [60, 97, 47, 62]
      { header := [(3, [0])] } (by decide)).2, by rfl⟩

/-! ## What the tasks do to the instance -/

theorem checkSignatures_masterKey (fileContents : Bytes) (db : KeePassDatabase) :
    (checkSignatures fileContents db).1.masterKey = db.masterKey := by
  simp only [checkSignatures]
  repeat' split
  all_goals rfl

theorem checkSignatures_trace_of_halt (P : Platform) (fileContents : Bytes)
    (credentialStore : CredentialStore) (db db' : KeePassDatabase) (h : Halt)
    (hs : checkSignatures fileContents db = (db', .halt h)) :
    load P fileContents credentialStore db = ⟨db', [.checkSignatures], .halted h⟩ := by
  simp only [load, hs]

theorem parseHeaderLoop_masterKey (P : Platform) (fileContents : Bytes) (fuel offset : Nat)
    (db : KeePassDatabase) :
    (parseHeaderLoop P fileContents fuel offset db).1.masterKey = db.masterKey := by
  induction fuel generalizing offset db with
  | zero => rfl
  | succ n ih =>
    rw [parseHeaderLoop]
    cases readUInt8 fileContents offset with
    | error e => rfl
    | ok fieldID =>
      simp only
      split
      · rfl
      · cases readUInt16LE fileContents (offset + 1) with
        | error e => rfl
        | ok fieldLength =>
          simp only
          split
          · split <;> rfl
          · rw [ih]
            split <;> rfl

theorem decryptDatabase_db (P : Platform) (fileContents : Bytes) (db : KeePassDatabase) :
    (decryptDatabase P fileContents db).1 = db := by
  simp only [decryptDatabase]
  repeat' split
  all_goals rfl

theorem decompressDatabase_db (P : Platform) (database : Bytes) (db : KeePassDatabase) :
    (decompressDatabase P database db).1 = db := by
  simp only [decompressDatabase]
  repeat' split
  all_goals rfl

theorem parseAsXml_db (P : Platform) (database : Bytes) (db : KeePassDatabase) :
    (parseAsXml P database db).1 = db := by
  simp only [parseAsXml]
  split <;> rfl

theorem unlockProtectedEntries_db (P : Platform) (database : Tree) (db : KeePassDatabase) :
    (unlockProtectedEntries P database db).1 = db := by
  simp only [unlockProtectedEntries]
  repeat' split
  all_goals rfl

theorem loadFromPassToApi_keeps (database : Tree) (db : KeePassDatabase) :
    (loadFromPassToApi database db).db.masterKey = db.masterKey
      ∧ (loadFromPassToApi database db).db.header = db.header := by
  simp [loadFromPassToApi, passToApi]

theorem loadFromUnlock_keeps (P : Platform) (database : Tree) (db : KeePassDatabase) :
    (loadFromUnlock P database db).db.masterKey = db.masterKey
      ∧ (loadFromUnlock P database db).db.header = db.header := by
  have hdb := unlockProtectedEntries_db P database db
  rcases hs : unlockProtectedEntries P database db with ⟨db', r⟩
  rw [hs] at hdb
  simp only at hdb
  subst hdb
  cases r with
  | halt h => simp [loadFromUnlock, hs]
  | next tree => simpa [loadFromUnlock, hs, LoadResult.after] using loadFromPassToApi_keeps tree db'

theorem loadFromParse_keeps (P : Platform) (database : Bytes) (db : KeePassDatabase) :
    (loadFromParse P database db).db.masterKey = db.masterKey
      ∧ (loadFromParse P database db).db.header = db.header := by
  have hdb := parseAsXml_db P database db
  rcases hs : parseAsXml P database db with ⟨db', r⟩
  rw [hs] at hdb
  simp only at hdb
  subst hdb
  cases r with
  | halt h => simp [loadFromParse, hs]
  | next tree => simpa [loadFromParse, hs, LoadResult.after] using loadFromUnlock_keeps P tree db'

theorem loadFromDecompress_keeps (P : Platform) (database : Bytes) (db : KeePassDatabase) :
    (loadFromDecompress P database db).db.masterKey = db.masterKey
      ∧ (loadFromDecompress P database db).db.header = db.header := by
  have hdb := decompressDatabase_db P database db
  rcases hs : decompressDatabase P database db with ⟨db', r⟩
  rw [hs] at hdb
  simp only at hdb
  subst hdb
  cases r with
  | halt h => simp [loadFromDecompress, hs]
  | next d => simpa [loadFromDecompress, hs, LoadResult.after] using loadFromParse_keeps P d db'

theorem loadFromDecrypt_keeps (P : Platform) (fileContents : Bytes) (db : KeePassDatabase) :
    (loadFromDecrypt P fileContents db).db.masterKey = db.masterKey
      ∧ (loadFromDecrypt P fileContents db).db.header = db.header
      ∧ Stage.decryptDatabase ∈ (loadFromDecrypt P fileContents db).trace := by
  have hdb := decryptDatabase_db P fileContents db
  rcases hs : decryptDatabase P fileContents db with ⟨db', r⟩
  rw [hs] at hdb
  simp only at hdb
  subst hdb
  cases r with
  | halt h => simp [loadFromDecrypt, hs]
  | next d =>
    have := loadFromDecompress_keeps P d db'
    simp [loadFromDecrypt, hs, LoadResult.after, this]

/-- What the task `buildMasterKey` does when it hands on: it has derived the
key from the credential store and the header, and stored it in the instance. -/
theorem buildMasterKeyStage_next (P : Platform) (credentialStore : CredentialStore)
    (db db' : KeePassDatabase) (u : Unit)
    (h : buildMasterKeyStage P credentialStore db = (db', .next u)) :
    ∃ composite masterSeed transformSeed rounds key,
      credentialStore.buildCompositeHash = .ok composite
        ∧ P.headerGet db.header .MasterSeed = .buffer masterSeed
        ∧ P.headerGet db.header .TransformSeed = .buffer transformSeed
        ∧ P.headerGet db.header .TransformRounds = .number rounds
        ∧ buildMasterKey P (bufferToBinary composite) (bufferToBinary masterSeed)
            (bufferToBinary transformSeed) rounds = .ok key
        ∧ db' = { db with masterKey := some key } := by
  simp only [buildMasterKeyStage] at h
  cases hc : credentialStore.buildCompositeHash with
  | error e => simp [hc] at h
  | ok composite =>
    cases hm : P.headerGet db.header .MasterSeed with
    | undefined => simp [hc, hm, FieldValue.toBinaryString] at h
    | number n => simp [hc, hm, FieldValue.toBinaryString] at h
    | buffer masterSeed =>
      cases ht : P.headerGet db.header .TransformSeed with
      | undefined => simp [hc, hm, ht, FieldValue.toBinaryString] at h
      | number n => simp [hc, hm, ht, FieldValue.toBinaryString] at h
      | buffer transformSeed =>
        cases hr : P.headerGet db.header .TransformRounds with
        | undefined => simp [hc, hm, ht, hr, FieldValue.toBinaryString] at h
        | buffer b => simp [hc, hm, ht, hr, FieldValue.toBinaryString] at h
        | number rounds =>
          cases hk : buildMasterKey P (bufferToBinary composite) (bufferToBinary masterSeed)
              (bufferToBinary transformSeed) rounds with
          | error e => simp [hc, hm, ht, hr, hk, FieldValue.toBinaryString] at h
          | ok key =>
            simp only [hc, hm, ht, hr, hk, FieldValue.toBinaryString, Prod.mk.injEq] at h
            exact ⟨composite, masterSeed, transformSeed, rounds, key, rfl, rfl, rfl, rfl, hk,
              h.1.symm⟩

theorem buildMasterKeyStage_halt (P : Platform) (credentialStore : CredentialStore)
    (db db' : KeePassDatabase) (x : Halt)
    (h : buildMasterKeyStage P credentialStore db = (db', .halt x)) : db' = db := by
  simp only [buildMasterKeyStage] at h
  repeat' split at h
  all_goals first
    | (simp only [Prod.mk.injEq] at h; exact h.1.symm)
    | (simp at h)

/-! ## The `save` waterfall -/

theorem buildSignatures_next (db db' : KeePassDatabase) (signatures : Bytes)
    (h : buildSignatures db = (db', .next signatures)) :
    ∃ fileVersion, db.fileVersion = some fileVersion ∧ fileVersion < 4294967296
      ∧ signatures = uint32Bytes BASE_SIGNATURE ++ uint32Bytes VERSION_SIGNATURE
          ++ uint32Bytes fileVersion := by
  simp only [buildSignatures] at h
  cases hv : db.fileVersion with
  | none => simp [hv] at h
  | some v =>
    by_cases hlt : v < 4294967296
    · simp only [hv, hlt, if_true, Prod.mk.injEq, StageResult.next.injEq] at h
      exact ⟨v, rfl, hlt, h.2.symm⟩
    · simp [hv, hlt] at h

theorem buildSignatures_db (db : KeePassDatabase) : (buildSignatures db).1 = db := by
  simp only [buildSignatures]
  repeat' split
  all_goals rfl

theorem buildHeaderStage_db (P : Platform) (db : KeePassDatabase) :
    (buildHeaderStage P db).1 = db := by
  simp only [buildHeaderStage]
  split <;> rfl

theorem encryptDatabase_db (P : Platform) (database : Bytes) (db : KeePassDatabase) :
    (encryptDatabase P database db).1 = db := by
  simp only [encryptDatabase]
  repeat' split
  all_goals rfl

theorem compressDatabase_db (P : Platform) (database : JsString) (db : KeePassDatabase) :
    (compressDatabase P database db).1 = db := by
  simp only [compressDatabase]
  split <;> rfl

theorem convertToXml_db (P : Platform) (database : Option Tree) (db : KeePassDatabase) :
    (convertToXml P database db).1 = db := by
  simp only [convertToXml]
  split <;> rfl

theorem lockProtectedEntries_db (P : Platform) (database : Option Tree) (db : KeePassDatabase) :
    (lockProtectedEntries P database db).1 = db := by
  simp only [lockProtectedEntries]
  repeat' split
  all_goals rfl

theorem saveFromSignatures_db (header database : Bytes) (db : KeePassDatabase) :
    (saveFromSignatures header database db).db = db := by
  have hdb := buildSignatures_db db
  rcases hs : buildSignatures db with ⟨db', r⟩
  rw [hs] at hdb
  simp only at hdb
  subst hdb
  cases r with
  | halt h => simp [saveFromSignatures, hs]
  | next s => simp [saveFromSignatures, hs, mergeSectionsTogether]

theorem saveFromHeader_db (P : Platform) (database : Bytes) (db : KeePassDatabase) :
    (saveFromHeader P database db).db = db := by
  have hdb := buildHeaderStage_db P db
  rcases hs : buildHeaderStage P db with ⟨db', r⟩
  rw [hs] at hdb
  simp only at hdb
  subst hdb
  cases r with
  | halt h => simp [saveFromHeader, hs]
  | next s => simpa [saveFromHeader, hs, SaveResult.after] using saveFromSignatures_db s database db'

theorem saveFromEncrypt_db (P : Platform) (database : Bytes) (db : KeePassDatabase) :
    (saveFromEncrypt P database db).db = db := by
  have hdb := encryptDatabase_db P database db
  rcases hs : encryptDatabase P database db with ⟨db', r⟩
  rw [hs] at hdb
  simp only at hdb
  subst hdb
  cases r with
  | halt h => simp [saveFromEncrypt, hs]
  | next s => simpa [saveFromEncrypt, hs, SaveResult.after] using saveFromHeader_db P s db'

theorem saveFromCompress_db (P : Platform) (database : JsString) (db : KeePassDatabase) :
    (saveFromCompress P database db).db = db := by
  have hdb := compressDatabase_db P database db
  rcases hs : compressDatabase P database db with ⟨db', r⟩
  rw [hs] at hdb
  simp only at hdb
  subst hdb
  cases r with
  | halt h => simp [saveFromCompress, hs]
  | next s => simpa [saveFromCompress, hs, SaveResult.after] using saveFromEncrypt_db P s db'

theorem saveFromConvert_db (P : Platform) (database : Option Tree) (db : KeePassDatabase) :
    (saveFromConvert P database db).db = db := by
  have hdb := convertToXml_db P database db
  rcases hs : convertToXml P database db with ⟨db', r⟩
  rw [hs] at hdb
  simp only at hdb
  subst hdb
  cases r with
  | halt h => simp [saveFromConvert, hs]
  | next s => simpa [saveFromConvert, hs, SaveResult.after] using saveFromCompress_db P s db'

theorem saveFromLock_db (P : Platform) (database : Option Tree) (db : KeePassDatabase) :
    (saveFromLock P database db).db = db := by
  have hdb := lockProtectedEntries_db P database db
  rcases hs : lockProtectedEntries P database db with ⟨db', r⟩
  rw [hs] at hdb
  simp only at hdb
  subst hdb
  cases r with
  | halt h => simp [saveFromLock, hs]
  | next s => simpa [saveFromLock, hs, SaveResult.after] using saveFromConvert_db P s db'

theorem saveFromFetch_db (P : Platform) (db : KeePassDatabase) :
    (saveFromFetch P db).db = db
      ∧ SaveStage.fetchFromApi ∈ (saveFromFetch P db).trace := by
  have := saveFromLock_db P db.api db
  simp [saveFromFetch, fetchFromApi, SaveResult.after, this]

/-- What a completed `save` went through, task by task. -/
theorem save_completed (P : Platform) (credentialStore : CredentialStore)
    (db : KeePassDatabase) (content : Bytes)
    (h : (save P credentialStore db).outcome = .completed content) :
    ∃ db' locked xml compressed blocks startBytes encrypted header fileVersion,
      buildMasterKeyStage P credentialStore db = (db', .next ())
        ∧ lockProtectedEntries P db'.api db' = (db', .next locked)
        ∧ P.buildObject locked = some xml
        ∧ P.gzip xml = .ok compressed
        ∧ P.hbioEncrypt compressed = some blocks
        ∧ P.headerGet db'.header .StreamStartBytes = .buffer startBytes
        ∧ P.cbcEncrypt (db'.masterKey.getD []) (P.headerGet db'.header .EncryptionIV)
            (startBytes ++ blocks) = some encrypted
        ∧ P.buildHeader db'.header db'.headerLength = some header
        ∧ db'.fileVersion = some fileVersion
        ∧ fileVersion < 4294967296
        ∧ content = uint32Bytes BASE_SIGNATURE ++ uint32Bytes VERSION_SIGNATURE
            ++ uint32Bytes fileVersion ++ header ++ encrypted := by
  rcases h1 : buildMasterKeyStage P credentialStore db with ⟨db', r1⟩
  cases r1 with
  | halt x => simp [save, h1] at h
  | next u =>
    simp only [save, h1, SaveResult.after, saveFromFetch, fetchFromApi] at h
    have hd2 := lockProtectedEntries_db P db'.api db'
    rcases h2 : lockProtectedEntries P db'.api db' with ⟨d2, r2⟩
    rw [h2] at hd2; simp only at hd2; subst hd2
    cases r2 with
    | halt x => simp [saveFromLock, h2] at h
    | next locked =>
      simp only [saveFromLock, h2, SaveResult.after, saveFromConvert, convertToXml] at h
      cases h3 : P.buildObject locked with
      | none => simp [h3] at h
      | some xml =>
        simp only [h3, SaveResult.after, saveFromCompress, compressDatabase] at h
        cases h4 : P.gzip xml with
        | error e => simp [h4] at h
        | ok compressed =>
          simp only [h4, SaveResult.after, saveFromEncrypt, encryptDatabase] at h
          cases h5 : P.hbioEncrypt compressed with
          | none => simp [h5] at h
          | some blocks =>
            cases h6 : P.headerGet d2.header .StreamStartBytes with
            | undefined => simp [h5, h6] at h
            | number n => simp [h5, h6] at h
            | buffer startBytes =>
              cases h7 : P.cbcEncrypt (d2.masterKey.getD [])
                  (P.headerGet d2.header .EncryptionIV) (startBytes ++ blocks) with
              | none => simp [h5, h6, h7] at h
              | some encrypted =>
                simp only [h5, h6, h7, SaveResult.after, saveFromHeader, buildHeaderStage] at h
                cases h8 : P.buildHeader d2.header d2.headerLength with
                | none => simp [h8] at h
                | some header =>
                  simp only [h8, SaveResult.after] at h
                  rcases h9 : buildSignatures d2 with ⟨d3, r9⟩
                  cases r9 with
                  | halt x => simp [saveFromSignatures, h9] at h
                  | next signatures =>
                    obtain ⟨v, hv, hlt, hsig⟩ := buildSignatures_next d2 d3 signatures h9
                    simp only [saveFromSignatures, h9, mergeSectionsTogether,
                      SaveOutcome.completed.injEq] at h
                    refine ⟨d2, locked, xml, compressed, blocks, startBytes, encrypted, header, v,
                      ?_, h2, h3, h4, h5, h6, h7, h8, hv, hlt, ?_⟩
                    · cases u; rfl
                    · rw [← h, hsig]

theorem uint32LE_append_left (pre tail : Bytes) (k : Nat) :
    uint32LE (pre ++ tail) (pre.length + k) = uint32LE tail k := by
  simp only [uint32LE, Nat.add_assoc, byteAt_append]

theorem uint32LE_uint32Bytes (value : Nat) (rest : Bytes) (h : value < 4294967296) :
    uint32LE (uint32Bytes value ++ rest) 0 = value := by
  simp only [uint32LE, uint32Bytes, byteAt, lengthLow, List.cons_append, List.getD_cons_zero,
    List.getD_cons_succ, Nat.zero_add]
  omega

/-- The three numbers of a prologue written by `buildSignatures` read back. -/
theorem uint32LE_prologue (a b c : Nat) (rest : Bytes) (ha : a < 4294967296)
    (hb : b < 4294967296) (hc : c < 4294967296) :
    uint32LE (uint32Bytes a ++ uint32Bytes b ++ uint32Bytes c ++ rest) 0 = a
      ∧ uint32LE (uint32Bytes a ++ uint32Bytes b ++ uint32Bytes c ++ rest) 4 = b
      ∧ uint32LE (uint32Bytes a ++ uint32Bytes b ++ uint32Bytes c ++ rest) 8 = c := by
  refine ⟨?_, ?_, ?_⟩
  · rw [List.append_assoc, List.append_assoc]
    exact uint32LE_uint32Bytes a _ ha
  · have h := uint32LE_append_left (uint32Bytes a) (uint32Bytes b ++ (uint32Bytes c ++ rest)) 0
    rw [uint32LE_uint32Bytes b _ hb] at h
    rw [List.append_assoc, List.append_assoc]
    exact h
  · have h := uint32LE_append_left (uint32Bytes a ++ uint32Bytes b) (uint32Bytes c ++ rest) 0
    rw [uint32LE_uint32Bytes c _ hc] at h
    rw [List.append_assoc (uint32Bytes a ++ uint32Bytes b)]
    exact h

/-- C11: the buffer a successful `save` returns is P ++ H ++ C: P the 12 bytes
of the two signatures and the recorded file version, each a little-endian
32-bit number; H what `buildHeader` yields for the recorded header length; C
the AES-256-CBC encryption, under the master key derived in this call and the
`EncryptionIV` field, of the stream start bytes followed by the hashed-block
stream of the gzip of the serialized (locked) tree. -/
theorem save_returns_prologue_header_ciphertext (P : Platform)
    (credentialStore : CredentialStore) (db : KeePassDatabase) (content : Bytes)
    (h : (save P credentialStore db).outcome = .completed content) :
    ∃ composite masterSeed transformSeed rounds key fileVersion header locked xml compressed
        blocks startBytes encrypted,
      credentialStore.buildCompositeHash = .ok composite
        ∧ P.headerGet db.header .MasterSeed = .buffer masterSeed
        ∧ P.headerGet db.header .TransformSeed = .buffer transformSeed
        ∧ P.headerGet db.header .TransformRounds = .number rounds
        ∧ buildMasterKey P (bufferToBinary composite) (bufferToBinary masterSeed)
            (bufferToBinary transformSeed) rounds = .ok key
        ∧ db.fileVersion = some fileVersion
        ∧ P.buildHeader db.header db.headerLength = some header
        ∧ (lockProtectedEntries P db.api { db with masterKey := some key }).2 = .next locked
        ∧ P.buildObject locked = some xml
        ∧ P.gzip xml = .ok compressed
        ∧ P.hbioEncrypt compressed = some blocks
        ∧ P.headerGet db.header .StreamStartBytes = .buffer startBytes
        ∧ P.cbcEncrypt key (P.headerGet db.header .EncryptionIV) (startBytes ++ blocks)
            = some encrypted
        ∧ content = (uint32Bytes 0x9AA2D903 ++ uint32Bytes 0xB54BFB67 ++ uint32Bytes fileVersion)
            ++ header ++ encrypted
        ∧ (uint32Bytes 0x9AA2D903 ++ uint32Bytes 0xB54BFB67 ++ uint32Bytes fileVersion).length = 12
        ∧ uint32LE content 0 = 0x9AA2D903 ∧ uint32LE content 4 = 0xB54BFB67
        ∧ uint32LE content 8 = fileVersion := by
  obtain ⟨db', locked, xml, compressed, blocks, startBytes, encrypted, header, fileVersion, h1, h2,
    h3, h4, h5, h6, h7, h8, h9, hv, h10⟩ := save_completed P credentialStore db content h
  obtain ⟨composite, masterSeed, transformSeed, rounds, key, k1, k2, k3, k4, k5, k6⟩ :=
    buildMasterKeyStage_next P credentialStore db db' () h1
  subst k6
  have hpro := uint32LE_prologue 0x9AA2D903 0xB54BFB67 fileVersion (header ++ encrypted)
    (by norm_num) (by norm_num) hv
  have hcontent : content = uint32Bytes 0x9AA2D903 ++ uint32Bytes 0xB54BFB67
      ++ uint32Bytes fileVersion ++ (header ++ encrypted) := by
    rw [h10]
    simp only [BASE_SIGNATURE, VERSION_SIGNATURE, List.append_assoc]
  refine ⟨composite, masterSeed, transformSeed, rounds, key, fileVersion, header, locked, xml,
    compressed, blocks, startBytes, encrypted, k1, k2, k3, k4, k5, h9, h8, ?_, h3, h4, h5, h6, h7,
    ?_, rfl, ?_, ?_, ?_⟩
  · rw [h2]
  · rw [hcontent]; simp only [List.append_assoc]
  · rw [hcontent]; exact hpro.1
  · rw [hcontent]; exact hpro.2.1
  · rw [hcontent]; exact hpro.2.2

/-- Witness for C11: saving the instance that loaded `demoFile`. -/
theorem save_returns_prologue_header_ciphertext_witness :
    (save demoPlatform demoStore demoLoaded).outcome
        = .completed (save demoPlatform demoStore demoLoaded).content
      ∧ uint32LE (save demoPlatform demoStore demoLoaded).content 8 = 196609 := by
  have h : (save demoPlatform demoStore demoLoaded).outcome
      = .completed (save demoPlatform demoStore demoLoaded).content := by rfl
  obtain ⟨_, _, _, _, _, fileVersion, _, _, _, _, _, _, _, -, -, -, -, -, hv, -, -, -, -, -, -, -,
    -, -, -, -, h8⟩ := save_returns_prologue_header_ciphertext demoPlatform demoStore demoLoaded _ h
  refine ⟨h, ?_⟩
  rw [h8]
  have : demoLoaded.fileVersion = some 196609 := by rfl
  rw [this] at hv
  cases hv
  rfl

/-! ## The master key in the instance -/

/-- C15 (amended to what the code does): the master key is derived anew, from
the credential store and the header, in every `load` and every `save` that
reaches its key-derivation task, and it is kept: once that task has handed on
(`load` has started `decryptDatabase`, `save` has started `fetchFromApi`), the
instance holds the derived key when the call is over, whether the call then
completes or fails; when the task was not reached or failed, the instance
holds what it held before the call. -/
theorem masterKey_kept_after_load_and_save (P : Platform) (fileContents : Bytes)
    (credentialStore : CredentialStore) (db : KeePassDatabase) :
    (Stage.decryptDatabase ∈ (load P fileContents credentialStore db).trace →
        ∃ composite masterSeed transformSeed rounds key,
          credentialStore.buildCompositeHash = .ok composite
            ∧ P.headerGet (load P fileContents credentialStore db).db.header .MasterSeed
                = .buffer masterSeed
            ∧ P.headerGet (load P fileContents credentialStore db).db.header .TransformSeed
                = .buffer transformSeed
            ∧ P.headerGet (load P fileContents credentialStore db).db.header .TransformRounds
                = .number rounds
            ∧ buildMasterKey P (bufferToBinary composite) (bufferToBinary masterSeed)
                (bufferToBinary transformSeed) rounds = .ok key
            ∧ (load P fileContents credentialStore db).db.masterKey = some key)
      ∧ (Stage.decryptDatabase ∉ (load P fileContents credentialStore db).trace →
          (load P fileContents credentialStore db).db.masterKey = db.masterKey)
      ∧ (SaveStage.fetchFromApi ∈ (save P credentialStore db).trace →
          ∃ composite masterSeed transformSeed rounds key,
            credentialStore.buildCompositeHash = .ok composite
              ∧ P.headerGet db.header .MasterSeed = .buffer masterSeed
              ∧ P.headerGet db.header .TransformSeed = .buffer transformSeed
              ∧ P.headerGet db.header .TransformRounds = .number rounds
              ∧ buildMasterKey P (bufferToBinary composite) (bufferToBinary masterSeed)
                  (bufferToBinary transformSeed) rounds = .ok key
              ∧ (save P credentialStore db).db.masterKey = some key)
      ∧ (SaveStage.fetchFromApi ∉ (save P credentialStore db).trace →
          (save P credentialStore db).db.masterKey = db.masterKey) := by
  refine ⟨?_, ?_, ?_, ?_⟩
  · -- load, key derived
    intro hmem
    rcases h1 : checkSignatures fileContents db with ⟨db1, r1⟩
    cases r1 with
    | halt x => simp [load, h1] at hmem
    | next u1 =>
      rcases h2 : parseDatabaseHeader P fileContents db1 with ⟨db2, r2⟩
      cases r2 with
      | halt x => simp [load, h1, loadFromHeader, h2, LoadResult.after] at hmem
      | next u2 =>
        rcases h3 : buildMasterKeyStage P credentialStore db2 with ⟨db3, r3⟩
        cases r3 with
        | halt x =>
          simp [load, h1, loadFromHeader, h2, loadFromMasterKey, h3, LoadResult.after] at hmem
        | next u3 =>
          obtain ⟨composite, masterSeed, transformSeed, rounds, key, k1, k2, k3, k4, k5, k6⟩ :=
            buildMasterKeyStage_next P credentialStore db2 db3 u3 h3
          obtain ⟨hk, hh, -⟩ := loadFromDecrypt_keeps P fileContents db3
          have hdb : (load P fileContents credentialStore db).db
              = (loadFromDecrypt P fileContents db3).db := by
            simp [load, h1, loadFromHeader, h2, loadFromMasterKey, h3, LoadResult.after]
          rw [hdb, hk, hh, k6]
          exact ⟨composite, masterSeed, transformSeed, rounds, key, k1, k2, k3, k4, k5, rfl⟩
  · -- load, key not derived
    intro hmem
    have hc := checkSignatures_masterKey fileContents db
    rcases h1 : checkSignatures fileContents db with ⟨db1, r1⟩
    rw [h1] at hc
    simp only at hc
    cases r1 with
    | halt x => simp [load, h1, hc]
    | next u1 =>
      have hp := parseHeaderLoop_masterKey P fileContents (fileContents.length + 1) 12 db1
      rcases h2 : parseDatabaseHeader P fileContents db1 with ⟨db2, r2⟩
      simp only [parseDatabaseHeader] at h2
      rw [h2] at hp
      simp only at hp
      cases r2 with
      | halt x =>
        simp [load, h1, loadFromHeader, parseDatabaseHeader, h2, LoadResult.after, hp, hc]
      | next u2 =>
        rcases h3 : buildMasterKeyStage P credentialStore db2 with ⟨db3, r3⟩
        cases r3 with
        | halt x =>
          have := buildMasterKeyStage_halt P credentialStore db2 db3 x h3
          subst this
          simp [load, h1, loadFromHeader, parseDatabaseHeader, h2, loadFromMasterKey, h3,
            LoadResult.after, hp, hc]
        | next u3 =>
          exfalso
          apply hmem
          have := (loadFromDecrypt_keeps P fileContents db3).2.2
          simp [load, h1, loadFromHeader, parseDatabaseHeader, h2, loadFromMasterKey, h3,
            LoadResult.after, this]
  · -- save, key derived
    intro hmem
    rcases h3 : buildMasterKeyStage P credentialStore db with ⟨db3, r3⟩
    cases r3 with
    | halt x => simp [save, h3] at hmem
    | next u3 =>
      obtain ⟨composite, masterSeed, transformSeed, rounds, key, k1, k2, k3, k4, k5, k6⟩ :=
        buildMasterKeyStage_next P credentialStore db db3 u3 h3
      have hdb : (save P credentialStore db).db = db3 := by
        simp [save, h3, SaveResult.after, (saveFromFetch_db P db3).1]
      rw [hdb, k6]
      exact ⟨composite, masterSeed, transformSeed, rounds, key, k1, k2, k3, k4, k5, rfl⟩
  · -- save, key not derived
    intro hmem
    rcases h3 : buildMasterKeyStage P credentialStore db with ⟨db3, r3⟩
    cases r3 with
    | halt x =>
      have := buildMasterKeyStage_halt P credentialStore db db3 x h3
      subst this
      simp [save, h3]
    | next u3 =>
      exfalso
      apply hmem
      simp [save, h3, SaveResult.after, (saveFromFetch_db P db3).2]

/-- Witness for C15 as amended: the load of `demoFile` and the save that follows. -/
theorem masterKey_kept_after_load_and_save_witness :
    Stage.decryptDatabase ∈ (load demoPlatform (demoFile (List.replicate 16 3)) demoStore {}).trace
      ∧ (load demoPlatform (demoFile (List.replicate 16 3)) demoStore {}).db.masterKey.isSome
          = true
      ∧ SaveStage.fetchFromApi ∈ (save demoPlatform demoStore demoLoaded).trace
      ∧ (save demoPlatform demoStore demoLoaded).db.masterKey.isSome = true := by
  have h := masterKey_kept_after_load_and_save demoPlatform (demoFile (List.replicate 16 3))
    demoStore {}
  have h' := masterKey_kept_after_load_and_save demoPlatform [] demoStore demoLoaded
  have m1 : Stage.decryptDatabase
      ∈ (load demoPlatform (demoFile (List.replicate 16 3)) demoStore {}).trace := by decide
  have m2 : SaveStage.fetchFromApi ∈ (save demoPlatform demoStore demoLoaded).trace := by decide
  obtain ⟨_, _, _, _, key, -, -, -, -, -, hk⟩ := h.1 m1
  obtain ⟨_, _, _, _, key', -, -, -, -, -, hk'⟩ := h'.2.2.1 m2
  exact ⟨m1, by rw [hk]; rfl, m2, by rw [hk']; rfl⟩

/-- Counterexample to C15: after the completed load of `demoFile`, after a
load of the same header that fails with the start-bytes error, and after the
save that follows the load, the instance holds a master key. -/
theorem masterKey_present_after_calls :
    (load demoPlatform (demoFile (List.replicate 16 3)) demoStore {}).outcome = .completed
      ∧ (load demoPlatform (demoFile (List.replicate 16 3)) demoStore {}).db.masterKey ≠ none
      ∧ (load demoPlatform (demoFile (List.replicate 14 3 ++ [66, 65])) demoStore {}).outcome
          = .halted (.callbackError (.error
            "Stream start bytes were invalid. Either the credentials were invalid or the database is corrupt."))
      ∧ (load demoPlatform (demoFile (List.replicate 14 3 ++ [66, 65])) demoStore {}).db.masterKey
          ≠ none
      ∧ (save demoPlatform demoStore demoLoaded).db.masterKey ≠ none := by
  refine ⟨by rfl, by decide, by rfl, by decide, by decide⟩

/-! ## `Database.saveFile` -/

/-- C16: what `saveFile` does when `save` fails. When a task of `save` reports
an error `e` to the callback, `saveFile` still calls `fs.writeFile`, for the
same path, with `undefined` as content, and its callback receives whatever
that write reports, not `e`. When a task of `save` throws, nothing is written
and the callback of `saveFile` is never called. -/
theorem saveFile_ignores_save_error (P : Platform) (filePath : String)
    (credentialStore : CredentialStore) (db : KeePassDatabase) :
    (∀ e, (save P credentialStore db).outcome = .halted (.callbackError e) →
        (saveFile P filePath credentialStore db).writes = [(filePath, .undefined)]
          ∧ (saveFile P filePath credentialStore db).callback
              = (match P.writeFile filePath .undefined with
                | .ok err => some err
                | .error _ => none))
      ∧ (∀ e, (save P credentialStore db).outcome = .halted (.thrown e) →
          (saveFile P filePath credentialStore db).writes = []
            ∧ (saveFile P filePath credentialStore db).callback = none
            ∧ (saveFile P filePath credentialStore db).thrown = some e)
      ∧ (∀ content, (save P credentialStore db).outcome = .completed content →
          (saveFile P filePath credentialStore db).writes = [(filePath, .buffer content)]) := by
  refine ⟨?_, ?_, ?_⟩
  · intro e h
    simp only [saveFile, h, writeAndCallBack]
    cases P.writeFile filePath .undefined <;> simp
  · intro e h
    simp only [saveFile, h, and_self]
  · intro content h
    simp only [saveFile, h, writeAndCallBack]
    cases P.writeFile filePath (.buffer content) <;> simp

/-- Witness for C16: an instance without a tree, for which the compression
task reports an error; the file is written with `undefined` and the callback
of `saveFile` gets `null`. -/
theorem saveFile_ignores_save_error_witness :
    (save demoPlatform demoStore demoHeaderOnly).outcome
        = .halted (.callbackError
            (.error "Could not compress database: Error: nothing to compress"))
      ∧ (saveFile demoPlatform "db.kdbx" demoStore demoHeaderOnly).writes
          = [("db.kdbx", .undefined)]
      ∧ (saveFile demoPlatform "db.kdbx" demoStore demoHeaderOnly).callback = some none := by
  have h : (save demoPlatform demoStore demoHeaderOnly).outcome
      = .halted (.callbackError
          (.error "Could not compress database: Error: nothing to compress")) := by rfl
  have hw := (saveFile_ignores_save_error demoPlatform "db.kdbx" demoStore demoHeaderOnly).1 _ h
  exact ⟨h, hw.1, by rw [hw.2]; rfl⟩

/-! ## The errors of the decryption task -/

/-- C14 (amended to what the code does): the errors the decryption task hands
to the callback are all plain `Error` values, but each check has its own
message. A failure of the cipher (padding) gives `Could not decrypt database.
...`, the start-bytes test gives `Stream start bytes were invalid. ...`, and a
failure of `HashedBlockIO.decrypt` gives `Database integrity check failed: `
followed by the text of the exception; the three differ from one another, so
the message tells which check failed. -/
theorem decryptDatabase_errors_tell_the_check (P : Platform) (fileContents : Bytes)
    (db db' : KeePassDatabase) (e : JsError)
    (h : decryptDatabase P fileContents db = (db', .halt (.callbackError e))) :
    ((e = .error
          "Could not decrypt database. Either the credentials were invalid or the database is corrupt."
        ∧ P.cbcDecrypt (db.masterKey.getD []) (P.headerGet db.header .EncryptionIV)
            (fileContents.drop (db.payloadOffset.getD 0)) = none)
      ∨ (e = .error
          "Stream start bytes were invalid. Either the credentials were invalid or the database is corrupt."
        ∧ ∃ plain startBytes,
            P.cbcDecrypt (db.masterKey.getD []) (P.headerGet db.header .EncryptionIV)
              (fileContents.drop (db.payloadOffset.getD 0)) = some plain
            ∧ P.headerGet db.header .StreamStartBytes = .buffer startBytes
            ∧ bufferToBinary startBytes = P.utf8Decode (plain.take startBytes.length))
      ∨ (∃ plain startBytes err,
            e = .error ("Database integrity check failed: " ++ err)
            ∧ P.cbcDecrypt (db.masterKey.getD []) (P.headerGet db.header .EncryptionIV)
              (fileContents.drop (db.payloadOffset.getD 0)) = some plain
            ∧ P.headerGet db.header .StreamStartBytes = .buffer startBytes
            ∧ P.hbioDecrypt (plain.drop startBytes.length) = .error err))
      ∧ (JsError.error
          "Could not decrypt database. Either the credentials were invalid or the database is corrupt."
        ≠ .error
          "Stream start bytes were invalid. Either the credentials were invalid or the database is corrupt.")
      ∧ (∀ err : String, JsError.error
          "Could not decrypt database. Either the credentials were invalid or the database is corrupt."
        ≠ .error ("Database integrity check failed: " ++ err))
      ∧ (∀ err : String, JsError.error
          "Stream start bytes were invalid. Either the credentials were invalid or the database is corrupt."
        ≠ .error ("Database integrity check failed: " ++ err)) := by
  refine ⟨?_, by decide, ?_, ?_⟩
  · simp only [decryptDatabase] at h
    split at h
    · simp at h
    · simp only [binaryToBuffer_bufferToBinary] at h
      cases hdec : P.cbcDecrypt (db.masterKey.getD []) (P.headerGet db.header .EncryptionIV)
          (fileContents.drop (db.payloadOffset.getD 0)) with
      | none =>
        simp only [hdec, Prod.mk.injEq, StageResult.halt.injEq, Halt.callbackError.injEq] at h
        exact Or.inl ⟨h.2.symm, rfl⟩
      | some plain =>
        simp only [hdec] at h
        cases hsb : P.headerGet db.header .StreamStartBytes with
        | undefined => simp [hsb, FieldValue.toBinaryString] at h
        | number n => simp [hsb, FieldValue.toBinaryString] at h
        | buffer startBytes =>
          have hslice : slice plain 0 startBytes.length = plain.take startBytes.length := by
            simp [slice]
          simp only [hsb, FieldValue.toBinaryString, bufferToBinary_length, hslice] at h
          by_cases hcmp : bufferToBinary startBytes = P.utf8Decode (plain.take startBytes.length)
          · simp only [hcmp, ne_eq, not_true_eq_false, if_false, Prod.mk.injEq,
              StageResult.halt.injEq, Halt.callbackError.injEq] at h
            exact Or.inr (Or.inl ⟨h.2.symm, plain, startBytes, rfl, rfl, hcmp⟩)
          · simp only [ne_eq, hcmp, not_false_eq_true, if_true] at h
            cases hh : P.hbioDecrypt (plain.drop startBytes.length) with
            | ok d => simp [hh] at h
            | error err =>
              simp only [hh, Prod.mk.injEq, StageResult.halt.injEq,
                Halt.callbackError.injEq] at h
              exact Or.inr (Or.inr ⟨plain, startBytes, err, h.2.symm, rfl, rfl, hh⟩)
  · intro err hne
    have h3 := congrArg (fun x => match x with
      | JsError.error s => s.data.head?
      | _ => none) hne
    simp at h3
  · intro err hne
    have h3 := congrArg (fun x => match x with
      | JsError.error s => s.data.head?
      | _ => none) hne
    simp at h3

/-- Witness for C14 as amended: `demoFile` with a payload that decrypts to the
start bytes `AB` and fourteen more bytes. -/
theorem decryptDatabase_errors_tell_the_check_witness :
    decryptDatabase demoPlatform (demoFile (List.replicate 14 3 ++ [66, 65]))
        { demoHeaderOnly with masterKey := some (List.replicate 32 0) }
        = ({ demoHeaderOnly with masterKey := some (List.replicate 32 0) },
           .halt (.callbackError (.error
          "Stream start bytes were invalid. Either the credentials were invalid or the database is corrupt.")))
      ∧ (JsError.error
          "Could not decrypt database. Either the credentials were invalid or the database is corrupt."
        ≠ .error
          "Stream start bytes were invalid. Either the credentials were invalid or the database is corrupt.") :=
  ⟨by rfl,
    (decryptDatabase_errors_tell_the_check demoPlatform
      (demoFile (List.replicate 14 3 ++ [66, 65]))
      { demoHeaderOnly with masterKey := some (List.replicate 32 0) } _ _ (by rfl)).2.1⟩

/-- Counterexample to C14: a load that fails because the cipher rejects the
payload (15 bytes, not a whole number of blocks) and a load that fails in the
start-bytes test deliver different error values. -/
theorem load_failures_deliver_different_errors :
    (load demoPlatform (demoFile (List.replicate 15 3)) demoStore {}).outcome
        = .halted (.callbackError (.error
          "Could not decrypt database. Either the credentials were invalid or the database is corrupt."))
      ∧ (load demoPlatform (demoFile (List.replicate 14 3 ++ [66, 65])) demoStore {}).outcome
        = .halted (.callbackError (.error
          "Stream start bytes were invalid. Either the credentials were invalid or the database is corrupt."))
      ∧ (load demoPlatform (demoFile (List.replicate 15 3)) demoStore {}).outcome
        ≠ (load demoPlatform (demoFile (List.replicate 14 3 ++ [66, 65])) demoStore {}).outcome := by
  refine ⟨by rfl, by rfl, by decide⟩

/-! ## Objects as lists of entries -/

theorem lookupKey_assignKey_same (k : String) (v : Tree) (l : Entries) :
    lookupKey k (assignKey k v l) = some v := by
  induction l with
  | nil => simp [assignKey, lookupKey]
  | cons e rest ih =>
    obtain ⟨a, b⟩ := e
    by_cases h : a = k
    · simp [assignKey, lookupKey, h]
    · simp [assignKey, lookupKey, h, ih]

theorem lookupKey_assignKey_ne (k k' : String) (v : Tree) (l : Entries) (h : k' ≠ k) :
    lookupKey k' (assignKey k v l) = lookupKey k' l := by
  induction l with
  | nil => simp [assignKey, lookupKey, Ne.symm h]
  | cons e rest ih =>
    obtain ⟨a, b⟩ := e
    by_cases h1 : a = k
    · subst h1
      simp [assignKey, lookupKey, Ne.symm h]
    · by_cases h2 : a = k'
      · subst h2
        simp [assignKey, lookupKey, h1]
      · simp [assignKey, lookupKey, h1, h2, ih]

theorem assignKey_of_lookupKey (k : String) (v : Tree) (l : Entries)
    (h : lookupKey k l = some v) : assignKey k v l = l := by
  induction l with
  | nil => simp [lookupKey] at h
  | cons e rest ih =>
    obtain ⟨a, b⟩ := e
    by_cases h1 : a = k
    · subst h1
      simp only [lookupKey, if_true, Option.some.injEq] at h
      simp [assignKey, h]
    · simp only [lookupKey, h1, if_false] at h
      simp [assignKey, h1, ih h]

theorem assignKey_assignKey (k : String) (v v' : Tree) (l : Entries) :
    assignKey k v (assignKey k v' l) = assignKey k v l := by
  induction l with
  | nil => simp [assignKey]
  | cons e rest ih =>
    obtain ⟨a, b⟩ := e
    by_cases h1 : a = k
    · simp [assignKey, h1]
    · simp [assignKey, h1, ih]

theorem keysOf_assignKey (k : String) (v : Tree) (l : Entries) (h : k ∈ keysOf l) :
    keysOf (assignKey k v l) = keysOf l := by
  induction l with
  | nil => simp [keysOf] at h
  | cons e rest ih =>
    obtain ⟨a, b⟩ := e
    by_cases h1 : a = k
    · simp [assignKey, keysOf, h1]
    · have hr : k ∈ keysOf rest := by
        simp only [keysOf, List.map_cons, List.mem_cons] at h
        rcases h with h | h
        · exact absurd h.symm h1
        · exact h
      have := ih hr
      simp only [keysOf] at this
      simp [assignKey, keysOf, h1, this]

theorem assignKey_comm (k k2 : String) (v t : Tree) (l : Entries) (hne : k ≠ k2)
    (hk : k ∈ keysOf l) :
    assignKey k v (assignKey k2 t l) = assignKey k2 t (assignKey k v l) := by
  induction l with
  | nil => simp [keysOf] at hk
  | cons e rest ih =>
    obtain ⟨a, b⟩ := e
    by_cases h1 : a = k
    · subst h1
      simp [assignKey, hne, Ne.symm hne]
    · have hr : k ∈ keysOf rest := by
        simp only [keysOf, List.map_cons, List.mem_cons] at hk
        rcases hk with h | h
        · exact absurd h.symm h1
        · exact h
      by_cases h2 : a = k2
      · subst h2
        simp [assignKey, h1]
      · simp [assignKey, h1, h2, ih hr]

theorem assignKey_append_cons (k : String) (v v' : Tree) (done rest : Entries)
    (h : k ∉ keysOf done) :
    assignKey k v' (done ++ (k, v) :: rest) = done ++ (k, v') :: rest := by
  induction done with
  | nil => simp [assignKey]
  | cons e d ih =>
    obtain ⟨a, b⟩ := e
    simp only [keysOf, List.map_cons, List.mem_cons, not_or] at h
    have h1 : ¬ a = k := fun hh => h.1 hh.symm
    have := ih (by simpa [keysOf] using h.2)
    simp [assignKey, h1, this]

theorem lookupKey_append_cons (k : String) (v : Tree) (done rest : Entries)
    (h : k ∉ keysOf done) : lookupKey k (done ++ (k, v) :: rest) = some v := by
  induction done with
  | nil => simp [lookupKey]
  | cons e d ih =>
    obtain ⟨a, b⟩ := e
    simp only [keysOf, List.map_cons, List.mem_cons, not_or] at h
    have h1 : ¬ a = k := fun hh => h.1 hh.symm
    have := ih (by simpa [keysOf] using h.2)
    simp [lookupKey, h1, this]

theorem mem_keysOf_of_lookupKey (k : String) (v : Tree) (l : Entries)
    (h : lookupKey k l = some v) : k ∈ keysOf l := by
  induction l with
  | nil => simp [lookupKey] at h
  | cons e rest ih =>
    obtain ⟨a, b⟩ := e
    by_cases h1 : a = k
    · simp [keysOf, h1]
    · simp only [lookupKey, h1, if_false] at h
      have := ih h
      simp only [keysOf] at this
      simp [keysOf, this]

theorem mem_keysOf_append_cons (k : String) (v : Tree) (done rest : Entries) :
    k ∈ keysOf (done ++ (k, v) :: rest) := by
  simp [keysOf]

/-! ## The search over an attribute map -/

theorem protectedIsTrue_mem_keys (a : Entries) (h : protectedIsTrue (.obj a) = true) :
    "Protected" ∈ keysOf a := by
  simp only [protectedIsTrue] at h
  cases hl : lookupKey "Protected" a with
  | none => simp [hl] at h
  | some v => exact mem_keysOf_of_lookupKey _ v a hl

theorem protectedIsTrue_of_not_mem (a : Entries) (h : "Protected" ∉ keysOf a) :
    protectedIsTrue (.obj a) = false := by
  cases hp : protectedIsTrue (.obj a) with
  | false => rfl
  | true => exact absurd (protectedIsTrue_mem_keys a hp) h

/-- The search over entries that are all strings calls `found` for the parent
once if `Protected` is among the keys, and does nothing else. -/
theorem searchFields_all_text
    (found : SalsaManager → Entries → Except JsError (SalsaManager × Entries))
    (todo self : Entries) (parent : ParentRef) (m : SalsaManager)
    (htext : todo.all (fun e => isText e.2) = true) (hnodup : (keysOf todo).Nodup) :
    searchFields found todo self parent m =
      if "Protected" ∈ keysOf todo then
        match callFound found self parent m with
        | .error e => .error e
        | .ok (m', parent') => .ok (m', self, parent')
      else .ok (m, self, parent) := by
  induction todo generalizing parent m with
  | nil => simp [searchFields, keysOf]
  | cons e rest ih =>
    obtain ⟨k, v⟩ := e
    simp only [List.all_cons, Bool.and_eq_true] at htext
    simp only [keysOf, List.map_cons, List.nodup_cons] at hnodup
    have hrest := fun p mm => ih p mm htext.2 (by simpa [keysOf] using hnodup.2)
    by_cases hk : k = "Protected"
    · subst hk
      have hnot : "Protected" ∉ keysOf rest := by simpa [keysOf] using hnodup.1
      simp only [searchFields, if_true, keysOf, List.map_cons, List.mem_cons, true_or]
      cases hc : callFound found self parent m with
      | error e => rfl
      | ok r =>
        obtain ⟨m', parent'⟩ := r
        simp only
        rw [hrest parent' m', if_neg hnot]
    · have hv : nowString k v self = true := by
        cases v with
        | text s => rfl
        | obj fs => simp [isText] at htext
        | arr items => simp [isText] at htext
      have hmem : ("Protected" ∈ keysOf ((k, v) :: rest)) ↔ ("Protected" ∈ keysOf rest) := by
        simp [keysOf, Ne.symm hk]
      simp only [searchFields, hk, if_false, hv, if_true]
      rw [hrest parent m]
      by_cases hm : "Protected" ∈ keysOf rest
      · rw [if_pos hm, if_pos (hmem.mpr hm)]
      · rw [if_neg hm, if_neg (fun h => hm (hmem.mp h))]

theorem lookupKey_of_mem_nodup (k : String) (v : Tree) (l : Entries)
    (hnodup : (keysOf l).Nodup) (hmem : (k, v) ∈ l) : lookupKey k l = some v := by
  induction l with
  | nil => simp at hmem
  | cons e rest ih =>
    obtain ⟨a, b⟩ := e
    simp only [keysOf, List.map_cons, List.nodup_cons] at hnodup
    rcases List.mem_cons.mp hmem with h | h
    · simp only [Prod.mk.injEq] at h
      simp [lookupKey, h.1, h.2]
    · have hne : ¬ a = k := by
        intro hak
        apply hnodup.1
        subst hak
        exact List.mem_map.mpr ⟨(a, v), h, rfl⟩
      simp only [lookupKey, hne, if_false]
      exact ih (by simpa [keysOf] using hnodup.2) h

theorem laterText_none (x : Option JsString) : laterText x none = x := by
  cases x <;> rfl

theorem mapEntries_fired_none (f : SalsaManager → JsString → JsString × SalsaManager)
    (own : Option JsString) (todo : Entries) (m : SalsaManager) (h : "$" ∉ keysOf todo) :
    (mapEntries f own todo m).2.2 = none := by
  induction todo generalizing m with
  | nil => simp [mapEntries]
  | cons e rest ih =>
    obtain ⟨k, v⟩ := e
    simp only [keysOf, List.map_cons, List.mem_cons, not_or] at h
    have hk : ¬ k = "$" := fun hh => h.1 hh.symm
    simp only [mapEntries, hk, if_false]
    exact ih _ (by simpa [keysOf] using h.2)

/-- The search of an attribute map whose `Protected` is not `'True'` changes nothing. -/
theorem searchValue_attributes_plain
    (found : SalsaManager → Entries → Except JsError (SalsaManager × Entries))
    (f : SalsaManager → JsString → JsString × SalsaManager) (hf : FoundBy found f)
    (a self : Entries) (m : SalsaManager) (hmap : attributeMap (.obj a) = true)
    (hself : lookupKey "$" self = some (.obj a)) (hp : protectedIsTrue (.obj a) = false) :
    searchValue found (.obj a) { kind := .object, fields := self, slot := "$" } m
      = .ok (m, .obj a, { kind := .object, fields := self, slot := "$" }) := by
  simp only [attributeMap, Bool.and_eq_true, decide_eq_true_eq] at hmap
  simp only [searchValue, searchFields_all_text found a a _ m hmap.1 hmap.2]
  by_cases hmem : "Protected" ∈ keysOf a
  · have hview : assignKey "$" (.obj a) self = self := assignKey_of_lookupKey _ _ _ hself
    have hfound := (hf m self (.obj a) hself).1 hp
    simp [hmem, callFound, hview, hfound]
  · simp [hmem]

/-- The search of an attribute map whose `Protected` is `'True'` replaces the
text of the node by what the text function returns. -/
theorem searchValue_attributes_protected
    (found : SalsaManager → Entries → Except JsError (SalsaManager × Entries))
    (f : SalsaManager → JsString → JsString × SalsaManager) (hf : FoundBy found f)
    (a self : Entries) (m : SalsaManager) (s : JsString) (hmap : attributeMap (.obj a) = true)
    (hself : lookupKey "$" self = some (.obj a)) (hp : protectedIsTrue (.obj a) = true)
    (htext : lookupKey "_" self = some (.text s)) :
    searchValue found (.obj a) { kind := .object, fields := self, slot := "$" } m
      = .ok ((f m s).2, .obj a,
          { kind := .object, fields := assignKey "_" (.text (f m s).1) self, slot := "$" }) := by
  simp only [attributeMap, Bool.and_eq_true, decide_eq_true_eq] at hmap
  simp only [searchValue, searchFields_all_text found a a _ m hmap.1 hmap.2]
  have hmem : "Protected" ∈ keysOf a := protectedIsTrue_mem_keys a hp
  have hview : assignKey "$" (.obj a) self = self := assignKey_of_lookupKey _ _ _ hself
  have hfound := (hf m self (.obj a) hself).2 hp s htext
  simp [hmem, callFound, hview, hfound]

theorem setText_append_cons_assign (fired : Option JsString) (k : String) (v v' : Tree)
    (done rest : Entries) (hk : k ≠ "_") (hdone : k ∉ keysOf done) :
    assignKey k v' (setText fired (done ++ (k, v) :: rest))
      = setText fired (done ++ (k, v') :: rest) := by
  cases fired with
  | none => exact assignKey_append_cons k v v' done rest hdone
  | some t =>
    simp only [setText]
    rw [assignKey_comm k "_" v' (.text t) _ hk (mem_keysOf_append_cons k v done rest),
      assignKey_append_cons k v v' done rest hdone]

theorem lookupKey_setText_ne (fired : Option JsString) (k : String) (l : Entries)
    (hk : k ≠ "_") : lookupKey k (setText fired l) = lookupKey k l := by
  cases fired with
  | none => rfl
  | some t => exact lookupKey_assignKey_ne "_" k _ l hk

theorem assignKey_text_setText (fired : Option JsString) (t : JsString) (l : Entries) :
    assignKey "_" (.text t) (setText fired l) = setText (some t) l := by
  cases fired with
  | none => rfl
  | some t' => exact assignKey_assignKey "_" _ _ l

mutual
/-- On a regular tree the search is the traversal `mapValue`: it does not
raise, and it leaves the parent as it was. -/
theorem searchValue_regular
    (found : SalsaManager → Entries → Except JsError (SalsaManager × Entries))
    (f : SalsaManager → JsString → JsString × SalsaManager) (hf : FoundBy found f) :
    ∀ (v : Tree) (parent : ParentRef) (m : SalsaManager), regularValue v = true →
      searchValue found v parent m = .ok ((mapValue f v m).2, (mapValue f v m).1, parent)
  | .text s, parent, m, _ => by simp [searchValue, mapValue]
  | .arr items, parent, m, h => by
    simp only [regularValue] at h
    simp only [searchValue, mapValue, searchItems_regular found f hf items m h]
  | .obj fs, parent, m, h => by
    simp only [regularValue, Bool.and_eq_true, decide_eq_true_eq, Bool.or_eq_true,
      Bool.not_eq_true'] at h
    obtain ⟨⟨hnodup, hprot⟩, hreg⟩ := h
    have hown : ∀ a, ("$", a) ∈ fs → protectedIsTrue a = true →
        ∃ s, nodeText fs = some s ∧ lookupKey "_" (setText none ([] ++ fs)) = some (.text s) := by
      intro a hmem hp
      have hl := lookupKey_of_mem_nodup "$" a fs hnodup hmem
      have hnp : nodeProtected fs = true := by simp [nodeProtected, hl, hp]
      rcases hprot with h1 | h1
      · rw [hnp] at h1; cases h1
      · simp only [nodeText] at h1 ⊢
        cases hl2 : lookupKey "_" fs with
        | none => simp [hl2] at h1
        | some t =>
          cases t with
          | text s => exact ⟨s, rfl, by simp [setText, hl2]⟩
          | obj x => simp [hl2] at h1
          | arr x => simp [hl2] at h1
    have hS := searchFields_regular found f hf fs [] none (nodeText fs) parent m hreg
      (by simpa using hnodup) hown
    simp only [setText, List.nil_append, laterText_none] at hS
    simp only [searchValue, mapValue, hS]
    cases (mapEntries f (nodeText fs) fs m).2.2 <;> rfl
/-- The loop over the entries that remain, `done` being the entries walked so
far and `fired` the text the node got from the cipher, if any. -/
theorem searchFields_regular
    (found : SalsaManager → Entries → Except JsError (SalsaManager × Entries))
    (f : SalsaManager → JsString → JsString × SalsaManager) (hf : FoundBy found f) :
    ∀ (todo done : Entries) (fired own : Option JsString) (parent : ParentRef)
      (m : SalsaManager), regularEntries todo = true → (keysOf (done ++ todo)).Nodup →
      (∀ a, ("$", a) ∈ todo → protectedIsTrue a = true →
        ∃ s, own = some s ∧ lookupKey "_" (setText fired (done ++ todo)) = some (.text s)) →
      searchFields found todo (setText fired (done ++ todo)) parent m
        = .ok ((mapEntries f own todo m).2.1,
            setText (laterText (mapEntries f own todo m).2.2 fired)
              (done ++ (mapEntries f own todo m).1), parent)
  | [], done, fired, own, parent, m, _, _, _ => by
    simp [searchFields, mapEntries, laterText]
  | (k, v) :: rest, done, fired, own, parent, m, hreg, hnodup, hown => by
    simp only [regularEntries, Bool.and_eq_true] at hreg
    obtain ⟨hhead, hrest⟩ := hreg
    have hkeys : keysOf (done ++ (k, v) :: rest) = keysOf done ++ k :: keysOf rest := by
      simp [keysOf]
    have hkdone : k ∉ keysOf done := by
      rw [hkeys] at hnodup
      intro hmem
      exact (List.nodup_append.mp hnodup).2.2 hmem (List.mem_cons_self _ _)
    have hkrest : k ∉ keysOf rest := by
      rw [hkeys] at hnodup
      exact (List.nodup_cons.mp (List.nodup_append.mp hnodup).2.1).1
    have hnodup' : ∀ v' : Tree, (keysOf ((done ++ [(k, v')]) ++ rest)).Nodup := by
      intro v'
      have : keysOf ((done ++ [(k, v')]) ++ rest) = keysOf done ++ k :: keysOf rest := by
        simp [keysOf]
      rw [this, ← hkeys]
      exact hnodup
    have happ : ∀ v' : Tree, done ++ (k, v') :: rest = (done ++ [(k, v')]) ++ rest := by
      intro v'; simp
    by_cases hP : k = "Protected"
    · simp [hP] at hhead
    · simp only [hP, if_false] at hhead
      by_cases hD : k = "$"
      · -- the attribute map
        subst hD
        simp only [if_true] at hhead
        cases v with
        | text s => simp [attributeMap] at hhead
        | arr items => simp [attributeMap] at hhead
        | obj a =>
          have hself : lookupKey "$" (setText fired (done ++ ("$", .obj a) :: rest))
              = some (.obj a) := by
            rw [lookupKey_setText_ne fired "$" _ (by decide)]
            exact lookupKey_append_cons "$" _ done rest hkdone
          have hnow : nowString "$" (.obj a) (setText fired (done ++ ("$", .obj a) :: rest))
              = false := by
            simp [nowString]
          have hnone : (mapEntries f own rest m).2.2 = none ∧
              ∀ m', (mapEntries f own rest m').2.2 = none :=
            ⟨mapEntries_fired_none f own rest m hkrest,
              fun m' => mapEntries_fired_none f own rest m' hkrest⟩
          have hvac : ∀ fired', ∀ a', ("$", a') ∈ rest → protectedIsTrue a' = true →
              ∃ s, own = some s
                ∧ lookupKey "_" (setText fired' ((done ++ [("$", .obj a)]) ++ rest))
                  = some (.text s) := by
            intro fired' a' hmem _
            exfalso
            exact hkrest (List.mem_map.mpr ⟨("$", a'), hmem, rfl⟩)
          cases hp : protectedIsTrue (.obj a) with
          | false =>
            have hstep := searchValue_attributes_plain found f hf a _ m hhead hself hp
            have hback : assignKey "$" (.obj a) (setText fired (done ++ ("$", .obj a) :: rest))
                = setText fired ((done ++ [("$", .obj a)]) ++ rest) := by
              rw [assignKey_of_lookupKey _ _ _ hself, happ]
            have hIH := searchFields_regular found f hf rest (done ++ [("$", .obj a)]) fired own
              parent m hrest (hnodup' _) (hvac fired)
            simp only [searchFields, hP, if_false, hnow, Bool.false_eq_true, hstep, if_true,
              hback, hIH]
            simp only [mapEntries, if_true, hp, Bool.false_eq_true, if_false, List.append_assoc,
              List.cons_append, List.nil_append]
          | true =>
            obtain ⟨s, hs, htext⟩ := hown (.obj a) (List.mem_cons_self _ _) hp
            subst hs
            have hstep := searchValue_attributes_protected found f hf a _ m s hhead hself hp htext
            have hback : assignKey "$" (.obj a)
                (assignKey "_" (.text (f m s).1) (setText fired (done ++ ("$", .obj a) :: rest)))
                = setText (some (f m s).1) ((done ++ [("$", .obj a)]) ++ rest) := by
              rw [assignKey_of_lookupKey "$" (.obj a) _
                (by rw [lookupKey_assignKey_ne "_" "$" _ _ (by decide)]; exact hself),
                assignKey_text_setText, happ]
            have hIH := searchFields_regular found f hf rest (done ++ [("$", .obj a)])
              (some (f m s).1) (some s) parent (f m s).2 hrest (hnodup' _) (hvac _)
            simp only [searchFields, hP, if_false, hnow, Bool.false_eq_true, hstep, if_true,
              hback, hIH]
            simp only [mapEntries, if_true, hp, hnone.2, laterText, List.append_assoc,
              List.cons_append, List.nil_append]
      · -- an entry that is not the attribute map
        simp only [hD, if_false] at hhead
        have hvtext : ∀ s, v = .text s →
            searchFields found ((k, v) :: rest) (setText fired (done ++ (k, v) :: rest)) parent m
              = .ok ((mapEntries f own ((k, v) :: rest) m).2.1,
                  setText (laterText (mapEntries f own ((k, v) :: rest) m).2.2 fired)
                    (done ++ (mapEntries f own ((k, v) :: rest) m).1), parent) := by
          intro s hv
          subst hv
          have hIH := searchFields_regular found f hf rest (done ++ [(k, .text s)]) fired own
            parent m hrest (hnodup' _)
            (by
              intro a' hmem hp'
              have := hown a' (List.mem_cons_of_mem _ hmem) hp'
              rw [happ] at this
              exact this)
          rw [← happ] at hIH
          simp only [searchFields, hP, if_false, nowString, if_true, hIH]
          simp only [mapEntries, hD, if_false, mapValue, List.append_assoc, List.cons_append,
            List.nil_append]
        cases v with
        | text s => exact hvtext s rfl
        | obj fs =>
          have hk_ : k ≠ "_" := by
            intro h
            simp [h, isText] at hhead
          simp only [hk_, if_false] at hhead
          have hnow : nowString k (.obj fs) (setText fired (done ++ (k, .obj fs) :: rest))
              = false := by
            simp [nowString, hk_]
          have hstep := searchValue_regular found f hf (.obj fs)
            { kind := .object, fields := setText fired (done ++ (k, .obj fs) :: rest), slot := k }
            m hhead
          have hback := setText_append_cons_assign fired k (.obj fs) (mapValue f (.obj fs) m).1
            done rest hk_ hkdone
          have hIH := searchFields_regular found f hf rest
            (done ++ [(k, (mapValue f (.obj fs) m).1)]) fired own parent (mapValue f (.obj fs) m).2
            hrest (hnodup' _)
            (by
              intro a' hmem hp'
              obtain ⟨s, hs, ht⟩ := hown a' (List.mem_cons_of_mem _ hmem) hp'
              refine ⟨s, hs, ?_⟩
              rw [← happ, ← hback, lookupKey_assignKey_ne k "_" _ _ (Ne.symm hk_)]
              exact ht)
          rw [← happ] at hIH
          simp only [searchFields, hP, if_false, hnow, Bool.false_eq_true, hstep, if_true,
            hback, hIH]
          simp only [mapEntries, hD, if_false, List.append_assoc, List.cons_append,
            List.nil_append]
        | arr items =>
          have hk_ : k ≠ "_" := by
            intro h
            simp [h, isText] at hhead
          simp only [hk_, if_false] at hhead
          have hnow : nowString k (.arr items) (setText fired (done ++ (k, .arr items) :: rest))
              = false := by
            simp [nowString, hk_]
          have hstep := searchValue_regular found f hf (.arr items)
            { kind := .object, fields := setText fired (done ++ (k, .arr items) :: rest),
              slot := k } m hhead
          have hback := setText_append_cons_assign fired k (.arr items)
            (mapValue f (.arr items) m).1 done rest hk_ hkdone
          have hIH := searchFields_regular found f hf rest
            (done ++ [(k, (mapValue f (.arr items) m).1)]) fired own parent
            (mapValue f (.arr items) m).2 hrest (hnodup' _)
            (by
              intro a' hmem hp'
              obtain ⟨s, hs, ht⟩ := hown a' (List.mem_cons_of_mem _ hmem) hp'
              refine ⟨s, hs, ?_⟩
              rw [← happ, ← hback, lookupKey_assignKey_ne k "_" _ _ (Ne.symm hk_)]
              exact ht)
          rw [← happ] at hIH
          simp only [searchFields, hP, if_false, hnow, Bool.false_eq_true, hstep, if_true,
            hback, hIH]
          simp only [mapEntries, hD, if_false, List.append_assoc, List.cons_append,
            List.nil_append]
/-- The loop over the elements of an array that remain. -/
theorem searchItems_regular
    (found : SalsaManager → Entries → Except JsError (SalsaManager × Entries))
    (f : SalsaManager → JsString → JsString × SalsaManager) (hf : FoundBy found f) :
    ∀ (items : List Tree) (m : SalsaManager), regularItems items = true →
      searchItems found items m = .ok ((mapItems f items m).2, (mapItems f items m).1)
  | [], m, _ => by simp [searchItems, mapItems]
  | v :: rest, m, h => by
    simp only [regularItems, Bool.and_eq_true] at h
    have h1 := searchValue_regular found f hf v { kind := .array } m h.1
    have h2 := searchItems_regular found f hf rest (mapValue f v m).2 h.2
    simp only [searchItems, h1, h2, mapItems]
end

/-! ## The two stages are the traversal -/

theorem unlockFound_foundBy (P : Platform) : FoundBy (unlockFound P) (unlockText P) := by
  intro m view attributes hattr
  constructor
  · intro hp
    simp [unlockFound, hattr, hp]
  · intro hp s hs
    simp [unlockFound, hattr, hp, hs, unlockText]

theorem lockFound_foundBy (P : Platform) : FoundBy (lockFound P) (lockText P) := by
  intro m view attributes hattr
  constructor
  · intro hp
    simp [lockFound, hattr, hp]
  · intro hp s hs
    simp [lockFound, hattr, hp, hs, lockText]

theorem unlockText_calls (P : Platform) (m : SalsaManager) (s : JsString) :
    (unlockText P m s).2.calls = m.calls + 1 := rfl

theorem lockText_calls (P : Platform) (m : SalsaManager) (s : JsString) :
    (lockText P m s).2.calls = m.calls + 1 := rfl

/-! ## What the traversal does -/

theorem firesIn_nodup (todo : Entries) (hnodup : (keysOf todo).Nodup) (a : Tree)
    (hmem : ("$", a) ∈ todo) : lookupKey "$" todo = some a :=
  lookupKey_of_mem_nodup "$" a todo hnodup hmem

theorem fire_count_eq (fs : Entries)
    (hprot : nodeProtected fs = false ∨ (nodeText fs).isSome = true) :
    (match lookupKey "$" fs with
      | some a => if protectedIsTrue a = true ∧ (nodeText fs).isSome = true then 1 else 0
      | none => 0) = if nodeProtected fs = true then 1 else 0 := by
  unfold nodeProtected at hprot ⊢
  split
  · rename_i a hl
    rw [hl] at hprot
    by_cases hp : protectedIsTrue a = true
    · rcases hprot with h2 | h2
      · simp [hp] at h2
      · simp [h2]
    · simp [hp]
  · simp

mutual
/-- The cipher is called once for every protected node. -/
theorem mapValue_calls (f : SalsaManager → JsString → JsString × SalsaManager)
    (hcalls : ∀ m s, (f m s).2.calls = m.calls + 1) :
    ∀ (v : Tree) (m : SalsaManager), regularValue v = true →
      (mapValue f v m).2.calls = m.calls + countProtected v
  | .text s, m, _ => by simp [mapValue, countProtected]
  | .arr items, m, h => by
    simp only [regularValue] at h
    simp only [mapValue, countProtected, mapItems_calls f hcalls items m h]
  | .obj fs, m, h => by
    simp only [regularValue, Bool.and_eq_true, decide_eq_true_eq, Bool.or_eq_true,
      Bool.not_eq_true'] at h
    obtain ⟨⟨hnodup, hprot⟩, hreg⟩ := h
    have h1 := mapEntries_calls f hcalls fs (nodeText fs) m hreg hnodup
    simp only [mapValue, countProtected, h1]
    have hfire := fire_count_eq fs hprot
    rw [hfire]
    omega
/-- The calls made while the entries of a node are walked: one if the node is
protected and has text, and those of the nodes below. -/
theorem mapEntries_calls (f : SalsaManager → JsString → JsString × SalsaManager)
    (hcalls : ∀ m s, (f m s).2.calls = m.calls + 1) :
    ∀ (todo : Entries) (own : Option JsString) (m : SalsaManager), regularEntries todo = true →
      (keysOf todo).Nodup →
      (mapEntries f own todo m).2.1.calls
        = m.calls + countProtectedEntries todo
          + (match lookupKey "$" todo with
            | some a => if protectedIsTrue a = true ∧ own.isSome = true then 1 else 0
            | none => 0)
  | [], own, m, _, _ => by simp [mapEntries, countProtectedEntries, lookupKey]
  | (k, v) :: rest, own, m, hreg, hnodup => by
    simp only [regularEntries, Bool.and_eq_true] at hreg
    obtain ⟨hhead, hrest⟩ := hreg
    simp only [keysOf, List.map_cons, List.nodup_cons] at hnodup
    have hnr : (keysOf rest).Nodup := by simpa [keysOf] using hnodup.2
    by_cases hD : k = "$"
    · subst hD
      have hnone : lookupKey "$" rest = none := by
        cases hl : lookupKey "$" rest with
        | none => rfl
        | some x =>
          exfalso
          apply hnodup.1
          have := mem_keysOf_of_lookupKey "$" x rest hl
          simpa [keysOf] using this
      have hrec := fun m' => mapEntries_calls f hcalls rest own m' hrest hnr
      simp only [hnone] at hrec
      cases hp : protectedIsTrue v with
      | false =>
        simp only [mapEntries, if_true, hp, Bool.false_eq_true, if_false, hrec,
          countProtectedEntries, lookupKey, false_and]
        omega
      | true =>
        cases own with
        | none =>
          simp only [mapEntries, if_true, hp, hrec, countProtectedEntries, lookupKey,
            Option.isSome_none, Bool.false_eq_true, and_false, if_false]
          omega
        | some s =>
          simp only [mapEntries, if_true, hp, hrec, hcalls, countProtectedEntries, lookupKey,
            Option.isSome_some, and_self]
          omega
    · by_cases hP : k = "Protected"
      · simp [hP] at hhead
      · have hv : regularValue v = true := by
          simp only [hP, hD, if_false] at hhead
          by_cases hU : k = "_"
          · simp only [hU, if_true] at hhead
            cases v with
            | text s => rfl
            | obj x => simp [isText] at hhead
            | arr x => simp [isText] at hhead
          · simpa [hU] using hhead
        have h1 := mapValue_calls f hcalls v m hv
        have h2 := mapEntries_calls f hcalls rest own (mapValue f v m).2 hrest hnr
        simp only [mapEntries, hD, if_false, h2, h1, countProtectedEntries, lookupKey]
        omega
/-- The calls made while the elements of an array are walked. -/
theorem mapItems_calls (f : SalsaManager → JsString → JsString × SalsaManager)
    (hcalls : ∀ m s, (f m s).2.calls = m.calls + 1) :
    ∀ (items : List Tree) (m : SalsaManager), regularItems items = true →
      (mapItems f items m).2.calls = m.calls + countProtectedItems items
  | [], m, _ => by simp [mapItems, countProtectedItems]
  | v :: rest, m, h => by
    simp only [regularItems, Bool.and_eq_true] at h
    have h1 := mapValue_calls f hcalls v m h.1
    have h2 := mapItems_calls f hcalls rest (mapValue f v m).2 h.2
    simp only [mapItems, h2, h1, countProtectedItems]
    omega
end

theorem regularEntries_head_value (k : String) (v : Tree) (rest : Entries)
    (h : regularEntries ((k, v) :: rest) = true) (hD : k ≠ "$") :
    k ≠ "Protected" ∧ regularValue v = true ∧ (k = "_" → ∃ s, v = .text s)
      ∧ regularEntries rest = true := by
  simp only [regularEntries, Bool.and_eq_true] at h
  obtain ⟨hhead, hrest⟩ := h
  by_cases hP : k = "Protected"
  · simp [hP] at hhead
  · simp only [hP, hD, if_false] at hhead
    by_cases hU : k = "_"
    · simp only [hU, if_true] at hhead
      cases v with
      | text s => exact ⟨hP, rfl, fun _ => ⟨s, rfl⟩, hrest⟩
      | obj x => simp [isText] at hhead
      | arr x => simp [isText] at hhead
    · simp only [hU, if_false] at hhead
      exact ⟨hP, hhead, fun h => absurd h hU, hrest⟩

theorem regularEntries_head_dollar (v : Tree) (rest : Entries)
    (h : regularEntries (("$", v) :: rest) = true) :
    attributeMap v = true ∧ regularEntries rest = true := by
  simp only [regularEntries, Bool.and_eq_true] at h
  obtain ⟨hhead, hrest⟩ := h
  have : ¬ ("$" = "Protected") := by decide
  simp only [this, if_false, if_true] at hhead
  exact ⟨hhead, hrest⟩

theorem keysOf_mapEntries (f : SalsaManager → JsString → JsString × SalsaManager)
    (own : Option JsString) (todo : Entries) (m : SalsaManager) :
    keysOf (mapEntries f own todo m).1 = keysOf todo := by
  induction todo generalizing m with
  | nil => simp [mapEntries]
  | cons e rest ih =>
    obtain ⟨k, v⟩ := e
    have ih' : ∀ m, List.map Prod.fst (mapEntries f own rest m).1 = List.map Prod.fst rest := ih
    simp only [mapEntries]
    split
    · split <;> simp [keysOf, ih']
    · simp [keysOf, ih']

theorem lookupKey_dollar_mapEntries (f : SalsaManager → JsString → JsString × SalsaManager)
    (own : Option JsString) (todo : Entries) (m : SalsaManager) :
    lookupKey "$" (mapEntries f own todo m).1 = lookupKey "$" todo := by
  induction todo generalizing m with
  | nil => simp [mapEntries]
  | cons e rest ih =>
    obtain ⟨k, v⟩ := e
    by_cases hD : k = "$"
    · subst hD
      simp only [mapEntries, if_true]
      split <;> simp [lookupKey]
    · simp only [mapEntries, hD, if_false, lookupKey, ih]

theorem lookupKey_text_mapEntries (f : SalsaManager → JsString → JsString × SalsaManager)
    (own : Option JsString) (todo : Entries) (m : SalsaManager)
    (hreg : regularEntries todo = true) :
    lookupKey "_" (mapEntries f own todo m).1 = lookupKey "_" todo := by
  induction todo generalizing m with
  | nil => simp [mapEntries]
  | cons e rest ih =>
    obtain ⟨k, v⟩ := e
    by_cases hD : k = "$"
    · subst hD
      have hr := (regularEntries_head_dollar v rest hreg).2
      have hne : ¬ ("$" = "_") := by decide
      simp only [mapEntries, if_true]
      split <;> simp [lookupKey, hne, ih _ hr]
    · obtain ⟨-, -, htext, hr⟩ := regularEntries_head_value k v rest hreg hD
      by_cases hU : k = "_"
      · obtain ⟨s, hs⟩ := htext hU
        subst hs
        simp [mapEntries, hD, lookupKey, hU, mapValue]
      · simp only [mapEntries, hD, if_false, lookupKey, hU, ih _ hr]

theorem fired_mapEntries (f : SalsaManager → JsString → JsString × SalsaManager)
    (own : Option JsString) (todo : Entries) (m : SalsaManager) (t : JsString)
    (h : (mapEntries f own todo m).2.2 = some t) :
    ∃ a s, ("$", a) ∈ todo ∧ protectedIsTrue a = true ∧ own = some s := by
  induction todo generalizing m with
  | nil => simp [mapEntries] at h
  | cons e rest ih =>
    obtain ⟨k, v⟩ := e
    by_cases hD : k = "$"
    · subst hD
      simp only [mapEntries, if_true] at h
      cases hp : protectedIsTrue v with
      | false =>
        simp only [hp, Bool.false_eq_true, if_false] at h
        obtain ⟨a, s, hmem, hpa, hs⟩ := ih _ h
        exact ⟨a, s, List.mem_cons_of_mem _ hmem, hpa, hs⟩
      | true =>
        cases own with
        | none =>
          simp only [hp, if_true] at h
          obtain ⟨a, s, hmem, hpa, hs⟩ := ih _ h
          exact ⟨a, s, List.mem_cons_of_mem _ hmem, hpa, hs⟩
        | some s => exact ⟨v, s, List.mem_cons_self _ _, hp, rfl⟩
    · simp only [mapEntries, hD, if_false] at h
      obtain ⟨a, s, hmem, hpa, hs⟩ := ih _ h
      exact ⟨a, s, List.mem_cons_of_mem _ hmem, hpa, hs⟩

theorem nodeText_eq_some (fs : Entries) (s : JsString) (h : nodeText fs = some s) :
    lookupKey "_" fs = some (.text s) := by
  simp only [nodeText] at h
  split at h
  · rename_i s' hl
    simp only [Option.some.injEq] at h
    rw [hl, h]
  · cases h

theorem regularEntries_assign_text (t : JsString) (l : Entries)
    (h : regularEntries l = true) : regularEntries (assignKey "_" (.text t) l) = true := by
  induction l with
  | nil => simp [assignKey, regularEntries, isText]
  | cons e rest ih =>
    obtain ⟨k, v⟩ := e
    simp only [regularEntries, Bool.and_eq_true] at h
    by_cases hU : k = "_"
    · subst hU
      simp [assignKey, regularEntries, isText, h.2]
    · have h2 := ih h.2
      have h1 := h.1
      simp only [hU, if_false] at h1
      simp only [assignKey, hU, if_false, regularEntries, Bool.and_eq_true]
      exact ⟨h1, h2⟩

theorem nodeText_congr (a b : Entries) (h : lookupKey "_" a = lookupKey "_" b) :
    nodeText a = nodeText b := by
  simp only [nodeText, h]

theorem nodeProtected_congr (a b : Entries) (h : lookupKey "$" a = lookupKey "$" b) :
    nodeProtected a = nodeProtected b := by
  simp only [nodeProtected, h]

/-- What a node looks like after the traversal: the keys, the attribute map
and being protected stay; the text is the one the cipher returned, if it was
called, and the old one otherwise. -/
theorem node_after_mapEntries (f : SalsaManager → JsString → JsString × SalsaManager)
    (fs : Entries) (m : SalsaManager) (hnodup : (keysOf fs).Nodup)
    (hreg : regularEntries fs = true) :
    keysOf (setText (mapEntries f (nodeText fs) fs m).2.2 (mapEntries f (nodeText fs) fs m).1)
        = keysOf fs
      ∧ nodeProtected
          (setText (mapEntries f (nodeText fs) fs m).2.2 (mapEntries f (nodeText fs) fs m).1)
        = nodeProtected fs
      ∧ (nodeText
          (setText (mapEntries f (nodeText fs) fs m).2.2 (mapEntries f (nodeText fs) fs m).1)).isSome
        = (nodeText fs).isSome
      ∧ ((mapEntries f (nodeText fs) fs m).2.2.isSome = true → nodeProtected fs = true) := by
  have hk := keysOf_mapEntries f (nodeText fs) fs m
  have hd := lookupKey_dollar_mapEntries f (nodeText fs) fs m
  have ht := lookupKey_text_mapEntries f (nodeText fs) fs m hreg
  cases hfired : (mapEntries f (nodeText fs) fs m).2.2 with
  | none =>
    refine ⟨hk, ?_, ?_, ?_⟩
    · exact nodeProtected_congr _ _ hd
    · exact congrArg Option.isSome (nodeText_congr _ _ ht)
    · simp
  | some t =>
    obtain ⟨a, s, hmem, hpa, hs⟩ := fired_mapEntries f _ fs m t hfired
    have hl := lookupKey_of_mem_nodup "$" a fs hnodup hmem
    have hnp : nodeProtected fs = true := by simp [nodeProtected, hl, hpa]
    have hmemU : "_" ∈ keysOf (mapEntries f (nodeText fs) fs m).1 := by
      rw [hk]
      exact mem_keysOf_of_lookupKey "_" _ fs (nodeText_eq_some fs s hs)
    refine ⟨?_, ?_, ?_, fun _ => hnp⟩
    · simp only [setText]
      rw [keysOf_assignKey "_" _ _ hmemU, hk]
    · refine nodeProtected_congr _ _ ?_
      simp only [setText]
      rw [lookupKey_assignKey_ne "_" "$" _ _ (by decide), hd]
    · have h1 : nodeText (setText (some t) (mapEntries f (nodeText fs) fs m).1) = some t := by
        simp only [setText, nodeText, lookupKey_assignKey_same]
      rw [h1, hs]
      rfl

mutual
/-- The traversal of a regular tree yields a regular tree. -/
theorem regularValue_mapValue (f : SalsaManager → JsString → JsString × SalsaManager) :
    ∀ (v : Tree) (m : SalsaManager), regularValue v = true →
      regularValue (mapValue f v m).1 = true
  | .text s, m, _ => by simp [mapValue, regularValue]
  | .arr items, m, h => by
    simp only [regularValue] at h
    simp only [mapValue, regularValue, regularItems_mapItems f items m h]
  | .obj fs, m, h => by
    simp only [regularValue, Bool.and_eq_true, decide_eq_true_eq, Bool.or_eq_true,
      Bool.not_eq_true'] at h
    obtain ⟨⟨hnodup, hprot⟩, hreg⟩ := h
    obtain ⟨hk, hp, ht, -⟩ := node_after_mapEntries f fs m hnodup hreg
    have hE := regularEntries_mapEntries f fs (nodeText fs) m hreg
    have hE' : regularEntries
        (setText (mapEntries f (nodeText fs) fs m).2.2 (mapEntries f (nodeText fs) fs m).1)
        = true := by
      cases (mapEntries f (nodeText fs) fs m).2.2 with
      | none => exact hE
      | some t => exact regularEntries_assign_text t _ hE
    simp only [mapValue, regularValue, Bool.and_eq_true, decide_eq_true_eq, Bool.or_eq_true,
      Bool.not_eq_true', hk, hp, ht, hE', and_true]
    exact ⟨hnodup, hprot⟩
/-- The same for the entries of an object. -/
theorem regularEntries_mapEntries (f : SalsaManager → JsString → JsString × SalsaManager) :
    ∀ (todo : Entries) (own : Option JsString) (m : SalsaManager), regularEntries todo = true →
      regularEntries (mapEntries f own todo m).1 = true
  | [], own, m, _ => by simp [mapEntries, regularEntries]
  | (k, v) :: rest, own, m, hreg => by
    by_cases hD : k = "$"
    · subst hD
      obtain ⟨hmap, hrest⟩ := regularEntries_head_dollar v rest hreg
      have h1 := fun m' => regularEntries_mapEntries f rest own m' hrest
      have hne : ¬ ("$" = "Protected") := by decide
      simp only [mapEntries, if_true]
      split <;> simp [regularEntries, hne, hmap, h1]
    · obtain ⟨hP, hv, htext, hrest⟩ := regularEntries_head_value k v rest hreg hD
      have h1 := regularEntries_mapEntries f rest own (mapValue f v m).2 hrest
      have h2 := regularValue_mapValue f v m hv
      simp only [mapEntries, hD, if_false, regularEntries, hP, Bool.and_eq_true, h1, and_true]
      by_cases hU : k = "_"
      · obtain ⟨s, hs⟩ := htext hU
        subst hs
        simp [hU, mapValue, isText]
      · simp [hU, h2]
/-- The same for the elements of an array. -/
theorem regularItems_mapItems (f : SalsaManager → JsString → JsString × SalsaManager) :
    ∀ (items : List Tree) (m : SalsaManager), regularItems items = true →
      regularItems (mapItems f items m).1 = true
  | [], m, _ => by simp [mapItems, regularItems]
  | v :: rest, m, h => by
    simp only [regularItems, Bool.and_eq_true] at h
    simp only [mapItems, regularItems, Bool.and_eq_true]
    exact ⟨regularValue_mapValue f v m h.1, regularItems_mapItems f rest _ h.2⟩
end

theorem eraseProtectedEntries_assign_text (t s : JsString) (l : Entries)
    (h : lookupKey "_" l = some (.text s)) :
    eraseProtectedEntries true (assignKey "_" (.text t) l) = eraseProtectedEntries true l := by
  induction l with
  | nil => simp [lookupKey] at h
  | cons e rest ih =>
    obtain ⟨k, v⟩ := e
    by_cases hU : k = "_"
    · subst hU
      simp only [lookupKey, if_true, Option.some.injEq] at h
      subst h
      have hne : ¬ ("_" = "$") := by decide
      simp [assignKey, eraseProtectedEntries, hne, isText]
    · simp only [lookupKey, hU, if_false] at h
      simp only [assignKey, hU, if_false, eraseProtectedEntries, ih h]

mutual
/-- The traversal changes nothing but the text of protected nodes. -/
theorem eraseProtected_mapValue (f : SalsaManager → JsString → JsString × SalsaManager) :
    ∀ (v : Tree) (m : SalsaManager), regularValue v = true →
      eraseProtected (mapValue f v m).1 = eraseProtected v
  | .text s, m, _ => by simp [mapValue]
  | .arr items, m, h => by
    simp only [regularValue] at h
    simp only [mapValue, eraseProtected, eraseProtectedItems_mapItems f items m h]
  | .obj fs, m, h => by
    simp only [regularValue, Bool.and_eq_true, decide_eq_true_eq, Bool.or_eq_true,
      Bool.not_eq_true'] at h
    obtain ⟨⟨hnodup, hprot⟩, hreg⟩ := h
    obtain ⟨-, hp, -, hfp⟩ := node_after_mapEntries f fs m hnodup hreg
    have hE := eraseProtectedEntries_mapEntries f fs (nodeText fs) m (nodeProtected fs) hreg
    have ht := lookupKey_text_mapEntries f (nodeText fs) fs m hreg
    simp only [mapValue, eraseProtected, hp]
    congr 1
    rw [← hE]
    cases hfired : (mapEntries f (nodeText fs) fs m).2.2 with
    | none => rfl
    | some t =>
      have hnp : nodeProtected fs = true := hfp (by rw [hfired]; rfl)
      rcases hprot with h1 | h1
      · rw [hnp] at h1; cases h1
      · cases hs : nodeText fs with
        | none => rw [hs] at h1; cases h1
        | some s =>
          have hl := nodeText_eq_some fs s hs
          rw [← ht] at hl
          rw [hs] at hl
          simp only [setText, hnp]
          exact eraseProtectedEntries_assign_text t s _ hl
/-- The same for the entries of a node. -/
theorem eraseProtectedEntries_mapEntries
    (f : SalsaManager → JsString → JsString × SalsaManager) :
    ∀ (todo : Entries) (own : Option JsString) (m : SalsaManager) (isProtected : Bool),
      regularEntries todo = true →
      eraseProtectedEntries isProtected (mapEntries f own todo m).1
        = eraseProtectedEntries isProtected todo
  | [], own, m, isProtected, _ => by simp [mapEntries]
  | (k, v) :: rest, own, m, isProtected, hreg => by
    by_cases hD : k = "$"
    · subst hD
      obtain ⟨-, hrest⟩ := regularEntries_head_dollar v rest hreg
      have h1 := fun m' => eraseProtectedEntries_mapEntries f rest own m' isProtected hrest
      simp only [mapEntries, if_true]
      split <;> simp [eraseProtectedEntries, h1]
    · obtain ⟨-, hv, htext, hrest⟩ := regularEntries_head_value k v rest hreg hD
      have h1 := eraseProtectedEntries_mapEntries f rest own (mapValue f v m).2 isProtected hrest
      have h2 := eraseProtected_mapValue f v m hv
      simp only [mapEntries, hD, if_false, eraseProtectedEntries, h1, h2]
      by_cases hU : k = "_"
      · obtain ⟨s, hs⟩ := htext hU
        subst hs
        simp [mapValue]
      · simp [hU]
/-- The same for the elements of an array. -/
theorem eraseProtectedItems_mapItems (f : SalsaManager → JsString → JsString × SalsaManager) :
    ∀ (items : List Tree) (m : SalsaManager), regularItems items = true →
      eraseProtectedItems (mapItems f items m).1 = eraseProtectedItems items
  | [], m, _ => by simp [mapItems]
  | v :: rest, m, h => by
    simp only [regularItems, Bool.and_eq_true] at h
    simp only [mapItems, eraseProtectedItems, eraseProtected_mapValue f v m h.1,
      eraseProtectedItems_mapItems f rest _ h.2]
end

/-! ## Unlocking and locking again -/

theorem mapEntries_assign_text (g : SalsaManager → JsString → JsString × SalsaManager)
    (own : Option JsString) (u s : JsString) (l : Entries) (m : SalsaManager)
    (h : lookupKey "_" l = some (.text s)) :
    mapEntries g own (assignKey "_" (.text u) l) m
      = (assignKey "_" (.text u) (mapEntries g own l m).1, (mapEntries g own l m).2.1,
          (mapEntries g own l m).2.2) := by
  induction l generalizing m with
  | nil => simp [lookupKey] at h
  | cons e rest ih =>
    obtain ⟨k, v⟩ := e
    by_cases hU : k = "_"
    · subst hU
      simp only [lookupKey, if_true, Option.some.injEq] at h
      subst h
      have hne : ¬ ("_" = "$") := by decide
      simp [assignKey, mapEntries, hne, mapValue]
    · simp only [lookupKey, hU, if_false] at h
      have ih' := fun m' => ih m' h
      by_cases hD : k = "$"
      · subst hD
        simp only [assignKey, hU, if_false, mapEntries, if_true]
        split <;> simp [ih', assignKey, hU]
      · simp only [assignKey, hU, if_false, mapEntries, hD, ih']

theorem protectedTextsAllEntries_head_value (p : JsString → Bool) (k : String) (v : Tree)
    (rest : Entries) (h : protectedTextsAllEntries p ((k, v) :: rest) = true) (hD : k ≠ "$") :
    protectedTextsAll p v = true ∧ protectedTextsAllEntries p rest = true := by
  simpa [protectedTextsAllEntries, hD] using h

theorem protectedTextsAllEntries_head_dollar (p : JsString → Bool) (v : Tree) (rest : Entries)
    (h : protectedTextsAllEntries p (("$", v) :: rest) = true) :
    protectedTextsAllEntries p rest = true := by
  simpa [protectedTextsAllEntries] using h

mutual
/-- When the text function `g` undoes `f` at the same keystream state, for
every text that satisfies `p`, the traversal with `g` undoes the traversal
with `f` on a regular tree whose protected texts satisfy `p`. -/
theorem mapValue_roundTrip (f g : SalsaManager → JsString → JsString × SalsaManager)
    (p : JsString → Bool) (hinv : ∀ m s, p s = true → g m (f m s).1 = (s, (f m s).2)) :
    ∀ (v : Tree) (m : SalsaManager), regularValue v = true → protectedTextsAll p v = true →
      mapValue g (mapValue f v m).1 m = (v, (mapValue f v m).2)
  | .text s, m, _, _ => by simp [mapValue]
  | .arr items, m, h, hp => by
    simp only [regularValue] at h
    simp only [protectedTextsAll] at hp
    simp only [mapValue, mapItems_roundTrip f g p hinv items m h hp]
  | .obj fs, m, h, hp => by
    simp only [regularValue, Bool.and_eq_true, decide_eq_true_eq, Bool.or_eq_true,
      Bool.not_eq_true'] at h
    obtain ⟨⟨hnodup, hprot⟩, hreg⟩ := h
    simp only [protectedTextsAll, Bool.and_eq_true, Bool.or_eq_true, Bool.not_eq_true'] at hp
    obtain ⟨hpnode, hpentries⟩ := hp
    have hown : ∀ a, ("$", a) ∈ fs → protectedIsTrue a = true →
        ∃ s, nodeText fs = some s ∧ p s = true := by
      intro a hmem hpa
      have hl := lookupKey_of_mem_nodup "$" a fs hnodup hmem
      have hnp : nodeProtected fs = true := by simp [nodeProtected, hl, hpa]
      rcases hprot with h1 | h1
      · rw [hnp] at h1; cases h1
      · cases hs : nodeText fs with
        | none => rw [hs] at h1; cases h1
        | some s =>
          rcases hpnode with h2 | h2
          · rw [hnp] at h2; cases h2
          · rw [hs] at h2
            exact ⟨s, rfl, h2⟩
    have ht := lookupKey_text_mapEntries f (nodeText fs) fs m hreg
    cases hfired : (mapEntries f (nodeText fs) fs m).2.2 with
    | none =>
      have hnt : nodeText (mapEntries f (nodeText fs) fs m).1 = nodeText fs :=
        nodeText_congr _ _ ht
      have hR := mapEntries_roundTrip f g p hinv fs (nodeText fs) (nodeText fs) m hreg hnodup
        hpentries hown (by intro u hu; rw [hfired] at hu; cases hu)
      simp only [hfired] at hR
      have hfirst : mapValue f (.obj fs) m
          = (.obj (mapEntries f (nodeText fs) fs m).1, (mapEntries f (nodeText fs) fs m).2.1) := by
        simp only [mapValue, hfired, setText]
      rw [hfirst]
      simp only [mapValue, hnt, hR, setText]
    | some u =>
      obtain ⟨a, s, hmem, hpa, hs⟩ := fired_mapEntries f _ fs m u hfired
      have hl : lookupKey "_" (mapEntries f (nodeText fs) fs m).1 = some (.text s) := by
        rw [ht]; exact nodeText_eq_some fs s hs
      have hnt : nodeText (assignKey "_" (.text u) (mapEntries f (nodeText fs) fs m).1)
          = some u := by
        simp only [nodeText, lookupKey_assignKey_same]
      have hR := mapEntries_roundTrip f g p hinv fs (nodeText fs) (some u) m hreg hnodup
        hpentries hown (by intro u' hu; rw [hfired] at hu; exact hu ▸ rfl)
      simp only [hfired] at hR
      have hpatch := mapEntries_assign_text g (some u) u s _ m hl
      rw [hR] at hpatch
      dsimp only at hpatch
      have hback : assignKey "_" (.text s) (assignKey "_" (.text u) fs) = fs := by
        rw [assignKey_assignKey]
        exact assignKey_of_lookupKey "_" (.text s) fs (nodeText_eq_some fs s hs)
      have hfirst : mapValue f (.obj fs) m
          = (.obj (assignKey "_" (.text u) (mapEntries f (nodeText fs) fs m).1),
              (mapEntries f (nodeText fs) fs m).2.1) := by
        simp only [mapValue, hfired, setText]
      rw [hfirst]
      simp only [mapValue, hnt, hpatch, setText]
      rw [hs]
      simp only [hback]
/-- The same for the entries of a node, `own'` being the text the node has
when the second traversal starts. -/
theorem mapEntries_roundTrip (f g : SalsaManager → JsString → JsString × SalsaManager)
    (p : JsString → Bool) (hinv : ∀ m s, p s = true → g m (f m s).1 = (s, (f m s).2)) :
    ∀ (todo : Entries) (own own' : Option JsString) (m : SalsaManager),
      regularEntries todo = true → (keysOf todo).Nodup →
      protectedTextsAllEntries p todo = true →
      (∀ a, ("$", a) ∈ todo → protectedIsTrue a = true → ∃ s, own = some s ∧ p s = true) →
      (∀ u, (mapEntries f own todo m).2.2 = some u → own' = some u) →
      mapEntries g own' (mapEntries f own todo m).1 m
        = (todo, (mapEntries f own todo m).2.1,
            match (mapEntries f own todo m).2.2 with
            | some _ => own
            | none => none)
  | [], own, own', m, _, _, _, _, _ => by simp [mapEntries]
  | (k, v) :: rest, own, own', m, hreg, hnodup, hp, hown, hown' => by
    simp only [keysOf, List.map_cons, List.nodup_cons] at hnodup
    have hnr : (keysOf rest).Nodup := by simpa [keysOf] using hnodup.2
    have hownr : ∀ a, ("$", a) ∈ rest → protectedIsTrue a = true →
        ∃ s, own = some s ∧ p s = true :=
      fun a hmem hpa => hown a (List.mem_cons_of_mem _ hmem) hpa
    by_cases hD : k = "$"
    · subst hD
      obtain ⟨-, hrest⟩ := regularEntries_head_dollar v rest hreg
      have hpr := protectedTextsAllEntries_head_dollar p v rest hp
      have hkrest : "$" ∉ keysOf rest := by simpa [keysOf] using hnodup.1
      have hnone := fun m' => mapEntries_fired_none f own rest m' hkrest
      have hvac : ∀ m' u, (mapEntries f own rest m').2.2 = some u → own' = some u := by
        intro m' u hu
        rw [hnone m'] at hu
        cases hu
      cases hpv : protectedIsTrue v with
      | false =>
        have hR := mapEntries_roundTrip f g p hinv rest own own' m hrest hnr hpr hownr (hvac m)
        simp only [mapEntries, if_true, hpv, Bool.false_eq_true, if_false, hR, hnone]
      | true =>
        obtain ⟨s, hs, hps⟩ := hown v (List.mem_cons_self _ _) hpv
        subst hs
        have hu : own' = some (f m s).1 := by
          apply hown'
          simp only [mapEntries, if_true, hpv]
        subst hu
        have hR := mapEntries_roundTrip f g p hinv rest (some s) (some (f m s).1) (f m s).2 hrest
          hnr hpr hownr (hvac _)
        have hg := hinv m s hps
        simp only [mapEntries, if_true, hpv, hg, hR, hnone]
    · obtain ⟨-, hv, -, hrest⟩ := regularEntries_head_value k v rest hreg hD
      obtain ⟨hpv, hpr⟩ := protectedTextsAllEntries_head_value p k v rest hp hD
      have hV := mapValue_roundTrip f g p hinv v m hv hpv
      have hR := mapEntries_roundTrip f g p hinv rest own own' (mapValue f v m).2 hrest hnr hpr
        hownr (by
          intro u hu
          apply hown'
          simp only [mapEntries, hD, if_false]
          exact hu)
      simp only [mapEntries, hD, if_false, hV, hR]
/-- The same for the elements of an array. -/
theorem mapItems_roundTrip (f g : SalsaManager → JsString → JsString × SalsaManager)
    (p : JsString → Bool) (hinv : ∀ m s, p s = true → g m (f m s).1 = (s, (f m s).2)) :
    ∀ (items : List Tree) (m : SalsaManager), regularItems items = true →
      protectedTextsAllItems p items = true →
      mapItems g (mapItems f items m).1 m = (items, (mapItems f items m).2)
  | [], m, _, _ => by simp [mapItems]
  | v :: rest, m, h, hp => by
    simp only [regularItems, Bool.and_eq_true] at h
    simp only [protectedTextsAllItems, Bool.and_eq_true] at hp
    have h1 := mapValue_roundTrip f g p hinv v m h.1 hp.1
    have h2 := mapItems_roundTrip f g p hinv rest (mapValue f v m).2 h.2 hp.2
    simp only [mapItems, h1, h2]
end

/-! ## The cipher, applied twice at the same position -/

theorem xorChar_xorChar (c : CodeUnit) (k : Byte) : xorChar (xorChar c k) k = c := by
  apply Fin.ext
  simp [xorChar, Nat.xor_assoc]

theorem keystreamXor_length (P : Platform) (key iv : Bytes) (l : JsString) (position : Nat) :
    (keystreamXor P key iv position l).length = l.length := by
  induction l generalizing position with
  | nil => simp [keystreamXor]
  | cons c rest ih => simp [keystreamXor, ih]

theorem keystreamXor_keystreamXor (P : Platform) (key iv : Bytes) (l : JsString)
    (position : Nat) :
    keystreamXor P key iv position (keystreamXor P key iv position l) = l := by
  induction l generalizing position with
  | nil => simp [keystreamXor]
  | cons c rest ih => simp [keystreamXor, ih, xorChar_xorChar]

theorem lockText_unlockText (P : Platform) (m : SalsaManager) (s : JsString)
    (h : canonicalBase64 P s = true) :
    lockText P m (unlockText P m s).1 = (s, (unlockText P m s).2) := by
  simp only [canonicalBase64, decide_eq_true_eq] at h
  simp only [lockText, unlockText, SalsaManager.unpack, keystreamXor_keystreamXor,
    keystreamXor_length, binaryToBuffer_bufferToBinary, h]

/-! ## The two stages on a regular tree -/

theorem unlockProtectedEntries_regular (P : Platform) (db : KeePassDatabase) (key : Bytes)
    (t : Tree) (hkey : P.headerGet db.header .ProtectedStreamKey = .buffer key)
    (hreg : regularValue t = true) :
    unlockProtectedEntries P t db
      = (db, .next (mapValue (unlockText P) t { key := P.sha256 key, iv := SALSA_IV }).1) := by
  simp only [unlockProtectedEntries, hkey,
    searchValue_regular (unlockFound P) (unlockText P) (unlockFound_foundBy P) t _ _ hreg]

theorem lockProtectedEntries_regular (P : Platform) (db : KeePassDatabase) (key : Bytes)
    (t : Tree) (hkey : P.headerGet db.header .ProtectedStreamKey = .buffer key)
    (hreg : regularValue t = true) :
    lockProtectedEntries P (some t) db
      = (db, .next (some (mapValue (lockText P) t { key := P.sha256 key, iv := SALSA_IV }).1)) := by
  simp only [lockProtectedEntries, hkey,
    searchValue_regular (lockFound P) (lockText P) (lockFound_foundBy P) t _ _ hreg]

theorem demoHeaderOnly_streamKey :
    demoPlatform.headerGet demoHeaderOnly.header .ProtectedStreamKey = .buffer [5] := by
  rfl

theorem demoTree_regular : regularValue demoTree = true := by
  decide

theorem demoTree_canonical : protectedTextsAll (canonicalBase64 demoPlatform) demoTree = true := by
  rfl

/-! ## The protected entries: what the two stages do -/

/-- C13 (amended to the trees the code handles): on a regular tree, one in
which the key `Protected` occurs in attribute maps only (see `regularValue`),
and with a buffer as `ProtectedStreamKey`, the search of `unlockProtectedEntries`
and the search of `lockProtectedEntries` both return without raising and leave
the parent `null` as it was; each stage hands on the tree the search built;
both searches are the same traversal `mapValue` (pre-order, object keys in
order), with `unlockText` and with `lockText` as the text function; the
cipher is called once for each node whose attribute map has `Protected` equal
to `'True'` and for no other node (the fresh `SalsaManager` has made
`countProtected t` calls afterwards); and the tree afterwards differs from the
tree before in the text of those nodes only. -/
theorem stages_call_cipher_once_per_protected_node (P : Platform) (db : KeePassDatabase)
    (key : Bytes) (t : Tree)
    (hkey : P.headerGet db.header .ProtectedStreamKey = .buffer key)
    (hreg : regularValue t = true) :
    ∃ (mU mL : SalsaManager) (tU tL : Tree),
      searchValue (unlockFound P) t { kind := .null } { key := P.sha256 key, iv := SALSA_IV }
          = .ok (mU, tU, { kind := .null })
        ∧ searchValue (lockFound P) t { kind := .null } { key := P.sha256 key, iv := SALSA_IV }
          = .ok (mL, tL, { kind := .null })
        ∧ unlockProtectedEntries P t db = (db, .next tU)
        ∧ lockProtectedEntries P (some t) db = (db, .next (some tL))
        ∧ mapValue (unlockText P) t { key := P.sha256 key, iv := SALSA_IV } = (tU, mU)
        ∧ mapValue (lockText P) t { key := P.sha256 key, iv := SALSA_IV } = (tL, mL)
        ∧ mU.calls = countProtected t
        ∧ mL.calls = countProtected t
        ∧ eraseProtected tU = eraseProtected t
        ∧ eraseProtected tL = eraseProtected t := by
  refine ⟨_, _, _, _,
    searchValue_regular (unlockFound P) (unlockText P) (unlockFound_foundBy P) t _ _ hreg,
    searchValue_regular (lockFound P) (lockText P) (lockFound_foundBy P) t _ _ hreg,
    unlockProtectedEntries_regular P db key t hkey hreg,
    lockProtectedEntries_regular P db key t hkey hreg, rfl, rfl, ?_, ?_,
    eraseProtected_mapValue (unlockText P) t _ hreg,
    eraseProtected_mapValue (lockText P) t _ hreg⟩
  · rw [mapValue_calls (unlockText P) (unlockText_calls P) t _ hreg]
    simp
  · rw [mapValue_calls (lockText P) (lockText_calls P) t _ hreg]
    simp

/-- Witness for C13: the two stages on `demoTree`, which has two protected nodes. -/
theorem stages_call_cipher_once_per_protected_node_witness :
    regularValue demoTree = true ∧ countProtected demoTree = 2 ∧
    ∃ (mU mL : SalsaManager) (tU tL : Tree),
      searchValue (unlockFound demoPlatform) demoTree { kind := .null }
          { key := demoPlatform.sha256 [5], iv := SALSA_IV } = .ok (mU, tU, { kind := .null })
        ∧ searchValue (lockFound demoPlatform) demoTree { kind := .null }
          { key := demoPlatform.sha256 [5], iv := SALSA_IV } = .ok (mL, tL, { kind := .null })
        ∧ unlockProtectedEntries demoPlatform demoTree demoHeaderOnly = (demoHeaderOnly, .next tU)
        ∧ lockProtectedEntries demoPlatform (some demoTree) demoHeaderOnly
          = (demoHeaderOnly, .next (some tL))
        ∧ mapValue (unlockText demoPlatform) demoTree
            { key := demoPlatform.sha256 [5], iv := SALSA_IV } = (tU, mU)
        ∧ mapValue (lockText demoPlatform) demoTree
            { key := demoPlatform.sha256 [5], iv := SALSA_IV } = (tL, mL)
        ∧ mU.calls = countProtected demoTree
        ∧ mL.calls = countProtected demoTree
        ∧ eraseProtected tU = eraseProtected demoTree
        ∧ eraseProtected tL = eraseProtected demoTree :=
  ⟨demoTree_regular, by decide,
    stages_call_cipher_once_per_protected_node demoPlatform demoHeaderOnly [5] demoTree
      demoHeaderOnly_streamKey demoTree_regular⟩

/-- Counterexample to C13 as stated: the parsed tree of
`<r><Protected>x</Protected></r>` has an element named `Protected`; both
stages call `foundFn` with the root, which has no `$` entry, and raise a
`TypeError`. -/
theorem stages_raise_on_element_named_protected :
    unlockProtectedEntries demoPlatform demoTreeElementNamedProtected demoHeaderOnly
        = (demoHeaderOnly, .halt (.thrown .type))
      ∧ lockProtectedEntries demoPlatform (some demoTreeElementNamedProtected) demoHeaderOnly
        = (demoHeaderOnly, .halt (.thrown .type)) := by
  constructor <;> rfl

/-! ## The protected entries: unlocking and locking again -/

/-- C12 (amended to the trees the code handles): on a regular tree, one in
which the key `Protected` occurs in attribute maps only (see `regularValue`),
whose protected nodes have canonical base64 text, and for two instances with
the same buffer as `ProtectedStreamKey`: the unlock stage of `load` hands on a
tree, and the lock stage of `save`, run on that tree with its own fresh
`SalsaManager`, hands on the original tree: every protected text has its
base64 value again and nothing else has changed. `SalsaManager.unpack` is the
XOR with one continuous keystream. -/
theorem unlock_then_lock_restores_tree (P : Platform) (db db' : KeePassDatabase)
    (key : Bytes) (t : Tree)
    (hkey : P.headerGet db.header .ProtectedStreamKey = .buffer key)
    (hkey' : P.headerGet db'.header .ProtectedStreamKey = .buffer key)
    (hreg : regularValue t = true)
    (hcanon : protectedTextsAll (canonicalBase64 P) t = true) :
    ∃ unlocked : Tree,
      unlockProtectedEntries P t db = (db, .next unlocked)
        ∧ lockProtectedEntries P (some unlocked) db' = (db', .next (some t)) := by
  refine ⟨_, unlockProtectedEntries_regular P db key t hkey hreg, ?_⟩
  rw [lockProtectedEntries_regular P db' key _ hkey' (regularValue_mapValue _ t _ hreg),
    mapValue_roundTrip (unlockText P) (lockText P) (canonicalBase64 P)
      (fun m s h => lockText_unlockText P m s h) t _ hreg hcanon]

/-- Witness for C12: unlocking and locking `demoTree`. -/
theorem unlock_then_lock_restores_tree_witness :
    regularValue demoTree = true
      ∧ protectedTextsAll (canonicalBase64 demoPlatform) demoTree = true
      ∧ ∃ unlocked : Tree,
          unlockProtectedEntries demoPlatform demoTree demoHeaderOnly
              = (demoHeaderOnly, .next unlocked)
            ∧ lockProtectedEntries demoPlatform (some unlocked) demoHeaderOnly
              = (demoHeaderOnly, .next (some demoTree)) :=
  ⟨demoTree_regular, demoTree_canonical,
    unlock_then_lock_restores_tree demoPlatform demoHeaderOnly demoHeaderOnly [5] demoTree
      demoHeaderOnly_streamKey demoHeaderOnly_streamKey demoTree_regular demoTree_canonical⟩

/-- Counterexample to C12 as stated: `demoTreeProtectedBeside` has one
protected node, with canonical base64 text, and an element named `Protected`
beside it; the unlock stage raises a `TypeError` and hands on no tree, so
nothing is restored. -/
theorem unlock_raises_beside_protected_node :
    countProtected demoTreeProtectedBeside = 1
      ∧ protectedTextsAll (canonicalBase64 demoPlatform) demoTreeProtectedBeside = true
      ∧ unlockProtectedEntries demoPlatform demoTreeProtectedBeside demoHeaderOnly
        = (demoHeaderOnly, .halt (.thrown .type)) := by
  refine ⟨by decide, ?_, ?_⟩ <;> rfl

end KeePass
